import Mathlib

/-!
Verification of the `symtree` textual serialization format and its helper
crates (`codepoint`, `ascase`) from the `justmessage` repository.

Conventions of the embedding:
* Rust `String`/`&str` values and all wire text are modeled as `List Char`
  (a Rust string is a sequence of Unicode scalar values; the byte-level
  UTF-8 view is modeled separately in the `Codepoint` section and related
  to the character view by the decoding theorems).
* Rust `u8` bytes are modeled as `Nat` with explicit `< 256` reasoning.
* Fallible Rust functions returning `Result<T, Error>` are modeled as
  `Except Error T`; `unimplemented!()` panics are modeled as `Option`
  results (`none` = panic).
-/

namespace Codepoint

/-- Bit masks from src/codepoint/src/lib.rs. -/
def MASK_0 : Nat := 0x00

def MASK_1 : Nat := 0x80

def MASK_2 : Nat := 0xC0

def MASK_3 : Nat := 0xE0

def MASK_4 : Nat := 0xF0

def MASK_5 : Nat := 0xF8

/-- Rust `char::try_from(u32)`: succeeds exactly on Unicode scalar values
(no surrogates, at most 0x10FFFF). `Nat.isValidChar` is that predicate. -/
def charFromNat? (n : Nat) : Option Char :=
  if n.isValidChar then some (Char.ofNat n) else none

/-- The `for _ in 0..tail` continuation-byte loop of `next_code_point`:
read `tail` bytes, each required to match the `10xxxxxx` pattern
(`tail & MASK_2 == MASK_1`), and fold their 6 payload bits
(`tail & !MASK_2`, i.e. `& 0x3F`) into the accumulator. Running out of
input inside the loop is the error, not a clean end. -/
def contLoop (err : ε) : Nat → Nat → List Nat → Except ε (Nat × List Nat)
  | 0, code, bs => .ok (code, bs)
  | _ + 1, _, [] => .error err
  | k + 1, code, b :: bs =>
    if b &&& MASK_2 = MASK_1 then
      contLoop err k ((code <<< 6) ||| (b &&& 0x3F)) bs
    else .error err

/-- `next_code_point` (src/codepoint/src/lib.rs, lines 41-70), over an
infallible byte source modeled as the list of remaining bytes. `Ok none`
is the clean end of input before a lead byte; a successful decode returns
the scalar value and the remaining bytes. The classification `match`
mirrors the source, including its (unreachable) first arm for
`head & MASK_1 == MASK_0`; `& !MASK_3 = & 0x1F`, `& !MASK_4 = & 0x0F`,
`& !MASK_5 = & 0x07`. -/
def next_code_point (bs : List Nat) (err : ε) : Except ε (Option (Char × List Nat)) :=
  match bs with
  | [] => .ok none
  | head :: rest =>
    if head &&& MASK_1 = MASK_0 then .ok (some (Char.ofNat head, rest))
    else
      let cls : Option (Nat × Nat) :=
        if head &&& MASK_1 = MASK_0 then some (head, 0)
        else if head &&& MASK_3 = MASK_2 then some (head &&& 0x1F, 1)
        else if head &&& MASK_4 = MASK_3 then some (head &&& 0x0F, 2)
        else if head &&& MASK_5 = MASK_4 then some (head &&& 0x07, 3)
        else none
      match cls with
      | none => .error err
      | some (h, tail) =>
        match contLoop err tail h rest with
        | .error e => .error e
        | .ok (code, rest') =>
          match charFromNat? code with
          | some c => .ok (some (c, rest'))
          | none => .error err

/-- The continuation-byte loop of `try_next_code_point`: identical to
`contLoop` except that reading a byte can itself fail (`let tail = tail?`),
which propagates that failure. -/
def tryContLoop (err : ε) : Nat → Nat → List (Except ε Nat) → Except ε (Nat × List (Except ε Nat))
  | 0, code, bs => .ok (code, bs)
  | _ + 1, _, [] => .error err
  | k + 1, code, item :: bs =>
    match item with
    | .error e => .error e
    | .ok b =>
      if b &&& MASK_2 = MASK_1 then
        tryContLoop err k ((code <<< 6) ||| (b &&& 0x3F)) bs
      else .error err

/-- `try_next_code_point` (src/codepoint/src/lib.rs, lines 8-39): the same
algorithm over a fallible byte source (each item is a byte or a read
error, propagated by `?`). -/
def try_next_code_point (bs : List (Except ε Nat)) (err : ε) :
    Except ε (Option (Char × List (Except ε Nat))) :=
  match bs with
  | [] => .ok none
  | item :: rest =>
    match item with
    | .error e => .error e
    | .ok head =>
      if head &&& MASK_1 = MASK_0 then .ok (some (Char.ofNat head, rest))
      else
        let cls : Option (Nat × Nat) :=
          if head &&& MASK_1 = MASK_0 then some (head, 0)
          else if head &&& MASK_3 = MASK_2 then some (head &&& 0x1F, 1)
          else if head &&& MASK_4 = MASK_3 then some (head &&& 0x0F, 2)
          else if head &&& MASK_5 = MASK_4 then some (head &&& 0x07, 3)
          else none
        match cls with
        | none => .error err
        | some (h, tail) =>
          match tryContLoop err tail h rest with
          | .error e => .error e
          | .ok (code, rest') =>
            match charFromNat? code with
            | some c => .ok (some (c, rest'))
            | none => .error err

/-- The UTF-8 byte sequence of a character, as produced by Rust's
`str::bytes` on a `String` holding it. Modelled from the spec: the byte
view of a Rust string is not in src/ (it is `std`); this is the standard
UTF-8 encoding (1-4 bytes by scalar range). -/
def utf8EncodeChar (c : Char) : List Nat :=
  let n := c.toNat
  if n < 0x80 then [n]
  else if n < 0x800 then [0xC0 + n / 64, 0x80 + n % 64]
  else if n < 0x10000 then [0xE0 + n / 4096, 0x80 + n / 64 % 64, 0x80 + n % 64]
  else [0xF0 + n / 262144, 0x80 + n / 4096 % 64, 0x80 + n / 64 % 64, 0x80 + n % 64]

/-- The UTF-8 byte sequence of a string (character list). -/
def utf8Encode (cs : List Char) : List Nat := cs.flatMap utf8EncodeChar

/-- The harness of the crate's own test: repeatedly call `next_code_point`
until the clean end, collecting the characters. Structured on fuel, which
the wrapper `decodeAll` instantiates with more than the byte count (each
decoded character consumes at least one byte, so the fuel never runs out
there; fuel exhaustion reports `err`). -/
def decodeAllGo (err : ε) : Nat → List Nat → Except ε (List Char)
  | 0, _ => .error err
  | k + 1, bs =>
    match next_code_point bs err with
    | .error e => .error e
    | .ok none => .ok []
    | .ok (some (c, rest)) =>
      match decodeAllGo err k rest with
      | .error e => .error e
      | .ok cs => .ok (c :: cs)

/-- Decode a whole byte sequence into its characters. -/
def decodeAll (bs : List Nat) (err : ε) : Except ε (List Char) :=
  decodeAllGo err (bs.length + 1) bs

end Codepoint

namespace Ascase

/-- `char::to_ascii_lowercase` is exactly Lean's `Char.toLower`
(lowers only `A`-`Z`). -/
def toAsciiLowercase (c : Char) : Char := c.toLower

/-- Rust `char::is_uppercase` (Unicode `Uppercase` property). Exact on
ASCII (where it is `A`-`Z`, Lean's `Char.isUpper`); non-ASCII uppercase
letters are approximated as not uppercase, and every theorem below
restricts its inputs to ASCII, where the model is exact. -/
def rustIsUppercase (c : Char) : Bool := c.isUpper

/-- Rust `char::to_uppercase` (Unicode full uppercase mapping, a character
sequence). Exact on ASCII (single-character `Char.toUpper`); non-ASCII is
approximated as the identity, and every theorem below restricts its
inputs to ASCII, where the model is exact. -/
def rustToUppercase (c : Char) : List Char :=
  if c.toNat < 128 then [c.toUpper] else [c]

/-- `ToKebabCase` (src/ascase/src/lib.rs, lines 81-102): the lazy
PascalCase→kebab-case character transform. The iterator state is the
`first` flag plus a pending-character slot; unfolded over the remaining
input it yields this list: an uppercase character that is not the first
emits `-` followed by its ASCII-lowered form, anything else emits its
ASCII-lowered form directly. -/
def toKebabGo (first : Bool) : List Char → List Char
  | [] => []
  | c :: rest =>
    let sep := rustIsUppercase c && !first
    let c' := toAsciiLowercase c
    if sep then '-' :: c' :: toKebabGo false rest
    else c' :: toKebabGo false rest

/-- `ToKebabCase::new` starts with `first = true`; this is the full
character stream the iterator produces (also the `as_snake_case`
transform that `symtree` applies to struct and variant names — the
`FromSnakeCase`/`as_snake_case` names used by `symtree` are the
pre-rename names of `FromKebabCase`/`to_kebab_case`, see the `TODO:
rename to kebab case` comment in src/ascase/src/lib.rs). -/
def to_kebab_case (cs : List Char) : List Char := toKebabGo true cs

/-- `FromKebabCase` (src/ascase/src/lib.rs, lines 14-19): the accumulating
kebab-case→PascalCase consumer. -/
structure FromKebabCase where
  first : Bool
  sep : Bool
  buffer : List Char
deriving DecidableEq, Repr

/-- `FromKebabCase::new`. -/
def FromKebabCase.new : FromKebabCase := ⟨true, false, []⟩

/-- `FromKebabCase::push` (src/ascase/src/lib.rs, lines 39-52): a separator
sets the `sep` flag and emits nothing; at the start of the identifier or
of a segment the character is pushed uppercased (`buffer.extend
(c.to_uppercase())`), otherwise unchanged. -/
def FromKebabCase.push (st : FromKebabCase) (c : Char) : FromKebabCase :=
  if c = '-' then { st with sep := true, first := false }
  else if st.first || st.sep then
    { first := false, sep := false, buffer := st.buffer ++ rustToUppercase c }
  else
    { first := false, sep := false, buffer := st.buffer ++ [c] }

/-- Feed a whole character sequence through `push`. -/
def FromKebabCase.pushAll (st : FromKebabCase) (cs : List Char) : FromKebabCase :=
  cs.foldl FromKebabCase.push st

/-- The `Display` impl of `FromKebabCase` prints the accumulated buffer. -/
def FromKebabCase.render (st : FromKebabCase) : List Char := st.buffer

end Ascase

namespace Symtree

/-- The error type of `symtree` (src/symtree/src/error.rs). -/
inductive Error where
  | io
  | message (msg : String)
  | invalidUtf8
  | eof
  | invalidEscape (c : Char)
  | numberOverflow
  | expectedChar (one_of : List Char) (found : Char) (row col : Nat)
  | expectedIdentifier
  | trailingCharacters
deriving DecidableEq, Repr

/-- Rust `char::is_whitespace` (the Unicode `White_Space` property),
used by `Deserializer::skip_whitespace`. -/
def rustIsWhitespace (c : Char) : Bool :=
  c.toNat ∈ [0x09, 0x0A, 0x0B, 0x0C, 0x0D, 0x20, 0x85, 0xA0, 0x1680,
    0x2000, 0x2001, 0x2002, 0x2003, 0x2004, 0x2005, 0x2006, 0x2007,
    0x2008, 0x2009, 0x200A, 0x2028, 0x2029, 0x202F, 0x205F, 0x3000]

/-- Rust pattern `'0'..='9'` used in the numeric parsers. -/
def isDecDigit (c : Char) : Bool := '0' ≤ c && c ≤ '9'

/-- The deserializer state (src/symtree/src/de.rs, `struct Deserializer`).
The Rust struct holds a one-character lookahead `peeked` refilled from a
UTF-8 `Reader`; over a valid UTF-8 source (the `from_str` entry point) the
lookahead is always `Ok` and equals the head of the remaining decoded
character stream, so the state is the current position plus that stream. -/
structure De where
  row : Nat
  col : Nat
  input : List Char
deriving DecidableEq, Repr

/-- Position update of `Deserializer::next_char`: a newline starts a new
row at column 0, anything else advances the column. -/
def advancePos (row col : Nat) (c : Char) : Nat × Nat :=
  if c = '\n' then (row + 1, 0) else (row, col + 1)

/-- `('0'..='9').collect()`, the `one_of` set of the numeric parsers. -/
def decDigits : List Char := ['0', '1', '2', '3', '4', '5', '6', '7', '8', '9']

/-- `u64::MAX`. -/
def u64Max : Nat := 18446744073709551615

/-- `i64::MAX`. -/
def i64Max : Int := 9223372036854775807

/-- `i64::MIN`. -/
def i64Min : Int := -9223372036854775808

/-- Rust `u64::checked_mul`. -/
def u64_checked_mul (a b : Nat) : Option Nat :=
  if a * b ≤ u64Max then some (a * b) else none

/-- Rust `u64::checked_add`. -/
def u64_checked_add (a b : Nat) : Option Nat :=
  if a + b ≤ u64Max then some (a + b) else none

/-- Rust `i64::checked_mul`. -/
def i64_checked_mul (a b : Int) : Option Int :=
  if i64Min ≤ a * b ∧ a * b ≤ i64Max then some (a * b) else none

/-- Rust `i64::checked_add`. -/
def i64_checked_add (a b : Int) : Option Int :=
  if i64Min ≤ a + b ∧ a + b ≤ i64Max then some (a + b) else none

namespace De

/-- `Deserializer::next_char`: consume the lookahead (EOF if none),
update the row/column position, refill the lookahead. -/
def next_char (d : De) : Except Error (Char × De) :=
  match d.input with
  | [] => .error .eof
  | c :: rest =>
    .ok (c, { row := (advancePos d.row d.col c).1,
              col := (advancePos d.row d.col c).2, input := rest })

/-- `Deserializer::next_if`: consume the next character only when it
satisfies the predicate. -/
def next_if (d : De) (p : Char → Bool) : Except Error (Option Char × De) :=
  match d.input with
  | [] => .ok (none, d)
  | c :: _ =>
    if p c then
      match d.next_char with
      | .ok (c', d') => .ok (some c', d')
      | .error e => .error e
    else .ok (none, d)

end De

/-- The loop of `Deserializer::skip_whitespace`: consume while the
lookahead is whitespace (`next_if(|c| c.is_whitespace())`). -/
def skipWsGo (row col : Nat) : List Char → De
  | [] => ⟨row, col, []⟩
  | c :: rest =>
    if rustIsWhitespace c then
      skipWsGo (advancePos row col c).1 (advancePos row col c).2 rest
    else ⟨row, col, c :: rest⟩

/-- `Deserializer::skip_whitespace`. -/
def De.skip_whitespace (d : De) : De := skipWsGo d.row d.col d.input

/-- The loop of `Deserializer::expects_imm`: require each expected
character in turn; a mismatch reports the position captured before the
loop started. -/
def expectsImmGo (row₀ col₀ : Nat) : List Char → De → Except Error De
  | [], d => .ok d
  | c :: cs, d =>
    match d.next_char with
    | .error e => .error e
    | .ok (found, d') =>
      if found = c then expectsImmGo row₀ col₀ cs d'
      else .error (.expectedChar [c] found row₀ col₀)

/-- `Deserializer::expects_imm` (src/symtree/src/de.rs, lines 252-267). -/
def De.expects_imm (d : De) (cs : List Char) : Except Error De :=
  expectsImmGo d.row d.col cs d

/-- `Deserializer::expects` (src/symtree/src/de.rs, lines 248-251):
skip whitespace, then require the literal character sequence. -/
def De.expects (d : De) (cs : List Char) : Except Error De :=
  (d.skip_whitespace).expects_imm cs

/-- `Deserializer::expects_either` (src/symtree/src/de.rs, lines 232-246):
skip whitespace, then require one of two characters. -/
def De.expects_either (d : De) (lhs rhs : Char) : Except Error (Char × De) :=
  let d := d.skip_whitespace
  let col := d.col
  let row := d.row
  match d.next_char with
  | .error e => .error e
  | .ok (c, d') =>
    if c = lhs then .ok (c, d')
    else if c = rhs then .ok (c, d')
    else .error (.expectedChar [lhs, rhs] c row col)

/-- One accumulation step of the `u64` digit loops:
`acc.checked_mul(base).ok_or(NumberOverflow)?` then
`.checked_add(digit).ok_or(NumberOverflow)?`. -/
def u64MulAdd (base acc dv : Nat) : Except Error Nat :=
  match u64_checked_mul acc base with
  | none => .error .numberOverflow
  | some m =>
    match u64_checked_add m dv with
    | none => .error .numberOverflow
    | some a => .ok a

/-- One accumulation step of the `i64` digit loop, as `u64MulAdd`. -/
def i64MulAdd (base acc dv : Int) : Except Error Int :=
  match i64_checked_mul acc base with
  | none => .error .numberOverflow
  | some m =>
    match i64_checked_add m dv with
    | none => .error .numberOverflow
    | some a => .ok a

/-- The digit-accumulation loop of `Deserializer::parse_u64`: while the
lookahead is a decimal digit, multiply the accumulator by 10 and add the
digit, each step overflow-checked (reject, never wrap). -/
def parseU64Go (acc : Nat) (row col : Nat) : List Char → Except Error (Nat × De)
  | [] => .ok (acc, ⟨row, col, []⟩)
  | c :: rest =>
    if isDecDigit c then
      match u64MulAdd 10 acc (c.toNat - '0'.toNat) with
      | .error e => .error e
      | .ok a => parseU64Go a (advancePos row col c).1 (advancePos row col c).2 rest
    else .ok (acc, ⟨row, col, c :: rest⟩)

/-- `Deserializer::parse_u64` (src/symtree/src/de.rs, lines 179-201):
skip whitespace, require a first decimal digit (`Eof` on end of input,
`ExpectedChar` otherwise), then accumulate with overflow checking. -/
def De.parse_u64 (d : De) : Except Error (Nat × De) :=
  let d := d.skip_whitespace
  match d.input with
  | [] => .error .eof
  | first :: _ =>
    if isDecDigit first then parseU64Go 0 d.row d.col d.input
    else .error (.expectedChar decDigits first d.row d.col)

/-- The digit-accumulation loop of `Deserializer::parse_i64`: the
accumulator is a (non-negative) `i64`, overflow-checked at each
multiply/add step against the `i64` range. -/
def parseI64Go (acc : Int) (row col : Nat) : List Char → Except Error (Int × De)
  | [] => .ok (acc, ⟨row, col, []⟩)
  | c :: rest =>
    if isDecDigit c then
      match i64MulAdd 10 acc ((c.toNat : Int) - ('0'.toNat : Int)) with
      | .error e => .error e
      | .ok a => parseI64Go a (advancePos row col c).1 (advancePos row col c).2 rest
    else .ok (acc, ⟨row, col, c :: rest⟩)

/-- `Deserializer::parse_i64` (src/symtree/src/de.rs, lines 203-230):
skip whitespace, require a `+`/`-` sign, require a first decimal digit,
accumulate the magnitude in a non-negative `i64` with overflow checking,
and apply the sign at the very end (`signum * acc`). -/
def De.parse_i64 (d : De) : Except Error (Int × De) :=
  let d := d.skip_whitespace
  match d.expects_either '+' '-' with
  | .error e => .error e
  | .ok (sign, d) =>
    let signum : Int := if sign = '+' then 1 else -1
    match d.input with
    | [] => .error .eof
    | first :: _ =>
      if isDecDigit first then
        match parseI64Go 0 d.row d.col d.input with
        | .error e => .error e
        | .ok (acc, d') => .ok (signum * acc, d')
      else .error (.expectedChar decDigits first d.row d.col)

/-- `Deserializer::parse_nat::<T>` (src/symtree/src/de.rs, lines 166-171):
`parse_u64` followed by `T::try_from`, modeled by the target type's
maximum; out of range is `NumberOverflow`. -/
def De.parse_nat (d : De) (max : Nat) : Except Error (Nat × De) :=
  match d.parse_u64 with
  | .error e => .error e
  | .ok (n, d') => if n ≤ max then .ok (n, d') else .error .numberOverflow

/-- `Deserializer::parse_int::<T>` (src/symtree/src/de.rs, lines 172-177):
`parse_i64` followed by `T::try_from`, modeled by the target type's
range; out of range is `NumberOverflow`. -/
def De.parse_int (d : De) (lo hi : Int) : Except Error (Int × De) :=
  match d.parse_i64 with
  | .error e => .error e
  | .ok (n, d') =>
    if lo ≤ n ∧ n ≤ hi then .ok (n, d') else .error .numberOverflow

/-- Rust pattern `'0'..='9' | 'a'..='f'` of `parse_hex`. -/
def isHexDigit (c : Char) : Bool :=
  ('0' ≤ c && c ≤ '9') || ('a' ≤ c && c ≤ 'f')

/-- Digit value used in `parse_hex`. -/
def hexVal (c : Char) : Nat :=
  if '0' ≤ c && c ≤ '9' then c.toNat - '0'.toNat else c.toNat - 'a'.toNat + 10

/-- The loop of `Deserializer::parse_hex`: consume zero or more lowercase
hex digits, overflow-checked into a `u64` accumulator (16·acc + digit). -/
def parseHexGo (acc : Nat) (row col : Nat) : List Char → Except Error (Nat × De)
  | [] => .ok (acc, ⟨row, col, []⟩)
  | c :: rest =>
    if isHexDigit c then
      match u64MulAdd 16 acc (hexVal c) with
      | .error e => .error e
      | .ok a => parseHexGo a (advancePos row col c).1 (advancePos row col c).2 rest
    else .ok (acc, ⟨row, col, c :: rest⟩)

/-- `Deserializer::parse_hex` (src/symtree/src/de.rs, lines 152-164):
starts from accumulator 0 and accepts zero digits. -/
def De.parse_hex (d : De) : Except Error (Nat × De) :=
  parseHexGo 0 d.row d.col d.input

/-- `Deserializer::parse_escape` (src/symtree/src/de.rs, lines 268-284):
after the `\` introducer, accept `'`, `"`, `n`, `\`, or `{hex}` (a hex
scalar value, `u32::try_from` then `char::try_from`, both failures being
`NumberOverflow`, then a mandatory `}`); anything else is
`InvalidEscape`. -/
def De.parse_escape (d : De) : Except Error (Char × De) :=
  match d.next_char with
  | .error e => .error e
  | .ok (c, d) =>
    if c = '\'' then .ok ('\'', d)
    else if c = '"' then .ok ('"', d)
    else if c = 'n' then .ok ('\n', d)
    else if c = '\\' then .ok ('\\', d)
    else if c = '\x7b' then
      match d.parse_hex with
      | .error e => .error e
      | .ok (u, d) =>
        if u ≤ 4294967295 then
          match Codepoint.charFromNat? u with
          | none => .error .numberOverflow
          | some ch =>
            match d.expects_imm ['\x7d'] with
            | .error e => .error e
            | .ok d => .ok (ch, d)
        else .error .numberOverflow
    else .error (.invalidEscape c)

/-- Rust `char::is_alphanumeric` (Unicode `Alphabetic` plus the number
categories), used by `parse_ident`. Exact on ASCII (letters and digits);
non-ASCII is approximated, and every theorem below keeps identifiers in
ASCII, where the model is exact. -/
def rustIsAlphanumeric (c : Char) : Bool := c.isAlpha || c.isDigit

/-- The loop of `Deserializer::parse_ident`: feed every
alphanumeric-or-`-` character through the kebab-case consumer. -/
def parseIdentGo (st : Ascase.FromKebabCase) (row col : Nat) :
    List Char → Ascase.FromKebabCase × De
  | [] => (st, ⟨row, col, []⟩)
  | c :: rest =>
    if rustIsAlphanumeric c || c = '-' then
      parseIdentGo (st.push c) (advancePos row col c).1 (advancePos row col c).2 rest
    else (st, ⟨row, col, c :: rest⟩)

/-- `Deserializer::parse_ident` (src/symtree/src/de.rs, lines 139-150):
skip whitespace, run the characters through `FromSnakeCase`
(= `FromKebabCase`, see `Ascase.to_kebab_case`), reject an identifier
that collected nothing. -/
def De.parse_ident (d : De) : Except Error (List Char × De) :=
  let d := d.skip_whitespace
  let (st, d') := parseIdentGo .new d.row d.col d.input
  if st.render = [] then .error .expectedIdentifier
  else .ok (st.render, d')

/-! ## The data model

`serde` values as walked by the `Serialize`/`Deserialize` double dispatch:
the shapes the format supports. Signed integers of every width serialize
identically (`{:+}`), so one constructor carries the mathematical value;
the width only matters on the decode side, where it appears in `Shape`. -/

mutual
inductive Value where
  | vBool (b : Bool)
  | vInt (n : Int)
  | vNat (n : Nat)
  | vChar (c : Char)
  | vStr (s : List Char)
  | vNone
  | vSome (v : Value)
  | vUnit
  | vSeq (elems : List Value)
  | vMap (entries : List (Value × Value))
  | vStruct (name : List Char) (fields : List Value)
  | vVariant (variant : List Char) (arg : VariantValue)
inductive VariantValue where
  | unitV
  | newtypeV (v : Value)
  | tupleV (vs : List Value)
  | structV (fs : List Value)
end

/-! The static type description driving the decode side (what a derived
`Deserialize` impl asks the `Deserializer` for). Integer shapes carry the
bit width of the target type (8/16/32/64 in Rust). -/
mutual
inductive Shape where
  | sBool
  | sInt (bits : Nat)
  | sNat (bits : Nat)
  | sChar
  | sString
  | sUnit
  | sOption (s : Shape)
  | sList (s : Shape)
  | sTuple (ss : List Shape)
  | sMap (key value : Shape)
  | sStruct (name : List Char) (fields : List Shape)
  | sEnum (variants : List (List Char × VariantShape))
inductive VariantShape where
  | unitVS
  | newtypeVS (s : Shape)
  | tupleVS (ss : List Shape)
  | structVS (fs : List Shape)
end

/-! ## The serializer (src/symtree/src/se.rs) -/

/-- `enum Sep` (src/symtree/src/se.rs, lines 18-23). -/
inductive Sep where
  | none
  | line
  | lineOrSpace
deriving DecidableEq, Repr

/-- `struct Serializer` (src/symtree/src/se.rs, lines 9-16): the pending
separator, the optional indentation depth (`None` = compact mode), and
the output bytes (a `List Char`; the serializer only ever appends). -/
structure Serializer where
  sep : Sep
  indent : Option Nat
  output : List Char
deriving DecidableEq, Repr

/-- `write!(self.output, ...)`: append text (infallible over an in-memory
buffer, which is all `to_string` uses). -/
def Serializer.write (st : Serializer) (cs : List Char) : Serializer :=
  { st with output := st.output ++ cs }

/-- `Serializer::ensure_spacing` (src/symtree/src/se.rs, lines 58-73):
resolve the pending separator. In pretty mode (`indent = some level`)
both `Line` and `LineOrSpace` force a newline plus `2·level` spaces; in
compact mode `Line` and `None` emit nothing and `LineOrSpace` a single
space. Arms in source order. -/
def Serializer.ensure_spacing (st : Serializer) : Serializer :=
  match st.sep, st.indent with
  | .lineOrSpace, some level
  | .line, some level =>
    { st with output := st.output ++ '\n' :: List.replicate (2 * level) ' ',
              sep := .none }
  | .line, _
  | .none, _ => { st with sep := .none }
  | .lineOrSpace, _ =>
    { st with output := st.output ++ [' '], sep := .none }

/-- `Serializer::indent`: increment the level in pretty mode. -/
def Serializer.indentInc (st : Serializer) : Serializer :=
  match st.indent with
  | some level => { st with indent := some (level + 1) }
  | none => st

/-- `Serializer::dedent`: decrement the level in pretty mode. -/
def Serializer.dedent (st : Serializer) : Serializer :=
  match st.indent with
  | some level => { st with indent := some (level - 1) }
  | none => st

/-- Decimal digits of a natural number, most significant first: the text
`write!("{}", v)` produces for an unsigned integer. The fuel (first
argument) is an upper bound on the digit count; `decimalRepr` supplies
`n + 1`, which always suffices. -/
def decimalGo : Nat → Nat → List Char → List Char
  | 0, _, acc => acc
  | f + 1, n, acc =>
    if n < 10 then Char.ofNat ('0'.toNat + n) :: acc
    else decimalGo f (n / 10) (Char.ofNat ('0'.toNat + n % 10) :: acc)

/-- Rust `write!("{}", v)` for an unsigned integer. -/
def decimalRepr (n : Nat) : List Char := decimalGo (n + 1) n []

/-- Rust `write!("{:+}", v)` for a signed integer: mandatory sign, then
the decimal digits of the magnitude. -/
def signedRepr (n : Int) : List Char :=
  if n < 0 then '-' :: decimalRepr n.natAbs else '+' :: decimalRepr n.toNat

/-- Lowercase hex digits of a natural number, most significant first
(Rust `{:x}`), fuel as in `decimalGo`. -/
def hexGo : Nat → Nat → List Char → List Char
  | 0, _, acc => acc
  | f + 1, n, acc =>
    let d := n % 16
    let c := if d < 10 then Char.ofNat ('0'.toNat + d) else Char.ofNat ('a'.toNat + d - 10)
    if n < 16 then c :: acc
    else hexGo f (n / 16) (c :: acc)

/-- Rust `write!("{:x}", n)`. -/
def hexRepr (n : Nat) : List Char := hexGo (n + 1) n []

/-- Rust `char::is_printable` (the pretty-printable classification used
by `escape_debug`). Exact on ASCII, where it is the visible range
0x20-0x7E; non-ASCII printability comes from a generated Unicode table
and is approximated here as non-printable (escaped), so every theorem
below keeps character and string contents in ASCII, where the model is
exact. -/
def rustIsPrintable (c : Char) : Bool :=
  0x20 ≤ c.toNat && c.toNat < 0x7F

/-- Rust `{:?}` for a `char` (the `Debug` impl `serialize_char` uses):
`escape_debug` with the single quote escaped and the double quote left
alone; `\0`, `\t`, `\r`, `\n`, `\\` named escapes; printable characters
literal; everything else `\u{hex}`. -/
def escapeDebugChar (c : Char) : List Char :=
  if c = Char.ofNat 0 then ['\\', '0']
  else if c = '\t' then ['\\', 't']
  else if c = '\r' then ['\\', 'r']
  else if c = '\n' then ['\\', 'n']
  else if c = '\\' then ['\\', '\\']
  else if c = '\'' then ['\\', '\'']
  else if rustIsPrintable c then [c]
  else '\\' :: 'u' :: '\x7b' :: (hexRepr c.toNat ++ ['\x7d'])

/-- Rust `{:?}` for one character of a `str` (the `Debug` impl
`serialize_str` uses): as `escapeDebugChar` but with the double quote
escaped and the single quote left alone. -/
def escapeDebugStrChar (c : Char) : List Char :=
  if c = Char.ofNat 0 then ['\\', '0']
  else if c = '\t' then ['\\', 't']
  else if c = '\r' then ['\\', 'r']
  else if c = '\n' then ['\\', 'n']
  else if c = '\\' then ['\\', '\\']
  else if c = '"' then ['\\', '"']
  else if rustIsPrintable c then [c]
  else '\\' :: 'u' :: '\x7b' :: (hexRepr c.toNat ++ ['\x7d'])

/-- `?`-style propagation for the serializer: `none` models the
`unimplemented!()` panic, which aborts the whole `to_string`. -/
def bindO (e : Option Serializer) (f : Serializer → Option Serializer) : Option Serializer :=
  match e with
  | Option.none => Option.none
  | some st => f st

mutual
/-- The `Serializer` walking a value (the `ser::Serializer` impl,
src/symtree/src/se.rs lines 86-294). `none` models the `unimplemented!()`
panics (`serialize_newtype_variant`, `serialize_tuple_variant`); nothing
else can fail over an in-memory buffer. Sequences and tuples emit
identically in this impl (`serialize_seq`/`serialize_tuple` and their
element loops differ only in pretty-mode indent handling); `vSeq` follows
the `serialize_seq`/`SerializeSeq` path. -/
def serializeValue (st : Serializer) : Value → Option Serializer
  | .vBool b => some (st.write (if b then "true".data else "false".data))
  | .vInt n => some (st.write (signedRepr n))
  | .vNat n => some (st.write (decimalRepr n))
  | .vChar c => some (st.write ('\'' :: escapeDebugChar c ++ ['\'']))
  | .vStr s => some (st.write ('"' :: s.flatMap escapeDebugStrChar ++ ['"']))
  | .vNone => some (st.write "(none)".data)
  | .vSome v =>
    let st := st.write "(some".data
    let st := { st with sep := .lineOrSpace }
    let st := st.indentInc
    let st := st.ensure_spacing
    bindO (serializeValue st v) fun st =>
      let st := st.write ")".data
      let st := st.dedent
      some { st with sep := .lineOrSpace }
  | .vUnit => some (st.write "(unit)".data)
  | .vSeq vs =>
    let st := st.write "[".data
    let st := st.indentInc
    let st := { st with sep := .line }
    bindO (serializeElems st vs) fun st =>
      let st := st.write "]".data
      let st := st.dedent
      some { st with sep := .lineOrSpace }
  | .vMap es =>
    let st := st.write "(map".data
    let st := st.indentInc
    let st := { st with sep := .lineOrSpace }
    bindO (serializeEntries st es) fun st =>
      let st := st.write ")".data
      some st.dedent
  | .vStruct name fs =>
    let st := st.write ('(' :: Ascase.to_kebab_case name)
    let st := st.indentInc
    let st := { st with sep := .lineOrSpace }
    bindO (serializeFields st fs) fun st =>
      let st := st.write ")".data
      some st.dedent
  | .vVariant variant arg => serializeVariant st variant arg

/-- The four enum-variant serializers: `serialize_unit_variant` emits
`(kebab-name)`; `serialize_newtype_variant` and `serialize_tuple_variant`
are `unimplemented!()` (modeled as `none`); `serialize_struct_variant`
opens `(kebab-name` and its field loop/`end` are identical to the struct
ones. -/
def serializeVariant (st : Serializer) (variant : List Char) :
    VariantValue → Option Serializer
  | .unitV => some (st.write ('(' :: Ascase.to_kebab_case variant ++ [')']))
  | .newtypeV _ => none
  | .tupleV _ => none
  | .structV fs =>
    let st := st.write ('(' :: Ascase.to_kebab_case variant)
    let st := st.indentInc
    let st := { st with sep := .lineOrSpace }
    bindO (serializeFields st fs) fun st =>
      let st := st.write ")".data
      some st.dedent

/-- `SerializeSeq::serialize_element` iterated, then nothing (the `end`
that writes `]` is in the `vSeq` case): resolve spacing, take the indent
for the element, serialize, restore, pend `LineOrSpace`. -/
def serializeElems (st : Serializer) : List Value → Option Serializer
  | [] => some st
  | v :: vs =>
    let st := st.ensure_spacing
    let saved := st.indent
    let st := { st with indent := Option.none }
    bindO (serializeValue st v) fun st =>
      let st := { st with indent := saved }
      serializeElems { st with sep := .lineOrSpace } vs

/-- `SerializeStruct::serialize_field` iterated (also the
`SerializeStructVariant` loop, which is identical): resolve spacing,
serialize the field value (fields are positional, the key is dropped),
pend `LineOrSpace`. -/
def serializeFields (st : Serializer) : List Value → Option Serializer
  | [] => some st
  | v :: vs =>
    let st := st.ensure_spacing
    match serializeValue st v with
    | none => none
    | some st => serializeFields { st with sep := .lineOrSpace } vs

/-- `SerializeMap::serialize_key` then `serialize_value` iterated:
the key resolves the pending separator, writes `[`, pends `Line`,
serializes the key with the indent taken; the value pends `LineOrSpace`,
serializes with the indent taken, writes `]`. Note that nothing pends a
separator after the closing `]`, so the next entry's spacing depends on
what the previous entry's value left in `sep`. -/
def serializeEntries (st : Serializer) : List (Value × Value) → Option Serializer
  | [] => some st
  | (k, v) :: es =>
    let st := st.ensure_spacing
    let st := st.write "[".data
    let st := { st with sep := .line }
    let saved := st.indent
    let st := { st with indent := Option.none }
    let st := st.ensure_spacing
    bindO (serializeValue st k) fun st =>
      let st := { st with indent := saved }
      let st := { st with sep := .lineOrSpace }
      let saved2 := st.indent
      let st := { st with indent := Option.none }
      let st := st.ensure_spacing
      bindO (serializeValue st v) fun st =>
        let st := { st with indent := saved2 }
        let st := st.write "]".data
        serializeEntries st es
end

/-- `to_string` (src/symtree/src/se.rs, lines 25-36): serialize into an
empty buffer in compact mode (`sep: None, indent: None`). `none` is the
`unimplemented!()` panic. -/
def to_string (v : Value) : Option (List Char) :=
  (serializeValue ⟨.none, Option.none, []⟩ v).map Serializer.output

/-! ## The shape-directed deserializer (src/symtree/src/de.rs)

A derived `Deserialize` impl drives the `Deserializer` according to the
static `Shape`; the functions below are the composition of the
`de::Deserializer` methods with the visitors such an impl supplies. The
`fuel` argument is a modeling artifact: the Rust recursion has no fuel
and always terminates because every successful step consumes input;
`from_str` supplies `2·|input| + 2`, which the round-trip development
proves sufficient, and exhaustion reports an (unreachable there)
`Message` error. -/

/-- The variant-name match of a derived enum `Deserialize`: find the
variant with the parsed identifier. -/
def findVariant (name : List Char) :
    List (List Char × VariantShape) → Option VariantShape
  | [] => Option.none
  | (n, vs) :: rest => if n = name then some vs else findVariant name rest

/-- Rust's `?` operator on a `Result<De, Error>` expression: propagate
the error, otherwise continue with the new deserializer state. -/
def bindE1 (e : Except Error De) (f : De → Except Error β) : Except Error β :=
  match e with
  | .error err => .error err
  | .ok d => f d

/-- Rust's `?` operator on a `Result<(A, De), Error>` expression. -/
def bindE2 (e : Except Error (α × De)) (f : α → De → Except Error β) : Except Error β :=
  match e with
  | .error err => .error err
  | .ok (a, d) => f a d

mutual
/-- One value of the given shape, as parsed by the corresponding
`deserialize_*` method (src/symtree/src/de.rs, lines 287-571) driven by a
derived `Deserialize` impl; the `?` chains are written with
`bindE1`/`bindE2`. -/
def parseShape : Nat → Shape → De → Except Error (Value × De)
  | 0, _, _ => .error (.message "recursion limit")
  | fuel + 1, s, d =>
    match s with
    | .sBool =>
      -- deserialize_bool: `t`/`f` then the rest of the keyword
      bindE2 (d.expects_either 't' 'f') fun c d =>
        if c = 't' then
          bindE1 (d.expects_imm "rue".data) fun d => .ok (.vBool true, d)
        else
          bindE1 (d.expects_imm "alse".data) fun d => .ok (.vBool false, d)
    | .sInt bits =>
      -- deserialize_i8/i16/i32/i64 → visit_iN(parse_int()?)
      bindE2 (d.parse_int (-(2 ^ (bits - 1))) (2 ^ (bits - 1) - 1)) fun n d =>
        .ok (.vInt n, d)
    | .sNat bits =>
      -- deserialize_u8/u16/u32/u64 → visit_uN(parse_nat()?)
      bindE2 (d.parse_nat (2 ^ bits - 1)) fun n d => .ok (.vNat n, d)
    | .sChar =>
      -- deserialize_char
      bindE1 (d.expects ['\'']) fun d =>
        bindE2 d.next_char fun c d =>
          bindE2 (if c = '\\' then d.parse_escape else .ok (c, d)) fun c d =>
            bindE1 (d.expects_imm ['\'']) fun d => .ok (.vChar c, d)
    | .sString =>
      -- deserialize_str
      bindE1 (d.expects ['"']) fun d => parseStrLoop fuel [] d
    | .sUnit =>
      -- deserialize_unit
      bindE1 (d.expects "(".data) fun d =>
        bindE1 (d.expects "unit".data) fun d =>
          bindE1 (d.expects ")".data) fun d => .ok (.vUnit, d)
    | .sOption s =>
      -- deserialize_option
      bindE1 (d.expects "(".data) fun d =>
        bindE2 (d.expects_either 's' 'n') fun c d =>
          if c = 's' then
            bindE1 (d.expects_imm "ome".data) fun d =>
              bindE2 (parseShape fuel s d) fun v d =>
                bindE1 (d.expects ")".data) fun d => .ok (.vSome v, d)
          else
            bindE1 (d.expects_imm "one".data) fun d =>
              bindE1 (d.expects ")".data) fun d => .ok (.vNone, d)
    | .sList s =>
      -- Vec<T>: deserialize_seq, visitor loops next_element_seed
      bindE1 (d.expects "[".data) fun d =>
        bindE2 (parseList fuel s d) fun vs d =>
          bindE1 (d.expects "]".data) fun d => .ok (.vSeq vs, d)
    | .sTuple ss =>
      -- tuples/arrays: deserialize_tuple = deserialize_seq, fixed arity
      bindE1 (d.expects "[".data) fun d =>
        bindE2 (parseTupleElems fuel ss d) fun vs d =>
          bindE1 (d.expects "]".data) fun d => .ok (.vSeq vs, d)
    | .sMap ks vls =>
      -- deserialize_map
      bindE1 (d.expects "(".data) fun d =>
        bindE1 (d.expects "map".data) fun d =>
          bindE2 (parseMapEntries fuel ks vls d) fun es d =>
            bindE1 (d.expects ")".data) fun d => .ok (.vMap es, d)
    | .sStruct name fields =>
      -- deserialize_struct: `(` kebab(name) positional fields `)`
      bindE1 (d.expects "(".data) fun d =>
        bindE1 (d.expects (Ascase.to_kebab_case name)) fun d =>
          bindE2 (parseTupleElems fuel fields d) fun vs d =>
            bindE1 (d.expects ")".data) fun d => .ok (.vStruct name vs, d)
    | .sEnum variants =>
      -- deserialize_enum: visit_enum → variant_seed (deserialize_identifier)
      bindE1 (d.expects "(".data) fun d =>
        bindE2 d.parse_ident fun name d =>
          match findVariant name variants with
          | Option.none => .error (.message "unknown variant")
          | some vs =>
            bindE2 (parseVariantPayload fuel vs d) fun arg d =>
              bindE1 (d.expects ")".data) fun d => .ok (.vVariant name arg, d)

/-- The character loop of `deserialize_str`: consume until the closing
`"`, resolving `\` escapes through `parse_escape`. -/
def parseStrLoop : Nat → List Char → De → Except Error (Value × De)
  | 0, _, _ => .error (.message "recursion limit")
  | fuel + 1, acc, d =>
    bindE2 d.next_char fun c d =>
      if c = '"' then .ok (.vStr acc, d)
      else if c = '\\' then
        bindE2 d.parse_escape fun c d => parseStrLoop fuel (acc ++ [c]) d
      else parseStrLoop fuel (acc ++ [c]) d

/-- `VariantAccess` for the matched variant: `unit_variant` consumes
nothing; `newtype_variant_seed` deserializes the payload;
`tuple_variant`/`struct_variant` call `visitor.visit_seq(self)` directly
(no surrounding brackets), reading the fixed field list. -/
def parseVariantPayload : Nat → VariantShape → De → Except Error (VariantValue × De)
  | 0, _, _ => .error (.message "recursion limit")
  | fuel + 1, vs, d =>
    match vs with
    | .unitVS => .ok (.unitV, d)
    | .newtypeVS s =>
      bindE2 (parseShape fuel s d) fun v d => .ok (.newtypeV v, d)
    | .tupleVS ss =>
      bindE2 (parseTupleElems fuel ss d) fun vl d => .ok (.tupleV vl, d)
    | .structVS fs =>
      bindE2 (parseTupleElems fuel fs d) fun vl d => .ok (.structV vl, d)

/-- The `Vec` visitor loop over `SeqAccess::next_element_seed`
(src/symtree/src/de.rs, lines 573-586): skip whitespace; a `)` or `]`
lookahead ends the sequence; otherwise deserialize one element and
continue. -/
def parseList : Nat → Shape → De → Except Error (List Value × De)
  | 0, _, _ => .error (.message "recursion limit")
  | fuel + 1, s, d =>
    let d := d.skip_whitespace
    match d.input.head? with
    | some ')' => .ok ([], d)
    | some ']' => .ok ([], d)
    | _ =>
      bindE2 (parseShape fuel s d) fun v d =>
        bindE2 (parseList fuel s d) fun vl d => .ok (v :: vl, d)

/-- The fixed-arity visitor loop (tuples, tuple structs, struct fields,
tuple/struct variant fields) over `next_element_seed`: each expected
element must be present — the closer in its place makes the derived
visitor report `Error::invalid_length` (a `Message`). -/
def parseTupleElems : Nat → List Shape → De → Except Error (List Value × De)
  | 0, _, _ => .error (.message "recursion limit")
  | _ + 1, [], d => .ok ([], d)
  | fuel + 1, s :: ss, d =>
    let d := d.skip_whitespace
    match d.input.head? with
    | some ')' => .error (.message "invalid length")
    | some ']' => .error (.message "invalid length")
    | _ =>
      bindE2 (parseShape fuel s d) fun v d =>
        bindE2 (parseTupleElems fuel ss d) fun vl d => .ok (v :: vl, d)

/-- The map visitor loop over `MapAccess` (src/symtree/src/de.rs, lines
588-612): `next_key_seed` skips whitespace, ends on `)`, requires `[`,
deserializes the key; `next_value_seed` skips whitespace, deserializes
the value, requires `]`. -/
def parseMapEntries : Nat → Shape → Shape → De → Except Error (List (Value × Value) × De)
  | 0, _, _, _ => .error (.message "recursion limit")
  | fuel + 1, ks, vls, d =>
    let d := d.skip_whitespace
    match d.input.head? with
    | some ')' => .ok ([], d)
    | _ =>
      bindE1 (d.expects "[".data) fun d =>
        bindE2 (parseShape fuel ks d) fun kv d =>
          bindE2 (parseShape fuel vls (d.skip_whitespace)) fun vv d =>
            bindE1 (d.expects "]".data) fun d =>
              bindE2 (parseMapEntries fuel ks vls d) fun es d =>
                .ok ((kv, vv) :: es, d)
end

/-- `from_str` (src/symtree/src/de.rs, lines 91-103): build the
deserializer (`Deserializer::new` primes the lookahead, position 0:0),
deserialize one value of the shape, skip trailing whitespace, and require
the input to be exhausted — anything left is `TrailingCharacters`.
`from_reader` (lines 76-89) is the same composition over a fallible byte
source; over an in-memory source the two are the same function, and this
single model stands for both. -/
def from_str (s : Shape) (input : List Char) : Except Error Value :=
  bindE2 (parseShape (2 * input.length + 2) s ⟨0, 0, input⟩) fun v d =>
    match (d.skip_whitespace).input with
    | [] => .ok v
    | _ :: _ => .error .trailingCharacters


/-! ## Derived closed form of the compact serializer

`to_string` runs the serializer in compact mode; the state-passing
functions above then append a text that is a pure function of the value.
`encodeCS` computes that text together with the `Sep` the serializer
leaves pending afterwards (relevant between map entries); the
`serializeValue_compact` theorem below proves the correspondence. -/

mutual
/-- Compact-mode closed form: the text `serializeValue` appends when
invoked with `sep = None, indent = None` (which is how every call site
invokes it), and the `sep` left pending. `none` = `unimplemented!()`. -/
def encodeCS : Value → Option (List Char × Sep)
  | .vBool b => some ((if b then "true".data else "false".data), .none)
  | .vInt n => some (signedRepr n, .none)
  | .vNat n => some (decimalRepr n, .none)
  | .vChar c => some ('\'' :: escapeDebugChar c ++ ['\''], .none)
  | .vStr s => some ('"' :: s.flatMap escapeDebugStrChar ++ ['"'], .none)
  | .vNone => some ("(none)".data, .none)
  | .vUnit => some ("(unit)".data, .none)
  | .vSome v =>
    match encodeCS v with
    | Option.none => Option.none
    | some (t, _) => some ("(some ".data ++ t ++ [')'], .lineOrSpace)
  | .vSeq vs =>
    match encodeElemsCS false vs with
    | Option.none => Option.none
    | some ts => some ('[' :: ts ++ [']'], .lineOrSpace)
  | .vMap es =>
    match encodeEntriesCS .lineOrSpace es with
    | Option.none => Option.none
    | some (ts, fsp) => some ("(map".data ++ ts ++ [')'], fsp)
  | .vStruct name fs =>
    match encodeFieldsCS fs with
    | Option.none => Option.none
    | some ts => some ('(' :: Ascase.to_kebab_case name ++ ts ++ [')'], .lineOrSpace)
  | .vVariant variant .unitV =>
    some ('(' :: Ascase.to_kebab_case variant ++ [')'], .none)
  | .vVariant _ (.newtypeV _) => Option.none
  | .vVariant _ (.tupleV _) => Option.none
  | .vVariant variant (.structV fs) =>
    match encodeFieldsCS fs with
    | Option.none => Option.none
    | some ts => some ('(' :: Ascase.to_kebab_case variant ++ ts ++ [')'], .lineOrSpace)

/-- Sequence elements: the first is preceded by nothing (pending `Line`,
nothing in compact mode), later ones by one space (pending
`LineOrSpace`). -/
def encodeElemsCS : Bool → List Value → Option (List Char)
  | _, [] => some []
  | spaceBefore, v :: vs =>
    match encodeCS v with
    | Option.none => Option.none
    | some (t, _) =>
      match encodeElemsCS true vs with
      | Option.none => Option.none
      | some rest => some ((if spaceBefore then ' ' :: t else t) ++ rest)

/-- Struct (and struct-variant) fields: every field is preceded by one
space (the pending separator is `LineOrSpace` both after the opening
`(name` and after each field). -/
def encodeFieldsCS : List Value → Option (List Char)
  | [] => some []
  | v :: vs =>
    match encodeCS v with
    | Option.none => Option.none
    | some (t, _) =>
      match encodeFieldsCS vs with
      | Option.none => Option.none
      | some rest => some (' ' :: t ++ rest)

/-- Map entries, threading the pending separator: an entry is preceded by
a space exactly when the pending separator is `LineOrSpace` (always true
for the first entry, set by `serialize_map`; afterwards it is whatever
the previous entry's value serialization left pending — nothing pends a
separator after the closing `]`). Returns the final pending separator. -/
def encodeEntriesCS : Sep → List (Value × Value) → Option (List Char × Sep)
  | sp, [] => some ([], sp)
  | sp, (k, v) :: es =>
    match encodeCS k with
    | Option.none => Option.none
    | some (kt, _) =>
      match encodeCS v with
      | Option.none => Option.none
      | some (vt, vsp) =>
        match encodeEntriesCS vsp es with
        | Option.none => Option.none
        | some (rest, fsp) =>
          some ((if sp = .lineOrSpace then [' '] else []) ++
            '[' :: kt ++ ' ' :: vt ++ ']' :: rest, fsp)
end

/-! ## Well-formedness for the round trip -/

/-- A character whose `escape_debug` form the parser's `parse_escape`
understands again: printable ASCII (emitted literally or as the `\'`,
`\"`, `\\` escapes) or the newline (emitted `\n`). Control characters
such as tab are debug-escaped to `\t`/`\r`/`\0`/`\u{..}`, which
`parse_escape` rejects. -/
def goodChar (c : Char) : Prop := rustIsPrintable c = true ∨ c = '\n'

/-- An ASCII PascalCase identifier: nonempty, first character an
uppercase ASCII letter, the rest ASCII letters or digits. Exactly the
class for which the kebab-case round trip reconstructs the identifier. -/
def pascalIdent : List Char → Prop
  | [] => False
  | c :: rest => c.isUpper = true ∧ ∀ d ∈ rest, rustIsAlphanumeric d = true

mutual
/-- `Obeys v s`: the value fits the shape, is built only from the shapes
the encoder implements (no newtype/tuple enum variants), its characters
are `goodChar`, its integers fit their width with `i64::MIN` excluded,
and its struct/variant names are ASCII identifiers (variants PascalCase
and resolvable to their shape in the enum's variant list). -/
inductive Obeys : Value → Shape → Prop where
  | bool (b : Bool) : Obeys (.vBool b) .sBool
  | int (bits : Nat) (n : Int) (hbits : bits ≤ 64) (hlo : -(2 ^ (bits - 1)) ≤ n)
      (hhi : n ≤ 2 ^ (bits - 1) - 1) (hmin : i64Min < n) : Obeys (.vInt n) (.sInt bits)
  | nat (bits : Nat) (n : Nat) (hbits : bits ≤ 64) (hhi : n ≤ 2 ^ bits - 1) :
      Obeys (.vNat n) (.sNat bits)
  | char (c : Char) (h : goodChar c) : Obeys (.vChar c) .sChar
  | str (s : List Char) (h : ∀ c ∈ s, goodChar c) : Obeys (.vStr s) .sString
  | unit : Obeys .vUnit .sUnit
  | noneV (s : Shape) : Obeys .vNone (.sOption s)
  | someV (v : Value) (s : Shape) (h : Obeys v s) : Obeys (.vSome v) (.sOption s)
  | list (vs : List Value) (s : Shape) (h : ObeysList vs s) :
      Obeys (.vSeq vs) (.sList s)
  | tuple (vs : List Value) (ss : List Shape) (h : ObeysTuple vs ss) :
      Obeys (.vSeq vs) (.sTuple ss)
  | map (es : List (Value × Value)) (ks vls : Shape) (h : ObeysEntries es ks vls) :
      Obeys (.vMap es) (.sMap ks vls)
  | struct (name : List Char) (fs : List Value) (fss : List Shape)
      (hne : name ≠ []) (hname : ∀ c ∈ name, rustIsAlphanumeric c = true)
      (h : ObeysTuple fs fss) :
      Obeys (.vStruct name fs) (.sStruct name fss)
  | variantUnit (variant : List Char) (variants : List (List Char × VariantShape))
      (hname : pascalIdent variant) (hfind : findVariant variant variants = some .unitVS) :
      Obeys (.vVariant variant .unitV) (.sEnum variants)
  | variantStruct (variant : List Char) (variants : List (List Char × VariantShape))
      (fs : List Value) (fss : List Shape) (hname : pascalIdent variant)
      (hfind : findVariant variant variants = some (.structVS fss))
      (h : ObeysTuple fs fss) :
      Obeys (.vVariant variant (.structV fs)) (.sEnum variants)

/-- Every element of a homogeneous sequence obeys the element shape. -/
inductive ObeysList : List Value → Shape → Prop where
  | nil (s : Shape) : ObeysList [] s
  | cons (v : Value) (vs : List Value) (s : Shape) (h : Obeys v s)
      (hs : ObeysList vs s) : ObeysList (v :: vs) s

/-- A fixed field list obeys the shape list pointwise. -/
inductive ObeysTuple : List Value → List Shape → Prop where
  | nil : ObeysTuple [] []
  | cons (v : Value) (vs : List Value) (s : Shape) (ss : List Shape)
      (h : Obeys v s) (hs : ObeysTuple vs ss) : ObeysTuple (v :: vs) (s :: ss)

/-- Every map entry obeys the key/value shapes. -/
inductive ObeysEntries : List (Value × Value) → Shape → Shape → Prop where
  | nil (ks vls : Shape) : ObeysEntries [] ks vls
  | cons (k v : Value) (es : List (Value × Value)) (ks vls : Shape)
      (hk : Obeys k ks) (hv : Obeys v vls) (hs : ObeysEntries es ks vls) :
      ObeysEntries ((k, v) :: es) ks vls
end

mutual
/-- Fuel sufficient for `parseShape` on this value's encoding (the parser
passes its fuel down, decrementing once per call, so the requirement is
depth-plus-iterations shaped, combined with `max` across siblings). -/
def parseNeed : Value → Nat
  | .vBool _ => 1
  | .vInt _ => 1
  | .vNat _ => 1
  | .vChar _ => 1
  | .vStr s => s.length + 2
  | .vNone => 1
  | .vUnit => 1
  | .vSome v => 1 + parseNeed v
  | .vSeq vs => 1 + parseNeedElems vs
  | .vMap es => 1 + parseNeedEntries es
  | .vStruct _ fs => 1 + parseNeedElems fs
  | .vVariant _ arg => 1 + parseNeedVariant arg

/-- Fuel for `parseVariantPayload`. -/
def parseNeedVariant : VariantValue → Nat
  | .unitV => 1
  | .newtypeV v => 1 + parseNeed v
  | .tupleV vs => 1 + parseNeedElems vs
  | .structV fs => 1 + parseNeedElems fs

/-- Fuel for `parseList`/`parseTupleElems`: one call per element plus the
terminating call, each element parsed one level down. -/
def parseNeedElems : List Value → Nat
  | [] => 1
  | v :: vs => 1 + max (parseNeed v) (parseNeedElems vs)

/-- Fuel for `parseMapEntries`. -/
def parseNeedEntries : List (Value × Value) → Nat
  | [] => 1
  | (k, v) :: es => 1 + max (max (parseNeed k) (parseNeed v)) (parseNeedEntries es)
end




/-! # Theorems -/

mutual
/-- Size measure of a value, for strong induction. -/
def vsize : Value → Nat
  | .vBool _ => 1
  | .vInt _ => 1
  | .vNat _ => 1
  | .vChar _ => 1
  | .vStr _ => 1
  | .vNone => 1
  | .vUnit => 1
  | .vSome v => 1 + vsize v
  | .vSeq vs => 1 + vsizeL vs
  | .vMap es => 1 + vsizeE es
  | .vStruct _ fs => 1 + vsizeL fs
  | .vVariant _ arg => 1 + vsizeV arg

/-- Size of a variant payload. -/
def vsizeV : VariantValue → Nat
  | .unitV => 1
  | .newtypeV v => 1 + vsize v
  | .tupleV vs => 1 + vsizeL vs
  | .structV fs => 1 + vsizeL fs

/-- Size of a value list. -/
def vsizeL : List Value → Nat
  | [] => 1
  | v :: vs => 1 + vsize v + vsizeL vs

/-- Size of an entry list. -/
def vsizeE : List (Value × Value) → Nat
  | [] => 1
  | (k, x) :: es => 1 + vsize k + vsize x + vsizeE es
end

/-- The numeric value of a decimal digit string (most significant digit
first): what the overflow-free accumulation loop computes. -/
def digitsVal (ds : List Char) : Nat :=
  ds.foldl (fun a c => a * 10 + (c.toNat - '0'.toNat)) 0

/-- The remaining input does not begin with a decimal digit, so a numeric
parse stops exactly at the end of its digit string. -/
def restNoDigit (rest : List Char) : Prop :=
  ∀ c, rest.head? = some c → isDecDigit c = false

/-- The number of continuation bytes the classification `match` of
`next_code_point` expects for a given lead byte (`none` = no pattern
matches, an immediate encoding error). -/
def leadTailCount (b : Nat) : Option Nat :=
  if b &&& 0x80 = 0 then some 0
  else if b &&& 0xE0 = 0xC0 then some 1
  else if b &&& 0xF0 = 0xE0 then some 2
  else if b &&& 0xF8 = 0xF0 then some 3
  else none


/-! ## Numeric parsing lemmas -/

theorem bindE1_ok {β : Type} (d : De) (f : De → Except Error β) :
    bindE1 (.ok d) f = f d := rfl

theorem bindE1_error {β : Type} (e : Error) (f : De → Except Error β) :
    bindE1 (.error e) f = .error e := rfl

theorem bindE2_ok {α β : Type} (a : α) (d : De) (f : α → De → Except Error β) :
    bindE2 (.ok (a, d)) f = f a d := rfl

theorem bindE2_error {α β : Type} (e : Error) (f : α → De → Except Error β) :
    bindE2 (.error e : Except Error (α × De)) f = .error e := rfl

theorem advancePos_ne_newline {c : Char} (h : c ≠ '\n') (row col : Nat) :
    advancePos row col c = (row, col + 1) := by
  simp [advancePos, h]

theorem char_toNat_ofNat {m : Nat} (h : m < 0xD800) : (Char.ofNat m).toNat = m := by
  unfold Char.ofNat
  rw [dif_pos (Or.inl h)]
  simp [Char.toNat, Char.ofNatAux, UInt32.toNat, BitVec.toNat_ofNatLt]

theorem isDecDigit_iff {c : Char} : isDecDigit c = true ↔ 48 ≤ c.toNat ∧ c.toNat ≤ 57 := by
  simp [isDecDigit, Char.le_def, UInt32.le_def, BitVec.le_def, Char.toNat, UInt32.toNat]

theorem decDigit_not_ws {c : Char} (h : isDecDigit c = true) :
    rustIsWhitespace c = false := by
  rw [isDecDigit_iff] at h
  simp [rustIsWhitespace]
  omega

theorem decDigit_ne_newline {c : Char} (h : isDecDigit c = true) : c ≠ '\n' := by
  rw [isDecDigit_iff] at h
  intro hc
  subst hc
  simp at h

theorem skipWsGo_not_ws {c : Char} (h : rustIsWhitespace c = false)
    (row col : Nat) (rest : List Char) :
    skipWsGo row col (c :: rest) = ⟨row, col, c :: rest⟩ := by
  simp [skipWsGo, h]

theorem skip_whitespace_not_ws {c : Char} (h : rustIsWhitespace c = false)
    (row col : Nat) (rest : List Char) :
    De.skip_whitespace ⟨row, col, c :: rest⟩ = ⟨row, col, c :: rest⟩ := by
  simp [De.skip_whitespace, skipWsGo_not_ws h]

theorem digitsVal_go (ds : List Char) :
    ∀ acc : Nat, ds.foldl (fun a c => a * 10 + (c.toNat - '0'.toNat)) acc =
      acc * 10 ^ ds.length + digitsVal ds := by
  induction ds with
  | nil => intro acc; simp [digitsVal]
  | cons d ds ih =>
    intro acc
    have h1 : digitsVal (d :: ds) =
        (d.toNat - '0'.toNat) * 10 ^ ds.length + digitsVal ds := by
      show ds.foldl (fun a c => a * 10 + (c.toNat - '0'.toNat))
        (0 * 10 + (d.toNat - '0'.toNat)) = _
      rw [ih]
      ring_nf
    show ds.foldl (fun a c => a * 10 + (c.toNat - '0'.toNat))
      (acc * 10 + (d.toNat - '0'.toNat)) = _
    rw [ih, h1, List.length_cons, pow_succ]
    ring

theorem digitsVal_cons (d : Char) (ds : List Char) :
    digitsVal (d :: ds) = (d.toNat - '0'.toNat) * 10 ^ ds.length + digitsVal ds := by
  show ds.foldl (fun a c => a * 10 + (c.toNat - '0'.toNat))
    (0 * 10 + (d.toNat - '0'.toNat)) = _
  rw [digitsVal_go]
  ring_nf

theorem u64MulAdd_ok {base acc dv : Nat} (h : acc * base + dv ≤ u64Max) :
    u64MulAdd base acc dv = .ok (acc * base + dv) := by
  have h1 : acc * base ≤ u64Max := by omega
  simp [u64MulAdd, u64_checked_mul, u64_checked_add, h, h1]

theorem u64MulAdd_overflow {base acc dv : Nat} (h : u64Max < acc * base + dv) :
    u64MulAdd base acc dv = .error .numberOverflow := by
  by_cases h1 : acc * base ≤ u64Max
  · have h2 : ¬ acc * base + dv ≤ u64Max := by omega
    simp [u64MulAdd, u64_checked_mul, u64_checked_add, h1, h2]
  · simp [u64MulAdd, u64_checked_mul, h1]

theorem i64MulAdd_ok {base acc dv : Int} (hbase : 0 < base) (hacc : 0 ≤ acc) (hdv : 0 ≤ dv)
    (h : acc * base + dv ≤ i64Max) :
    i64MulAdd base acc dv = .ok (acc * base + dv) := by
  have hmn : (0 : Int) ≤ acc * base := by positivity
  have h1 : i64Min ≤ acc * base ∧ acc * base ≤ i64Max := by
    constructor
    · linarith [show i64Min ≤ 0 by norm_num [i64Min]]
    · omega
  have h2 : i64Min ≤ acc * base + dv ∧ acc * base + dv ≤ i64Max := by
    constructor
    · linarith [show i64Min ≤ 0 by norm_num [i64Min]]
    · exact h
  simp [i64MulAdd, i64_checked_mul, i64_checked_add, h1, h2]

theorem i64MulAdd_overflow {base acc dv : Int} (hbase : 0 < base) (hacc : 0 ≤ acc)
    (hdv : 0 ≤ dv) (h : i64Max < acc * base + dv) :
    i64MulAdd base acc dv = .error .numberOverflow := by
  have hmn : (0 : Int) ≤ acc * base := by positivity
  have hlo : i64Min ≤ acc * base := by
    linarith [show i64Min ≤ 0 by norm_num [i64Min]]
  by_cases h1 : acc * base ≤ i64Max
  · have h2 : ¬ (i64Min ≤ acc * base + dv ∧ acc * base + dv ≤ i64Max) := by omega
    simp [i64MulAdd, i64_checked_mul, i64_checked_add, h1, hlo, h2]
  · have h2 : ¬ (i64Min ≤ acc * base ∧ acc * base ≤ i64Max) := by omega
    simp [i64MulAdd, i64_checked_mul, h2]

/-- Success of the `parse_u64` digit loop: given the digit string, a
non-digit continuation, and no overflow, it returns the accumulated
value and stops exactly at the continuation. -/
theorem parseU64Go_ok (ds : List Char) (hds : ∀ c ∈ ds, isDecDigit c = true) :
    ∀ (acc row col : Nat) (rest : List Char), restNoDigit rest →
      acc * 10 ^ ds.length + digitsVal ds ≤ u64Max →
      parseU64Go acc row col (ds ++ rest) =
        .ok (acc * 10 ^ ds.length + digitsVal ds, ⟨row, col + ds.length, rest⟩) := by
  induction ds with
  | nil =>
    intro acc row col rest hrest _
    simp only [List.nil_append, digitsVal, List.foldl_nil, List.length_nil, pow_zero,
      Nat.mul_one, Nat.add_zero]
    cases rest with
    | nil => rfl
    | cons c cs =>
      have hc := hrest c rfl
      rw [parseU64Go]
      simp [hc]
  | cons d ds ih =>
    intro acc row col rest hrest hle
    have hd := hds d (List.mem_cons_self d ds)
    have hds' : ∀ c ∈ ds, isDecDigit c = true := fun c hc => hds c (List.mem_cons_of_mem d hc)
    have hlen : (d :: ds).length = ds.length + 1 := rfl
    have hval := digitsVal_cons d ds
    have hpow : (0:Nat) < 10 ^ ds.length := pow_pos (by norm_num) ds.length
    have htot : (acc * 10 + (d.toNat - '0'.toNat)) * 10 ^ ds.length + digitsVal ds =
        acc * 10 ^ (d :: ds).length + digitsVal (d :: ds) := by
      rw [hval, hlen, pow_succ]
      ring
    have hle' : (acc * 10 + (d.toNat - '0'.toNat)) * 10 ^ ds.length + digitsVal ds ≤ u64Max := by
      rw [htot]; exact hle
    have hstep : u64MulAdd 10 acc (d.toNat - '0'.toNat) = .ok (acc * 10 + (d.toNat - '0'.toNat)) := by
      apply u64MulAdd_ok
      nlinarith
    rw [List.cons_append, parseU64Go]
    simp only [hd, if_true, hstep, advancePos_ne_newline (decDigit_ne_newline hd)]
    rw [ih hds' _ row (col + 1) rest hrest hle', htot]
    have : col + 1 + ds.length = col + (d :: ds).length := by rw [hlen]; omega
    rw [this]

/-- Failure of the `parse_u64` digit loop: as soon as the value to be
accumulated exceeds `u64::MAX` the checked step rejects. -/
theorem parseU64Go_overflow (ds : List Char) (hds : ∀ c ∈ ds, isDecDigit c = true)
    (hne : ds ≠ []) :
    ∀ (acc row col : Nat) (rest : List Char),
      u64Max < acc * 10 ^ ds.length + digitsVal ds →
      parseU64Go acc row col (ds ++ rest) = .error .numberOverflow := by
  induction ds with
  | nil => exact absurd rfl hne
  | cons d ds ih =>
    intro acc row col rest hgt
    have hd := hds d (List.mem_cons_self d ds)
    have hds' : ∀ c ∈ ds, isDecDigit c = true := fun c hc => hds c (List.mem_cons_of_mem d hc)
    have hval := digitsVal_cons d ds
    have hlen : (d :: ds).length = ds.length + 1 := rfl
    have hpow : (0:Nat) < 10 ^ ds.length := pow_pos (by norm_num) ds.length
    have htot : (acc * 10 + (d.toNat - '0'.toNat)) * 10 ^ ds.length + digitsVal ds =
        acc * 10 ^ (d :: ds).length + digitsVal (d :: ds) := by
      rw [hval, hlen, pow_succ]
      ring
    rw [List.cons_append, parseU64Go]
    by_cases hstep : acc * 10 + (d.toNat - '0'.toNat) ≤ u64Max
    · cases ds with
      | nil =>
        exfalso
        have hv : digitsVal [d] = d.toNat - '0'.toNat := by simp [digitsVal]
        rw [hv] at hgt
        simp only [List.length_cons, List.length_nil, pow_succ, pow_zero, one_mul] at hgt
        omega
      | cons d2 ds2 =>
        rw [u64MulAdd_ok hstep]
        simp only [hd, if_true, advancePos_ne_newline (decDigit_ne_newline hd)]
        exact ih hds' (by simp) _ row (col + 1) rest (by rw [htot]; exact hgt)
    · rw [u64MulAdd_overflow (by omega)]
      simp [hd]


/-- Success of the `parse_i64` digit loop (accumulator stays
non-negative; overflow checked against the `i64` range). -/
theorem parseI64Go_ok (ds : List Char) (hds : ∀ c ∈ ds, isDecDigit c = true) :
    ∀ (acc : Int) (row col : Nat) (rest : List Char), 0 ≤ acc → restNoDigit rest →
      acc * 10 ^ ds.length + (digitsVal ds : Int) ≤ i64Max →
      parseI64Go acc row col (ds ++ rest) =
        .ok (acc * 10 ^ ds.length + (digitsVal ds : Int), ⟨row, col + ds.length, rest⟩) := by
  induction ds with
  | nil =>
    intro acc row col rest hacc hrest _
    simp only [List.nil_append, digitsVal, List.foldl_nil, List.length_nil, pow_zero,
      mul_one, Nat.cast_zero, add_zero]
    cases rest with
    | nil => rfl
    | cons c cs =>
      have hc := hrest c rfl
      rw [parseI64Go]
      simp [hc]
  | cons d ds ih =>
    intro acc row col rest hacc hrest hle
    have hd := hds d (List.mem_cons_self d ds)
    have hds' : ∀ c ∈ ds, isDecDigit c = true := fun c hc => hds c (List.mem_cons_of_mem d hc)
    have hdig := isDecDigit_iff.mp hd
    have hlen : (d :: ds).length = ds.length + 1 := rfl
    have hdvcast : ((d.toNat : Int) - ('0'.toNat : Int)) = ((d.toNat - '0'.toNat : Nat) : Int) := by
      have : (48 : Nat) ≤ d.toNat := hdig.1
      push_cast
      omega
    have hval : ((digitsVal (d :: ds) : Nat) : Int) =
        ((d.toNat - '0'.toNat : Nat) : Int) * 10 ^ ds.length + (digitsVal ds : Int) := by
      rw [digitsVal_cons]
      push_cast
      ring
    have hpow : (0:Int) < 10 ^ ds.length := pow_pos (by norm_num) ds.length
    have hdnn : (0:Int) ≤ (d.toNat : Int) - ('0'.toNat : Int) := by
      rw [hdvcast]; positivity
    have htot : (acc * 10 + ((d.toNat : Int) - ('0'.toNat : Int))) * 10 ^ ds.length +
        (digitsVal ds : Int) = acc * 10 ^ (d :: ds).length + (digitsVal (d :: ds) : Int) := by
      rw [hval, hlen, pow_succ, hdvcast]
      ring
    have hle' : (acc * 10 + ((d.toNat : Int) - ('0'.toNat : Int))) * 10 ^ ds.length +
        (digitsVal ds : Int) ≤ i64Max := by rw [htot]; exact hle
    have hdignn : (0:Int) ≤ (digitsVal ds : Int) := by positivity
    have hstep : i64MulAdd 10 acc ((d.toNat : Int) - ('0'.toNat : Int)) =
        .ok (acc * 10 + ((d.toNat : Int) - ('0'.toNat : Int))) := by
      apply i64MulAdd_ok (by norm_num) hacc hdnn
      nlinarith
    rw [List.cons_append, parseI64Go]
    simp only [hd, if_true, hstep, advancePos_ne_newline (decDigit_ne_newline hd)]
    rw [ih hds' _ row (col + 1) rest (by positivity) hrest hle', htot]
    have : col + 1 + ds.length = col + (d :: ds).length := by rw [hlen]; omega
    rw [this]

/-- Failure of the `parse_i64` digit loop on a too-large magnitude. -/
theorem parseI64Go_overflow (ds : List Char) (hds : ∀ c ∈ ds, isDecDigit c = true)
    (hne : ds ≠ []) :
    ∀ (acc : Int) (row col : Nat) (rest : List Char), 0 ≤ acc →
      i64Max < acc * 10 ^ ds.length + (digitsVal ds : Int) →
      parseI64Go acc row col (ds ++ rest) = .error .numberOverflow := by
  induction ds with
  | nil => exact absurd rfl hne
  | cons d ds ih =>
    intro acc row col rest hacc hgt
    have hd := hds d (List.mem_cons_self d ds)
    have hds' : ∀ c ∈ ds, isDecDigit c = true := fun c hc => hds c (List.mem_cons_of_mem d hc)
    have hdig := isDecDigit_iff.mp hd
    have hlen : (d :: ds).length = ds.length + 1 := rfl
    have hdvcast : ((d.toNat : Int) - ('0'.toNat : Int)) = ((d.toNat - '0'.toNat : Nat) : Int) := by
      have : (48 : Nat) ≤ d.toNat := hdig.1
      push_cast
      omega
    have hval : ((digitsVal (d :: ds) : Nat) : Int) =
        ((d.toNat - '0'.toNat : Nat) : Int) * 10 ^ ds.length + (digitsVal ds : Int) := by
      rw [digitsVal_cons]
      push_cast
      ring
    have hdnn : (0:Int) ≤ (d.toNat : Int) - ('0'.toNat : Int) := by
      rw [hdvcast]; positivity
    have htot : (acc * 10 + ((d.toNat : Int) - ('0'.toNat : Int))) * 10 ^ ds.length +
        (digitsVal ds : Int) = acc * 10 ^ (d :: ds).length + (digitsVal (d :: ds) : Int) := by
      rw [hval, hlen, pow_succ, hdvcast]
      ring
    rw [List.cons_append, parseI64Go]
    by_cases hstep : acc * 10 + ((d.toNat : Int) - ('0'.toNat : Int)) ≤ i64Max
    · cases ds with
      | nil =>
        exfalso
        have hv : digitsVal [d] = d.toNat - '0'.toNat := by simp [digitsVal]
        rw [hv] at hgt
        simp only [List.length_cons, List.length_nil, pow_succ, pow_zero, one_mul] at hgt
        rw [hdvcast] at hstep
        omega
      | cons d2 ds2 =>
        rw [i64MulAdd_ok (by norm_num) hacc hdnn hstep]
        simp only [hd, if_true, advancePos_ne_newline (decDigit_ne_newline hd)]
        exact ih hds' (by simp) _ row (col + 1) rest (by positivity)
          (by rw [htot]; exact hgt)
    · rw [i64MulAdd_overflow (by norm_num) hacc hdnn (by omega)]
      simp [hd]


theorem not_ws_of_sign {c : Char} (h : c = '+' ∨ c = '-') : rustIsWhitespace c = false := by
  rcases h with h | h <;> subst h <;> decide

theorem sign_ne_newline {c : Char} (h : c = '+' ∨ c = '-') : c ≠ '\n' := by
  rcases h with h | h <;> subst h <;> decide

/-- `parse_u64` on a (nonempty) digit string followed by a non-digit:
returns its value when it fits in a `u64`. -/
theorem parse_u64_ok (ds : List Char) (hds : ∀ c ∈ ds, isDecDigit c = true)
    (hne : ds ≠ []) (rest : List Char) (hrest : restNoDigit rest)
    (hle : digitsVal ds ≤ u64Max) (row col : Nat) :
    De.parse_u64 ⟨row, col, ds ++ rest⟩ =
      .ok (digitsVal ds, ⟨row, col + ds.length, rest⟩) := by
  obtain ⟨d0, ds', rfl⟩ : ∃ d0 ds', ds = d0 :: ds' := by
    cases ds with
    | nil => exact absurd rfl hne
    | cons a b => exact ⟨a, b, rfl⟩
  have hd0 := hds d0 (List.mem_cons_self d0 ds')
  rw [De.parse_u64]
  simp only [List.cons_append, skip_whitespace_not_ws (decDigit_not_ws hd0)]
  simp only [hd0, if_true]
  have := parseU64Go_ok (d0 :: ds') hds 0 row col rest hrest (by simpa using hle)
  simp only [List.cons_append] at this
  rw [this]
  simp

/-- `parse_u64` on a digit string whose value exceeds `u64::MAX`:
`NumberOverflow` from the checked accumulation. -/
theorem parse_u64_overflow (ds : List Char) (hds : ∀ c ∈ ds, isDecDigit c = true)
    (hne : ds ≠ []) (rest : List Char) (hgt : u64Max < digitsVal ds) (row col : Nat) :
    De.parse_u64 ⟨row, col, ds ++ rest⟩ = .error .numberOverflow := by
  obtain ⟨d0, ds', rfl⟩ : ∃ d0 ds', ds = d0 :: ds' := by
    cases ds with
    | nil => exact absurd rfl hne
    | cons a b => exact ⟨a, b, rfl⟩
  have hd0 := hds d0 (List.mem_cons_self d0 ds')
  rw [De.parse_u64]
  simp only [List.cons_append, skip_whitespace_not_ws (decDigit_not_ws hd0)]
  simp only [hd0, if_true]
  have := parseU64Go_overflow (d0 :: ds') hds (by simp) 0 row col rest (by simpa using hgt)
  simp only [List.cons_append] at this
  rw [this]

/-- `parse_i64` on a sign and a digit string followed by a non-digit:
returns the signed value when the magnitude fits in an `i64`. -/
theorem parse_i64_ok (sign : Char) (hsign : sign = '+' ∨ sign = '-') (ds : List Char)
    (hds : ∀ c ∈ ds, isDecDigit c = true) (hne : ds ≠ []) (rest : List Char)
    (hrest : restNoDigit rest) (hle : (digitsVal ds : Int) ≤ i64Max) (row col : Nat) :
    De.parse_i64 ⟨row, col, sign :: (ds ++ rest)⟩ =
      .ok ((if sign = '+' then 1 else -1) * (digitsVal ds : Int),
        ⟨row, col + 1 + ds.length, rest⟩) := by
  obtain ⟨d0, ds', rfl⟩ : ∃ d0 ds', ds = d0 :: ds' := by
    cases ds with
    | nil => exact absurd rfl hne
    | cons a b => exact ⟨a, b, rfl⟩
  have hd0 := hds d0 (List.mem_cons_self d0 ds')
  rw [De.parse_i64]
  simp only [skip_whitespace_not_ws (not_ws_of_sign hsign)]
  rw [De.expects_either]
  simp only [skip_whitespace_not_ws (not_ws_of_sign hsign), De.next_char,
    advancePos_ne_newline (sign_ne_newline hsign)]
  have hcases : (sign = '+') ∨ (¬ (sign = '+') ∧ sign = '-') := by
    rcases hsign with h | h
    · exact Or.inl h
    · by_cases h2 : sign = '+'
      · exact Or.inl h2
      · exact Or.inr ⟨h2, h⟩
  have hrun : ∀ signum : Int,
      (match parseI64Go 0 row (col + 1) ((d0 :: ds') ++ rest) with
        | .error e => .error e
        | .ok (acc, d') => .ok (signum * acc, d')) =
      (.ok (signum * (digitsVal (d0 :: ds') : Int), ⟨row, col + 1 + (d0 :: ds').length, rest⟩)
        : Except Error (Int × De)) := by
    intro signum
    have := parseI64Go_ok (d0 :: ds') hds 0 row (col + 1) rest le_rfl hrest
      (by simpa using hle)
    simp only [List.cons_append] at this ⊢
    rw [this]
    simp
  rcases hcases with h | ⟨h1, h2⟩
  · subst h
    simp only [if_true, reduceIte]
    simp only [List.cons_append, hd0, if_true]
    exact hrun 1
  · subst h2
    simp only [h1, if_false, reduceIte]
    simp only [List.cons_append, hd0, if_true]
    exact hrun (-1)

/-- `parse_i64` on a sign and a digit string with too large a magnitude:
`NumberOverflow` (the magnitude is accumulated before the sign is
applied). -/
theorem parse_i64_overflow (sign : Char) (hsign : sign = '+' ∨ sign = '-') (ds : List Char)
    (hds : ∀ c ∈ ds, isDecDigit c = true) (hne : ds ≠ []) (rest : List Char)
    (hgt : i64Max < (digitsVal ds : Int)) (row col : Nat) :
    De.parse_i64 ⟨row, col, sign :: (ds ++ rest)⟩ = .error .numberOverflow := by
  obtain ⟨d0, ds', rfl⟩ : ∃ d0 ds', ds = d0 :: ds' := by
    cases ds with
    | nil => exact absurd rfl hne
    | cons a b => exact ⟨a, b, rfl⟩
  have hd0 := hds d0 (List.mem_cons_self d0 ds')
  rw [De.parse_i64]
  simp only [skip_whitespace_not_ws (not_ws_of_sign hsign)]
  rw [De.expects_either]
  simp only [skip_whitespace_not_ws (not_ws_of_sign hsign), De.next_char,
    advancePos_ne_newline (sign_ne_newline hsign)]
  have hloop := parseI64Go_overflow (d0 :: ds') hds (by simp) 0 row (col + 1) rest le_rfl
    (by simpa using hgt)
  simp only [List.cons_append] at hloop
  rcases hsign with h | h
  · subst h
    simp only [if_true, reduceIte]
    simp only [List.cons_append, hd0, if_true, hloop]
  · subst h
    by_cases h1 : '-' = '+'
    · exact absurd h1 (by decide)
    · simp only [h1, if_false, reduceIte]
      simp only [List.cons_append, hd0, if_true, hloop]

/-- C4: integer overflow rejection — for every unsigned target maximum,
parsing a decimal literal whose value exceeds it yields `NumberOverflow`
(either from a checked multiply/add step of the accumulation loop, which
rejects rather than wraps, or from the final narrowing), and likewise for
every signed target upper bound with an explicitly signed literal. -/
theorem decimal_overflow_rejected :
    (∀ (maxv row col : Nat) (ds rest : List Char), ds ≠ [] →
      (∀ c ∈ ds, isDecDigit c = true) → restNoDigit rest → maxv < digitsVal ds →
      De.parse_nat ⟨row, col, ds ++ rest⟩ maxv = .error .numberOverflow) ∧
    (∀ (lo hi : Int) (row col : Nat) (ds rest : List Char), ds ≠ [] →
      (∀ c ∈ ds, isDecDigit c = true) → restNoDigit rest → 0 ≤ hi →
      hi < (digitsVal ds : Int) →
      De.parse_int ⟨row, col, '+' :: (ds ++ rest)⟩ lo hi = .error .numberOverflow) := by
  constructor
  · intro maxv row col ds rest hne hds hrest hgt
    rw [De.parse_nat]
    by_cases hfit : digitsVal ds ≤ u64Max
    · rw [parse_u64_ok ds hds hne rest hrest hfit row col]
      simp [Nat.not_le.mpr hgt]
    · rw [parse_u64_overflow ds hds hne rest (Nat.not_le.mp hfit) row col]
  · intro lo hi row col ds rest hne hds hrest hhi hgt
    rw [De.parse_int]
    by_cases hfit : (digitsVal ds : Int) ≤ i64Max
    · rw [parse_i64_ok '+' (Or.inl rfl) ds hds hne rest hrest hfit row col]
      have : ¬ (lo ≤ 1 * (digitsVal ds : Int) ∧ 1 * (digitsVal ds : Int) ≤ hi) := by
        rw [one_mul]
        intro ⟨_, h2⟩
        omega
      simp only [reduceIte, this, if_false]
    · rw [parse_i64_overflow '+' (Or.inl rfl) ds hds hne rest (by omega) row col]

/-- C4 witness: `parse_nat::<u8>` on `2550` (one digit longer than the
`u8` maximum) and `parse_int::<i8>` on `+1270` both reject. -/
theorem decimal_overflow_rejected_witness :
    De.parse_nat ⟨0, 0, "2550".data⟩ 255 = .error .numberOverflow ∧
    De.parse_int ⟨0, 0, "+1270".data⟩ (-128) 127 = .error .numberOverflow := by
  constructor
  · have := decimal_overflow_rejected.1 255 0 0 "2550".data [] (by decide) (by decide)
      (fun c h => by simp at h) (by decide)
    simpa using this
  · have := decimal_overflow_rejected.2 (-128) 127 0 0 "1270".data [] (by decide) (by decide)
      (fun c h => by simp at h) (by decide) (by decide)
    simpa using this


/-! ## Identifier case round trip -/

theorem char_ofNat_toNat (c : Char) : Char.ofNat c.toNat = c := by
  have hv : c.toNat.isValidChar := c.valid
  unfold Char.ofNat
  rw [dif_pos hv]
  rcases c with ⟨val, hval⟩
  simp only [Char.ofNatAux, Char.toNat]
  congr 1

theorem isUpper_iff {c : Char} : c.isUpper = true ↔ 65 ≤ c.toNat ∧ c.toNat ≤ 90 := by
  simp [Char.isUpper, UInt32.le_def, BitVec.le_def, Char.toNat, UInt32.toNat]

theorem toLower_upper_toNat {c : Char} (h : 65 ≤ c.toNat ∧ c.toNat ≤ 90) :
    c.toLower.toNat = c.toNat + 32 := by
  rw [Char.toLower, if_pos h]
  exact char_toNat_ofNat (by omega)

theorem toLower_eq_self {c : Char} (h : ¬(65 ≤ c.toNat ∧ c.toNat ≤ 90)) :
    c.toLower = c := by
  rw [Char.toLower, if_neg h]

theorem toUpper_toLower {c : Char} (h : c.isUpper = true) : c.toLower.toUpper = c := by
  have hn := isUpper_iff.mp h
  have hlow := toLower_upper_toNat hn
  rw [Char.toUpper, if_pos (by omega)]
  rw [hlow]
  have : c.toNat + 32 - 32 = c.toNat := by omega
  rw [this, char_ofNat_toNat]

theorem toNat_inj_of_eq {a b : Char} (h : a.toNat = b.toNat) : a = b := by
  have := congrArg Char.ofNat h
  rwa [char_ofNat_toNat, char_ofNat_toNat] at this

/-- After the first character, pushing the kebab-case stream of an
ASCII, hyphen-free character sequence appends exactly that sequence. -/
theorem fromKebab_pushAll_go (cs : List Char)
    (hcs : ∀ d ∈ cs, d.toNat < 128 ∧ d ≠ '-') :
    ∀ buf : List Char,
      (Ascase.FromKebabCase.pushAll ⟨false, false, buf⟩ (Ascase.toKebabGo false cs)).buffer =
        buf ++ cs := by
  induction cs with
  | nil => intro buf; simp [Ascase.toKebabGo, Ascase.FromKebabCase.pushAll]
  | cons d cs ih =>
    intro buf
    have hd := hcs d (List.mem_cons_self d cs)
    have hcs' : ∀ e ∈ cs, e.toNat < 128 ∧ e ≠ '-' := fun e he => hcs e (List.mem_cons_of_mem d he)
    rw [Ascase.toKebabGo]
    simp only [Bool.not_false, Bool.and_true]
    by_cases hu : Ascase.rustIsUppercase d = true
    · have hun := isUpper_iff.mp hu
      have hlow := toLower_upper_toNat hun
      simp only [hu, if_true]
      show (Ascase.FromKebabCase.pushAll
        (((⟨false, false, buf⟩ : Ascase.FromKebabCase).push '-').push
          (Ascase.toAsciiLowercase d)) (Ascase.toKebabGo false cs)).buffer = buf ++ d :: cs
      have hsep : (⟨false, false, buf⟩ : Ascase.FromKebabCase).push '-' =
          ⟨false, true, buf⟩ := by
        simp [Ascase.FromKebabCase.push]
      rw [hsep]
      have hlne : Ascase.toAsciiLowercase d ≠ '-' := by
        intro he
        have h2 : (Ascase.toAsciiLowercase d).toNat = ('-').toNat := congrArg Char.toNat he
        simp only [Ascase.toAsciiLowercase] at h2
        rw [hlow] at h2
        have h45 : ('-').toNat = 45 := rfl
        omega
      have hpush : (⟨false, true, buf⟩ : Ascase.FromKebabCase).push
          (Ascase.toAsciiLowercase d) = ⟨false, false, buf ++ [d]⟩ := by
        rw [Ascase.FromKebabCase.push, if_neg hlne]
        simp only [Bool.false_or, if_true]
        have : Ascase.rustToUppercase (Ascase.toAsciiLowercase d) = [d] := by
          rw [Ascase.rustToUppercase, Ascase.toAsciiLowercase, if_pos (by rw [hlow]; omega)]
          rw [show (Char.toLower d).toUpper = d from toUpper_toLower hu]
        rw [this]
      rw [hpush, ih hcs']
      simp
    · have hln : Ascase.toAsciiLowercase d = d := by
        rw [Ascase.toAsciiLowercase]
        apply toLower_eq_self
        intro hcon
        exact hu (isUpper_iff.mpr hcon)
      simp only [hu, if_false]
      show (Ascase.FromKebabCase.pushAll
        ((⟨false, false, buf⟩ : Ascase.FromKebabCase).push (Ascase.toAsciiLowercase d))
        (Ascase.toKebabGo false cs)).buffer = buf ++ d :: cs
      have hpush : (⟨false, false, buf⟩ : Ascase.FromKebabCase).push
          (Ascase.toAsciiLowercase d) = ⟨false, false, buf ++ [d]⟩ := by
        rw [hln, Ascase.FromKebabCase.push, if_neg hd.2]
        simp
      rw [hpush, ih hcs']
      simp

/-- C6: identifier case round trip — for an ASCII PascalCase identifier
(first character an uppercase letter, no hyphens), feeding the
`ToKebabCase` character stream of the identifier into the `FromKebabCase`
consumer and reading back its accumulated buffer reproduces the
identifier exactly. -/
theorem kebab_case_round_trip (c : Char) (cs : List Char) (hc : c.isUpper = true)
    (hcs : ∀ d ∈ cs, d.toNat < 128 ∧ d ≠ '-') :
    (Ascase.FromKebabCase.pushAll .new (Ascase.to_kebab_case (c :: cs))).render =
      c :: cs := by
  rw [Ascase.to_kebab_case, Ascase.toKebabGo]
  simp only [Bool.not_true, Bool.and_false, if_false]
  show (Ascase.FromKebabCase.pushAll
    ((Ascase.FromKebabCase.new).push (Ascase.toAsciiLowercase c))
    (Ascase.toKebabGo false cs)).render = c :: cs
  have hun := isUpper_iff.mp hc
  have hlow := toLower_upper_toNat hun
  have hlne : Ascase.toAsciiLowercase c ≠ '-' := by
    intro he
    have h2 : (Ascase.toAsciiLowercase c).toNat = ('-').toNat := congrArg Char.toNat he
    simp only [Ascase.toAsciiLowercase] at h2
    rw [hlow] at h2
    have h45 : ('-').toNat = 45 := rfl
    omega
  have hpush : (Ascase.FromKebabCase.new).push (Ascase.toAsciiLowercase c) =
      ⟨false, false, [c]⟩ := by
    rw [Ascase.FromKebabCase.new, Ascase.FromKebabCase.push, if_neg hlne]
    simp only [Bool.true_or, if_true]
    have : Ascase.rustToUppercase (Ascase.toAsciiLowercase c) = [c] := by
      rw [Ascase.rustToUppercase, Ascase.toAsciiLowercase, if_pos (by rw [hlow]; omega)]
      rw [show (Char.toLower c).toUpper = c from toUpper_toLower hc]
    rw [this]
    rfl
  rw [hpush]
  show (Ascase.FromKebabCase.pushAll ⟨false, false, [c]⟩
    (Ascase.toKebabGo false cs)).buffer = c :: cs
  rw [fromKebab_pushAll_go cs hcs [c]]
  rfl

/-- C6 witness: `TimeHintMonth` survives the kebab round trip. -/
theorem kebab_case_round_trip_witness :
    (Ascase.FromKebabCase.pushAll .new
      (Ascase.to_kebab_case "TimeHintMonth".data)).render = "TimeHintMonth".data := by
  have := kebab_case_round_trip 'T' "imeHintMonth".data (by decide) (by decide)
  simpa using this


/-! ## UTF-8 decoding -/

theorem mul_pow_lor (k : Nat) : ∀ a m : Nat, m < 2 ^ k → (a * 2 ^ k) ||| m = a * 2 ^ k + m := by
  induction k with
  | zero =>
    intro a m hm
    interval_cases m
    simp
  | succ k ih =>
    intro a m hm
    have hb : ∀ (b : Bool) (n : Nat), Nat.bit b n = 2 * n + b.toNat := by
      intro b n
      cases b <;> simp [Nat.bit]
    have hsh : a * 2 ^ (k + 1) = Nat.bit false (a * 2 ^ k) := by
      rw [hb]
      simp [pow_succ]
      ring
    have hm2 : m = Nat.bit (decide (m % 2 = 1)) (m / 2) := by
      rcases Nat.mod_two_eq_zero_or_one m with h | h <;> simp [h, hb] <;> omega
    rw [hsh, hm2, Nat.lor_bit]
    have hdiv : m / 2 < 2 ^ k := by omega
    rw [ih a (m / 2) hdiv]
    simp only [hb, Bool.false_or]
    rcases Nat.mod_two_eq_zero_or_one m with h | h <;> simp [h] <;> omega

theorem shift6_lor (a m : Nat) (hm : m < 64) : (a <<< 6) ||| m = a * 64 + m := by
  rw [Nat.shiftLeft_eq]
  have := mul_pow_lor 6 a m (by omega)
  simpa using this

theorem ascii_and : ∀ n < 128, n &&& 128 = 0 := by decide

theorem lead2_and : ∀ q < 32,
    (192 + q) &&& 128 = 128 ∧ (192 + q) &&& 224 = 192 ∧ (192 + q) &&& 31 = q := by decide

theorem lead3_and : ∀ q < 16,
    (224 + q) &&& 128 = 128 ∧ (224 + q) &&& 224 = 224 ∧ (224 + q) &&& 240 = 224 ∧
    (224 + q) &&& 15 = q := by decide

theorem lead4_and : ∀ q < 8,
    (240 + q) &&& 128 = 128 ∧ (240 + q) &&& 224 = 224 ∧ (240 + q) &&& 240 = 240 ∧
    (240 + q) &&& 248 = 240 ∧ (240 + q) &&& 7 = q := by decide

theorem cont_and : ∀ m < 64,
    (128 + m) &&& 192 = 128 ∧ (128 + m) &&& 63 = m := by decide

theorem char_valid_toNat (c : Char) : c.toNat.isValidChar := c.valid

theorem charFromNat?_valid {n : Nat} (h : n.isValidChar) :
    Codepoint.charFromNat? n = some (Char.ofNat n) := by
  rw [Codepoint.charFromNat?, if_pos h]

/-- One continuation step: `contLoop` on a valid continuation byte. -/
theorem contLoop_cons {ε : Type} (err : ε) (k : Nat) (code m : Nat) (hm : m < 64)
    (bs : List Nat) :
    Codepoint.contLoop err (k + 1) code ((128 + m) :: bs) =
      Codepoint.contLoop err k (code * 64 + m) bs := by
  rw [Codepoint.contLoop]
  rw [if_pos (by simpa [Codepoint.MASK_2, Codepoint.MASK_1] using (cont_and m hm).1)]
  rw [(cont_and m hm).2, shift6_lor code m hm]

/-- Decoding the UTF-8 bytes of one character yields exactly that
character and the remaining bytes. -/
theorem next_code_point_encodeChar {ε : Type} (err : ε) (c : Char) (rest : List Nat) :
    Codepoint.next_code_point (Codepoint.utf8EncodeChar c ++ rest) err =
      .ok (some (c, rest)) := by
  have hvalid := char_valid_toNat c
  have hton : c.toNat < 0x110000 := by
    rcases hvalid with h | h
    · omega
    · omega
  rw [Codepoint.utf8EncodeChar]
  by_cases h1 : c.toNat < 0x80
  · rw [if_pos h1]
    rw [List.cons_append, List.nil_append, Codepoint.next_code_point]
    rw [if_pos (by simpa [Codepoint.MASK_1, Codepoint.MASK_0] using ascii_and c.toNat (by omega))]
    rw [char_ofNat_toNat]
  · rw [if_neg h1]
    by_cases h2 : c.toNat < 0x800
    · rw [if_pos h2]
      have hq : c.toNat / 64 < 32 := by omega
      have hm : c.toNat % 64 < 64 := by omega
      have hf := lead2_and (c.toNat / 64) hq
      simp only [List.cons_append, List.nil_append, Codepoint.next_code_point]
      rw [if_neg (by simp [Codepoint.MASK_1, Codepoint.MASK_0, hf.1])]
      simp only [Codepoint.MASK_0, Codepoint.MASK_1, Codepoint.MASK_2, Codepoint.MASK_3,
        Codepoint.MASK_4, Codepoint.MASK_5]
      rw [if_neg (by simp [hf.1]), if_pos hf.2.1]
      simp only [hf.2.2]
      rw [contLoop_cons err 0 _ _ hm rest, Codepoint.contLoop]
      have hval : c.toNat / 64 * 64 + c.toNat % 64 = c.toNat := by omega
      rw [hval]
      have hcf : Codepoint.charFromNat? c.toNat = some c := by
        rw [charFromNat?_valid hvalid, char_ofNat_toNat]
      simp [hcf]
    · rw [if_neg h2]
      by_cases h3 : c.toNat < 0x10000
      · rw [if_pos h3]
        have hq : c.toNat / 4096 < 16 := by omega
        have hm1 : c.toNat / 64 % 64 < 64 := by omega
        have hm2 : c.toNat % 64 < 64 := by omega
        have hf := lead3_and (c.toNat / 4096) hq
        simp only [List.cons_append, List.nil_append, Codepoint.next_code_point]
        rw [if_neg (by simp [Codepoint.MASK_1, Codepoint.MASK_0, hf.1])]
        simp only [Codepoint.MASK_0, Codepoint.MASK_1, Codepoint.MASK_2, Codepoint.MASK_3,
          Codepoint.MASK_4, Codepoint.MASK_5]
        rw [if_neg (by simp [hf.1]), if_neg (by simp [hf.2.1]), if_pos hf.2.2.1]
        simp only [hf.2.2.2]
        rw [contLoop_cons err 1 _ _ hm1, contLoop_cons err 0 _ _ hm2, Codepoint.contLoop]
        have hval : (c.toNat / 4096 * 64 + c.toNat / 64 % 64) * 64 + c.toNat % 64 = c.toNat := by
          omega
        rw [hval]
        have hcf : Codepoint.charFromNat? c.toNat = some c := by
          rw [charFromNat?_valid hvalid, char_ofNat_toNat]
        simp [hcf]
      · rw [if_neg h3]
        have hq : c.toNat / 262144 < 8 := by omega
        have hm1 : c.toNat / 4096 % 64 < 64 := by omega
        have hm2 : c.toNat / 64 % 64 < 64 := by omega
        have hm3 : c.toNat % 64 < 64 := by omega
        have hf := lead4_and (c.toNat / 262144) hq
        simp only [List.cons_append, List.nil_append, Codepoint.next_code_point]
        rw [if_neg (by simp [Codepoint.MASK_1, Codepoint.MASK_0, hf.1])]
        simp only [Codepoint.MASK_0, Codepoint.MASK_1, Codepoint.MASK_2, Codepoint.MASK_3,
          Codepoint.MASK_4, Codepoint.MASK_5]
        rw [if_neg (by simp [hf.1]), if_neg (by simp [hf.2.1]), if_neg (by simp [hf.2.2.1]),
          if_pos hf.2.2.2.1]
        simp only [hf.2.2.2.2]
        rw [contLoop_cons err 2 _ _ hm1, contLoop_cons err 1 _ _ hm2,
          contLoop_cons err 0 _ _ hm3, Codepoint.contLoop]
        have hval : ((c.toNat / 262144 * 64 + c.toNat / 4096 % 64) * 64 + c.toNat / 64 % 64) * 64 +
            c.toNat % 64 = c.toNat := by omega
        rw [hval]
        have hcf : Codepoint.charFromNat? c.toNat = some c := by
          rw [charFromNat?_valid hvalid, char_ofNat_toNat]
        simp [hcf]

theorem utf8EncodeChar_length_pos (c : Char) : 0 < (Codepoint.utf8EncodeChar c).length := by
  rw [Codepoint.utf8EncodeChar]
  split_ifs <;> simp

/-- Decoding the full UTF-8 byte sequence of a string (with enough fuel)
yields exactly its characters. -/
theorem decodeAllGo_encode {ε : Type} (err : ε) (cs : List Char) :
    ∀ fuel, (Codepoint.utf8Encode cs).length < fuel →
      Codepoint.decodeAllGo err fuel (Codepoint.utf8Encode cs) = .ok cs := by
  induction cs with
  | nil =>
    intro fuel hfuel
    cases fuel with
    | zero => omega
    | succ k => rw [Codepoint.decodeAllGo, Codepoint.utf8Encode]; rfl
  | cons c cs ih =>
    intro fuel hfuel
    have hsplit : Codepoint.utf8Encode (c :: cs) =
        Codepoint.utf8EncodeChar c ++ Codepoint.utf8Encode cs := by
      simp [Codepoint.utf8Encode]
    cases fuel with
    | zero =>
      exfalso
      omega
    | succ k =>
      rw [Codepoint.decodeAllGo, hsplit, next_code_point_encodeChar err c]
      have hlen : (Codepoint.utf8Encode cs).length < k := by
        rw [hsplit] at hfuel
        have := utf8EncodeChar_length_pos c
        simp only [List.length_append] at hfuel
        omega
      show (match Codepoint.decodeAllGo err k (Codepoint.utf8Encode cs) with
        | Except.error e => Except.error e
        | Except.ok cs2 => Except.ok (c :: cs2)) = Except.ok (c :: cs)
      rw [ih k hlen]

/-- Truncated continuation run: `contLoop` hits the end of input while
continuation bytes are still expected. -/
theorem contLoop_truncated {ε : Type} (err : ε) :
    ∀ (cs : List Nat) (k code : Nat), (∀ x ∈ cs, x &&& 192 = 128) → cs.length ≤ k →
      Codepoint.contLoop err (k + 1) code cs = .error err := by
  intro cs
  induction cs with
  | nil => intro k code _ _; rw [Codepoint.contLoop]
  | cons b bs ih =>
    intro k code hcont hlen
    have hb := hcont b (List.mem_cons_self b bs)
    rw [Codepoint.contLoop]
    rw [if_pos (by simpa [Codepoint.MASK_2, Codepoint.MASK_1] using hb)]
    cases k with
    | zero => simp at hlen
    | succ k2 =>
      exact ih k2 _ (fun x hx => hcont x (List.mem_cons_of_mem b hx)) (by simpa using hlen)

/-- Invalid continuation byte: `contLoop` rejects a byte without the
`10xxxxxx` pattern while continuations are still expected. -/
theorem contLoop_badCont {ε : Type} (err : ε) :
    ∀ (cs : List Nat) (k code : Nat) (x : Nat) (rest : List Nat),
      (∀ y ∈ cs, y &&& 192 = 128) → cs.length ≤ k → ¬ (x &&& 192 = 128) →
      Codepoint.contLoop err (k + 1) code (cs ++ x :: rest) = .error err := by
  intro cs
  induction cs with
  | nil =>
    intro k code x rest _ _ hx
    rw [List.nil_append, Codepoint.contLoop]
    rw [if_neg (by simpa [Codepoint.MASK_2, Codepoint.MASK_1] using hx)]
  | cons b bs ih =>
    intro k code x rest hcont hlen hx
    have hb := hcont b (List.mem_cons_self b bs)
    rw [List.cons_append, Codepoint.contLoop]
    rw [if_pos (by simpa [Codepoint.MASK_2, Codepoint.MASK_1] using hb)]
    cases k with
    | zero => simp at hlen
    | succ k2 =>
      exact ih k2 _ x rest (fun y hy => hcont y (List.mem_cons_of_mem b hy))
        (by simpa using hlen) hx

/-- A multi-byte lead (`leadTailCount b = some (k+1)`) falls into the
classification `match` with `k+1` expected continuation bytes and then
runs `contLoop`; package the two error modes. -/
theorem next_code_point_lead_error {ε : Type} (err : ε) (b : Nat) (k : Nat)
    (hlead : leadTailCount b = some (k + 1)) (tailBytes : List Nat)
    (hfail : ∀ h : Nat, Codepoint.contLoop err (k + 1) h tailBytes = .error err) :
    Codepoint.next_code_point (b :: tailBytes) err = .error err := by
  rw [leadTailCount] at hlead
  by_cases h0 : b &&& 128 = 0
  · rw [if_pos h0] at hlead
    simp at hlead
  · rw [if_neg h0] at hlead
    rw [Codepoint.next_code_point]
    rw [if_neg (by simpa [Codepoint.MASK_1, Codepoint.MASK_0] using h0)]
    simp only [Codepoint.MASK_0, Codepoint.MASK_1, Codepoint.MASK_2, Codepoint.MASK_3,
      Codepoint.MASK_4, Codepoint.MASK_5]
    rw [if_neg (by simpa using h0)]
    by_cases h2 : b &&& 224 = 192
    · rw [if_pos h2] at hlead ⊢
      have hk : k = 0 := by simp at hlead; omega
      subst hk
      show (match Codepoint.contLoop err 1 (b &&& 31) tailBytes with
        | .error e => (Except.error e : Except ε (Option (Char × List Nat)))
        | .ok (code, rest') =>
          match Codepoint.charFromNat? code with
          | some ch => Except.ok (some (ch, rest'))
          | none => Except.error err) = Except.error err
      rw [show (1 : Nat) = 0 + 1 from rfl, hfail (b &&& 31)]
    · rw [if_neg h2] at hlead ⊢
      by_cases h3 : b &&& 240 = 224
      · rw [if_pos h3] at hlead ⊢
        have hk : k = 1 := by simp at hlead; omega
        subst hk
        show (match Codepoint.contLoop err 2 (b &&& 15) tailBytes with
          | .error e => (Except.error e : Except ε (Option (Char × List Nat)))
          | .ok (code, rest') =>
            match Codepoint.charFromNat? code with
            | some ch => Except.ok (some (ch, rest'))
            | none => Except.error err) = Except.error err
        rw [show (2 : Nat) = 1 + 1 from rfl, hfail (b &&& 15)]
      · rw [if_neg h3] at hlead ⊢
        by_cases h4 : b &&& 248 = 240
        · rw [if_pos h4] at hlead ⊢
          have hk : k = 2 := by simp at hlead; omega
          subst hk
          show (match Codepoint.contLoop err 3 (b &&& 7) tailBytes with
            | .error e => (Except.error e : Except ε (Option (Char × List Nat)))
            | .ok (code, rest') =>
              match Codepoint.charFromNat? code with
              | some ch => Except.ok (some (ch, rest'))
              | none => Except.error err) = Except.error err
          rw [show (3 : Nat) = 2 + 1 from rfl, hfail (b &&& 7)]
        · rw [if_neg h4] at hlead
          simp at hlead

/-- `tryContLoop` over an error-free stream agrees with `contLoop`. -/
theorem tryContLoop_pure {ε : Type} (err : ε) :
    ∀ (k code : Nat) (bs : List Nat),
      Codepoint.tryContLoop err k code (bs.map Except.ok) =
        (Codepoint.contLoop err k code bs).map (fun (p : Nat × List Nat) =>
          (p.1, p.2.map Except.ok)) := by
  intro k
  induction k with
  | zero => intro code bs; rw [Codepoint.tryContLoop, Codepoint.contLoop]; rfl
  | succ k ih =>
    intro code bs
    cases bs with
    | nil => rw [List.map_nil, Codepoint.tryContLoop, Codepoint.contLoop]; rfl
    | cons b bs2 =>
      rw [List.map_cons, Codepoint.tryContLoop, Codepoint.contLoop]
      by_cases hb : b &&& Codepoint.MASK_2 = Codepoint.MASK_1
      · rw [if_pos hb, if_pos hb, ih]
      · rw [if_neg hb, if_neg hb]; rfl

/-- `try_next_code_point` over an error-free stream agrees with
`next_code_point`. -/
theorem try_next_code_point_pure {ε : Type} (err : ε) (bs : List Nat) :
    Codepoint.try_next_code_point (bs.map Except.ok) err =
      (Codepoint.next_code_point bs err).map (Option.map (fun p =>
        (p.1, p.2.map Except.ok))) := by
  cases bs with
  | nil => rfl
  | cons b bs2 =>
    rw [List.map_cons, Codepoint.try_next_code_point, Codepoint.next_code_point]
    by_cases h0 : b &&& Codepoint.MASK_1 = Codepoint.MASK_0
    · rw [if_pos h0, if_pos h0]; rfl
    · rw [if_neg h0, if_neg h0]
      simp only
      by_cases h2 : b &&& Codepoint.MASK_3 = Codepoint.MASK_2
      all_goals by_cases h3 : b &&& Codepoint.MASK_4 = Codepoint.MASK_3
      all_goals by_cases h4 : b &&& Codepoint.MASK_5 = Codepoint.MASK_4
      all_goals simp only [h0, h2, h3, h4, if_true, if_false, tryContLoop_pure]
      all_goals try rfl
      all_goals cases hcl : Codepoint.contLoop err _ _ bs2
      all_goals try rfl
      all_goals rename_i val
      all_goals rcases val with ⟨code, rest⟩
      all_goals simp only [Except.map]
      all_goals cases Codepoint.charFromNat? code <;> rfl


/-- C2: UTF-8 code point decoding. (1) Repeatedly decoding the UTF-8
byte sequence of any Unicode string yields exactly its characters
followed by the clean end (`decodeAll` is the crate's own
read-until-`Ok(None)` loop, and every function here is total — no
panic). (2) End of input before a lead byte is the clean no-more-data
result. (3) A multi-byte lead whose continuation bytes are cut short by
the end of input yields the supplied error: end of input among expected
continuation bytes is an error, not a clean end. (4) A byte without the
`10xxxxxx` pattern among the expected continuation bytes yields the
supplied error. (5) `try_next_code_point` is the same algorithm: it
agrees with `next_code_point` on every error-free byte source. -/
theorem utf8_code_point_decoding :
    (∀ (ε : Type) (err : ε) (cs : List Char),
      Codepoint.decodeAll (Codepoint.utf8Encode cs) err = .ok cs) ∧
    (∀ (ε : Type) (err : ε),
      Codepoint.next_code_point ([] : List Nat) err = .ok none) ∧
    (∀ (ε : Type) (err : ε) (b k : Nat) (cs : List Nat),
      leadTailCount b = some (k + 1) → (∀ x ∈ cs, x &&& 192 = 128) → cs.length ≤ k →
      Codepoint.next_code_point (b :: cs) err = .error err) ∧
    (∀ (ε : Type) (err : ε) (b k : Nat) (cs : List Nat) (x : Nat) (rest : List Nat),
      leadTailCount b = some (k + 1) → (∀ y ∈ cs, y &&& 192 = 128) → cs.length ≤ k →
      ¬(x &&& 192 = 128) →
      Codepoint.next_code_point (b :: (cs ++ x :: rest)) err = .error err) ∧
    (∀ (ε : Type) (err : ε) (bs : List Nat),
      Codepoint.try_next_code_point (bs.map Except.ok) err =
        (Codepoint.next_code_point bs err).map (Option.map (fun p =>
          (p.1, p.2.map Except.ok)))) := by
  refine ⟨?_, ?_, ?_, ?_, ?_⟩
  · intro ε err cs
    exact decodeAllGo_encode err cs _ (Nat.lt_succ_self _)
  · intro ε err
    rfl
  · intro ε err b k cs hlead hcont hlen
    exact next_code_point_lead_error err b k hlead cs
      (fun h => contLoop_truncated err cs k h hcont hlen)
  · intro ε err b k cs x rest hlead hcont hlen hx
    exact next_code_point_lead_error err b k hlead (cs ++ x :: rest)
      (fun h => contLoop_badCont err cs k h x rest hcont hlen hx)
  · intro ε err bs
    exact try_next_code_point_pure err bs

/-- C2 witness: concrete instances — round trip of `"aé€"`, clean end on
empty input, truncated 2-byte and 3-byte sequences, an invalid
continuation byte after a 2-byte lead, and `try`/plain agreement on a
one-byte stream. -/
theorem utf8_code_point_decoding_witness :
    Codepoint.decodeAll (Codepoint.utf8Encode "aé€".data) () = .ok "aé€".data ∧
    Codepoint.next_code_point ([] : List Nat) () = .ok none ∧
    Codepoint.next_code_point [0xC3] () = .error () ∧
    Codepoint.next_code_point [0xE2, 0x82] () = .error () ∧
    Codepoint.next_code_point [0xC3, 0x28] () = .error () ∧
    Codepoint.try_next_code_point [Except.ok 0x41] () =
      (Codepoint.next_code_point [0x41] ()).map (Option.map (fun p =>
        (p.1, p.2.map Except.ok))) := by
  refine ⟨utf8_code_point_decoding.1 Unit () _, utf8_code_point_decoding.2.1 Unit (), ?_, ?_, ?_, ?_⟩
  · exact utf8_code_point_decoding.2.2.1 Unit () 0xC3 0 [] (by decide) (by decide) (by decide)
  · exact utf8_code_point_decoding.2.2.1 Unit () 0xE2 1 [0x82] (by decide)
      (by decide) (by decide)
  · have := utf8_code_point_decoding.2.2.2.1 Unit () 0xC3 0 [] 0x28 [] (by decide)
      (by decide) (by decide) (by decide)
    simpa using this
  · exact utf8_code_point_decoding.2.2.2.2 Unit () [0x41]


/-! ## Compact-mode closed form of the serializer -/

theorem bindO_some (st : Serializer) (f : Serializer → Option Serializer) :
    bindO (some st) f = f st := rfl

theorem bindO_none (f : Serializer → Option Serializer) :
    bindO Option.none f = Option.none := rfl

theorem es_compact_none {st : Serializer} (h1 : st.sep = .none)
    (h2 : st.indent = Option.none) : st.ensure_spacing = st := by
  rcases st with ⟨sep, ind, out⟩
  simp only at h1 h2
  subst h1
  subst h2
  rfl

theorem es_compact_line {st : Serializer} (h1 : st.sep = .line)
    (h2 : st.indent = Option.none) : st.ensure_spacing = { st with sep := .none } := by
  rcases st with ⟨sep, ind, out⟩
  simp only at h1 h2
  subst h1
  subst h2
  rfl

theorem es_compact_los {st : Serializer} (h1 : st.sep = .lineOrSpace)
    (h2 : st.indent = Option.none) :
    st.ensure_spacing = { st with sep := .none, output := st.output ++ [' '] } := by
  rcases st with ⟨sep, ind, out⟩
  simp only at h1 h2
  subst h1
  subst h2
  rfl

theorem indentInc_none {st : Serializer} (h : st.indent = Option.none) :
    st.indentInc = st := by
  rcases st with ⟨sep, ind, out⟩
  simp only at h
  subst h
  rfl

theorem dedent_none {st : Serializer} (h : st.indent = Option.none) :
    st.dedent = st := by
  rcases st with ⟨sep, ind, out⟩
  simp only at h
  subst h
  rfl

mutual

/-- In compact mode (no indent, no pending separator — which is how
every call site invokes it) the serializer appends exactly the
`encodeCS` text and leaves the `encodeCS` separator pending. -/
theorem serializeValue_compact (v : Value) :
    ∀ st : Serializer, st.sep = .none → st.indent = Option.none →
      serializeValue st v = (encodeCS v).map fun ts =>
        ⟨ts.2, Option.none, st.output ++ ts.1⟩ := by
  intro st hsep hind
  rcases st with ⟨sep, ind, out⟩
  simp only at hsep hind
  subst hsep
  subst hind
  cases v with
  | vBool b => simp [serializeValue, encodeCS, Serializer.write]
  | vInt n => simp [serializeValue, encodeCS, Serializer.write]
  | vNat n => simp [serializeValue, encodeCS, Serializer.write]
  | vChar c => simp [serializeValue, encodeCS, Serializer.write]
  | vStr s => simp [serializeValue, encodeCS, Serializer.write]
  | vNone => simp [serializeValue, encodeCS, Serializer.write]
  | vUnit => simp [serializeValue, encodeCS, Serializer.write]
  | vSome v =>
    rw [serializeValue, encodeCS]
    simp only [Serializer.write, Serializer.indentInc]
    rw [es_compact_los rfl rfl]
    rw [serializeValue_compact v _ rfl rfl]
    cases henc : encodeCS v with
    | none => simp [bindO_none]
    | some ts =>
      rcases ts with ⟨t, sp⟩
      simp [bindO_some, Serializer.write, Serializer.dedent, Serializer.indentInc]
  | vSeq vs =>
    rw [serializeValue, encodeCS]
    simp only [Serializer.write, Serializer.indentInc]
    rw [serializeElems_compact vs ⟨.line, Option.none, out ++ ['[']⟩ false rfl rfl]
    cases henc : encodeElemsCS false vs with
    | none => simp [bindO_none]
    | some ts => simp [bindO_some, Serializer.write, Serializer.dedent, Serializer.indentInc]
  | vMap es =>
    rw [serializeValue, encodeCS]
    simp only [Serializer.write, Serializer.indentInc]
    rw [serializeEntries_compact es ⟨.lineOrSpace, Option.none, out ++ "(map".data⟩ rfl]
    cases henc : encodeEntriesCS .lineOrSpace es with
    | none => simp [bindO_none]
    | some tsf =>
      rcases tsf with ⟨ts, fsp⟩
      simp [bindO_some, Serializer.write, Serializer.dedent, Serializer.indentInc]
  | vStruct name fs =>
    rw [serializeValue, encodeCS]
    simp only [Serializer.write, Serializer.indentInc]
    rw [serializeFields_compact fs ⟨.lineOrSpace, Option.none,
      out ++ '(' :: Ascase.to_kebab_case name⟩ rfl rfl]
    cases henc : encodeFieldsCS fs with
    | none => simp [bindO_none]
    | some ts => simp [bindO_some, Serializer.write, Serializer.dedent, Serializer.indentInc]
  | vVariant variant arg =>
    cases arg with
    | unitV => simp [serializeValue, serializeVariant, encodeCS, Serializer.write]
    | newtypeV v => simp [serializeValue, serializeVariant, encodeCS]
    | tupleV vs => simp [serializeValue, serializeVariant, encodeCS]
    | structV fs =>
      rw [serializeValue, serializeVariant, encodeCS]
      simp only [Serializer.write, Serializer.indentInc]
      rw [serializeFields_compact fs ⟨.lineOrSpace, Option.none,
        out ++ '(' :: Ascase.to_kebab_case variant⟩ rfl rfl]
      cases henc : encodeFieldsCS fs with
      | none => simp [bindO_none]
      | some ts => simp [bindO_some, Serializer.write, Serializer.dedent, Serializer.indentInc]

/-- Sequence elements in compact mode: `Line` pending before the first
element (nothing emitted), `LineOrSpace` (one space) before the rest. -/
theorem serializeElems_compact (vs : List Value) :
    ∀ (st : Serializer) (spaceBefore : Bool),
      st.sep = (if spaceBefore then .lineOrSpace else .line) →
      st.indent = Option.none →
      serializeElems st vs = (encodeElemsCS spaceBefore vs).map fun ts =>
        ⟨if vs.isEmpty then st.sep else .lineOrSpace, Option.none, st.output ++ ts⟩ := by
  intro st spaceBefore hsep hind
  rcases st with ⟨sep, ind, out⟩
  simp only at hsep hind
  subst hsep
  subst hind
  cases vs with
  | nil => simp [serializeElems, encodeElemsCS]
  | cons v vs =>
    rw [serializeElems, encodeElemsCS]
    have hes : Serializer.ensure_spacing
        ⟨if spaceBefore then .lineOrSpace else .line, Option.none, out⟩ =
        ⟨.none, Option.none, out ++ if spaceBefore then [' '] else []⟩ := by
      cases spaceBefore with
      | true => rw [if_pos rfl, es_compact_los rfl rfl]; simp
      | false => rw [if_neg (by simp), es_compact_line rfl rfl]; simp
    rw [hes]
    simp only
    rw [serializeValue_compact v _ rfl rfl]
    cases henc : encodeCS v with
    | none => simp [bindO_none]
    | some ts =>
      rcases ts with ⟨t, sp⟩
      simp only [Option.map_some', bindO_some]
      rw [serializeElems_compact vs ⟨.lineOrSpace, Option.none,
        (out ++ if spaceBefore then [' '] else []) ++ t⟩ true rfl rfl]
      cases henc2 : encodeElemsCS true vs with
      | none => simp
      | some ts2 =>
        simp only [Option.map_some']
        cases spaceBefore <;> simp

/-- Struct fields in compact mode: `LineOrSpace` pending before every
field (one space each). -/
theorem serializeFields_compact (fs : List Value) :
    ∀ st : Serializer, st.sep = .lineOrSpace → st.indent = Option.none →
      serializeFields st fs = (encodeFieldsCS fs).map fun ts =>
        ⟨.lineOrSpace, Option.none, st.output ++ ts⟩ := by
  intro st hsep hind
  rcases st with ⟨sep, ind, out⟩
  simp only at hsep hind
  subst hsep
  subst hind
  cases fs with
  | nil => simp [serializeFields, encodeFieldsCS]
  | cons v vs =>
    rw [serializeFields, encodeFieldsCS]
    rw [es_compact_los rfl rfl]
    simp only
    rw [serializeValue_compact v _ rfl rfl]
    cases henc : encodeCS v with
    | none => simp [bindO_none]
    | some ts =>
      rcases ts with ⟨t, sp⟩
      simp only [Option.map_some', bindO_some]
      rw [serializeFields_compact vs ⟨.lineOrSpace, Option.none, (out ++ [' ']) ++ t⟩ rfl rfl]
      cases henc2 : encodeFieldsCS vs with
      | none => simp
      | some ts2 => simp

/-- Map entries in compact mode, threading the pending separator. -/
theorem serializeEntries_compact (es : List (Value × Value)) :
    ∀ st : Serializer, st.indent = Option.none →
      serializeEntries st es = (encodeEntriesCS st.sep es).map fun tsf =>
        ⟨tsf.2, Option.none, st.output ++ tsf.1⟩ := by
  intro st hind
  rcases st with ⟨sep, ind, out⟩
  simp only at hind
  subst hind
  cases es with
  | nil => simp [serializeEntries, encodeEntriesCS]
  | cons kv es =>
    rcases kv with ⟨k, v⟩
    rw [serializeEntries, encodeEntriesCS]
    have hes : Serializer.ensure_spacing ⟨sep, Option.none, out⟩ =
        ⟨.none, Option.none, out ++ if sep = .lineOrSpace then [' '] else []⟩ := by
      cases sep with
      | none => rw [es_compact_none rfl rfl]; simp
      | line => rw [es_compact_line rfl rfl]; simp
      | lineOrSpace => rw [es_compact_los rfl rfl]; simp
    rw [hes]
    simp only [Serializer.write]
    rw [es_compact_line rfl rfl]
    simp only
    rw [serializeValue_compact k _ rfl rfl]
    cases henck : encodeCS k with
    | none => simp [bindO_none]
    | some kts =>
      rcases kts with ⟨kt, ksp⟩
      simp only [Option.map_some', bindO_some]
      rw [es_compact_los rfl rfl]
      simp only
      rw [serializeValue_compact v _ rfl rfl]
      cases hencv : encodeCS v with
      | none => simp [bindO_none]
      | some vts =>
        rcases vts with ⟨vt, vsp⟩
        simp only [Option.map_some', bindO_some, Serializer.write]
        rw [serializeEntries_compact es ⟨vsp, Option.none,
          ((((out ++ if sep = .lineOrSpace then [' '] else []) ++ ['[']) ++ kt) ++ [' ']
            ++ vt) ++ [']']⟩ rfl]
        simp only
        cases henc2 : encodeEntriesCS vsp es with
        | none => simp
        | some tsf2 => simp

end


/-! ## Parsing the compact encoding: primitive lemmas -/

theorem to_string_encodeCS (v : Value) : to_string v = (encodeCS v).map Prod.fst := by
  rw [to_string, serializeValue_compact v _ rfl rfl]
  cases encodeCS v with
  | none => rfl
  | some ts => simp

theorem skipWsGo_all (ws : List Char) (hws : ∀ ch ∈ ws, rustIsWhitespace ch = true) :
    ∀ (r c : Nat) (x : List Char), ∃ r2 c2, skipWsGo r c (ws ++ x) = skipWsGo r2 c2 x := by
  induction ws with
  | nil => intro r c x; exact ⟨r, c, rfl⟩
  | cons w ws ih =>
    intro r c x
    have hw := hws w (List.mem_cons_self w ws)
    rw [List.cons_append, skipWsGo, if_pos hw]
    exact ih (fun ch hch => hws ch (List.mem_cons_of_mem w hch)) _ _ x

theorem skipWsGo_head_not_ws {x : List Char}
    (hx : ∀ ch, x.head? = some ch → rustIsWhitespace ch = false) (r c : Nat) :
    skipWsGo r c x = ⟨r, c, x⟩ := by
  cases x with
  | nil => rfl
  | cons ch rest => rw [skipWsGo, if_neg (by simp [hx ch rfl])]

/-- Skipping whitespace over a run of whitespace followed by
non-whitespace (or nothing) lands exactly at the non-whitespace. -/
theorem skip_whitespace_prefix (ws : List Char)
    (hws : ∀ ch ∈ ws, rustIsWhitespace ch = true) (x : List Char)
    (hx : ∀ ch, x.head? = some ch → rustIsWhitespace ch = false) (r c : Nat) :
    ∃ r2 c2, De.skip_whitespace ⟨r, c, ws ++ x⟩ = ⟨r2, c2, x⟩ := by
  obtain ⟨r2, c2, h⟩ := skipWsGo_all ws hws r c x
  exact ⟨r2, c2, by rw [De.skip_whitespace] at *; rw [h, skipWsGo_head_not_ws hx]⟩

theorem skipWs_result_head (r c : Nat) (x : List Char) :
    ∀ ch, (skipWsGo r c x).input.head? = some ch → rustIsWhitespace ch = false := by
  induction x generalizing r c with
  | nil => intro ch h; simp [skipWsGo] at h
  | cons a rest ih =>
    intro ch h
    rw [skipWsGo] at h
    by_cases ha : rustIsWhitespace a = true
    · rw [if_pos ha] at h
      exact ih _ _ ch h
    · rw [if_neg ha] at h
      simp at h
      subst h
      simpa using ha

theorem skip_whitespace_idem (d : De) :
    (d.skip_whitespace).skip_whitespace = d.skip_whitespace := by
  rcases d with ⟨r, c, input⟩
  show De.skip_whitespace (De.skip_whitespace ⟨r, c, input⟩) = _
  rcases h : De.skip_whitespace ⟨r, c, input⟩ with ⟨r2, c2, x⟩
  have hx : ∀ ch, x.head? = some ch → rustIsWhitespace ch = false := by
    intro ch hch
    apply skipWs_result_head r c input ch
    rw [show skipWsGo r c input = De.skip_whitespace ⟨r, c, input⟩ from rfl, h]
    exact hch
  show De.skip_whitespace ⟨r2, c2, x⟩ = _
  rw [De.skip_whitespace]
  simp only
  rw [skipWsGo_head_not_ws hx]

/-- The expected-characters loop succeeds on exactly its literal,
landing right after it. -/
theorem expectsImmGo_ok (cs : List Char) :
    ∀ (r0 c0 r c : Nat) (rest : List Char), ∃ r2 c2,
      expectsImmGo r0 c0 cs ⟨r, c, cs ++ rest⟩ = .ok ⟨r2, c2, rest⟩ := by
  induction cs with
  | nil => intro r0 c0 r c rest; exact ⟨r, c, rfl⟩
  | cons ch cs ih =>
    intro r0 c0 r c rest
    rw [List.cons_append, expectsImmGo]
    simp only [De.next_char]
    rw [if_pos trivial]
    exact ih r0 c0 _ _ rest

theorem expects_imm_ok (d : De) (cs rest : List Char) (h : d.input = cs ++ rest) :
    ∃ r2 c2, d.expects_imm cs = .ok ⟨r2, c2, rest⟩ := by
  rcases d with ⟨r, c, input⟩
  simp only at h
  subst h
  exact expectsImmGo_ok cs r c r c rest

/-- `expects` on input that starts with its (nonempty, non-whitespace)
literal. -/
theorem expects_ok (ch : Char) (cs rest : List Char) (r c : Nat)
    (hch : rustIsWhitespace ch = false) :
    ∃ r2 c2, De.expects ⟨r, c, (ch :: cs) ++ rest⟩ (ch :: cs) = .ok ⟨r2, c2, rest⟩ := by
  rw [De.expects]
  have hskip : De.skip_whitespace ⟨r, c, (ch :: cs) ++ rest⟩ = ⟨r, c, (ch :: cs) ++ rest⟩ := by
    rw [De.skip_whitespace]
    exact skipWsGo_head_not_ws (by intro a ha; simp at ha; subst ha; exact hch) r c
  rw [hskip]
  exact expects_imm_ok _ (ch :: cs) rest rfl

/-- `expects_either` on input whose head is one of the two characters. -/
theorem expects_either_hit (a lhs rhs : Char) (rest : List Char) (r c : Nat)
    (hws : rustIsWhitespace a = false) (hor : a = lhs ∨ a = rhs) :
    ∃ r2 c2, De.expects_either ⟨r, c, a :: rest⟩ lhs rhs = .ok (a, ⟨r2, c2, rest⟩) := by
  rw [De.expects_either]
  have hskip : De.skip_whitespace ⟨r, c, a :: rest⟩ = ⟨r, c, a :: rest⟩ := by
    rw [De.skip_whitespace]
    exact skipWsGo_head_not_ws (by intro x hx; simp at hx; subst hx; exact hws) r c
  rw [hskip]
  simp only [De.next_char]
  rcases hor with h | h
  · subst h
    exact ⟨_, _, by rw [if_pos rfl]⟩
  · subst h
    by_cases hl : a = lhs
    · exact ⟨_, _, by rw [if_pos hl]⟩
    · exact ⟨_, _, by rw [if_neg hl, if_pos rfl]⟩

theorem parse_escape_quote (r c : Nat) (rest : List Char) :
    De.parse_escape ⟨r, c, '\'' :: rest⟩ = .ok ('\'', ⟨r, c + 1, rest⟩) := rfl

theorem parse_escape_dquote (r c : Nat) (rest : List Char) :
    De.parse_escape ⟨r, c, '"' :: rest⟩ = .ok ('"', ⟨r, c + 1, rest⟩) := rfl

theorem parse_escape_n (r c : Nat) (rest : List Char) :
    De.parse_escape ⟨r, c, 'n' :: rest⟩ = .ok ('\n', ⟨r, c + 1, rest⟩) := rfl

theorem parse_escape_backslash (r c : Nat) (rest : List Char) :
    De.parse_escape ⟨r, c, '\\' :: rest⟩ = .ok ('\\', ⟨r, c + 1, rest⟩) := rfl


/-! ## Decimal representation lemmas -/

theorem digitsVal_append_single (xs : List Char) (c : Char) :
    digitsVal (xs ++ [c]) = digitsVal xs * 10 + (c.toNat - '0'.toNat) := by
  simp [digitsVal, List.foldl_append]

theorem digitChar_toNat {n : Nat} (h : n < 10) :
    (Char.ofNat ('0'.toNat + n)).toNat = 48 + n := by
  have h48 : ('0').toNat = 48 := rfl
  rw [h48]
  exact char_toNat_ofNat (by omega)

theorem digitChar_isDec {n : Nat} (h : n < 10) :
    isDecDigit (Char.ofNat ('0'.toNat + n)) = true := by
  rw [isDecDigit_iff, digitChar_toNat h]
  omega

theorem decimalGo_spec : ∀ (f n : Nat), n < 10 ^ (f + 1) → ∀ acc, ∃ ds,
    decimalGo (f + 1) n acc = ds ++ acc ∧ ds ≠ [] ∧
    (∀ c ∈ ds, isDecDigit c = true) ∧ digitsVal ds = n := by
  intro f
  induction f with
  | zero =>
    intro n hn acc
    have h10 : n < 10 := by simpa using hn
    refine ⟨[Char.ofNat ('0'.toNat + n)], ?_, by simp, ?_, ?_⟩
    · rw [decimalGo, if_pos h10]
      rfl
    · intro c hc
      simp at hc
      subst hc
      exact digitChar_isDec h10
    · rw [show [Char.ofNat ('0'.toNat + n)] = [] ++ [Char.ofNat ('0'.toNat + n)] from rfl,
        digitsVal_append_single, digitChar_toNat h10]
      simp [digitsVal]
  | succ f ih =>
    intro n hn acc
    by_cases h10 : n < 10
    · refine ⟨[Char.ofNat ('0'.toNat + n)], ?_, by simp, ?_, ?_⟩
      · rw [decimalGo, if_pos h10]
        rfl
      · intro c hc
        simp at hc
        subst hc
        exact digitChar_isDec h10
      · rw [show [Char.ofNat ('0'.toNat + n)] = [] ++ [Char.ofNat ('0'.toNat + n)] from rfl,
          digitsVal_append_single, digitChar_toNat h10]
        simp [digitsVal]
    · have hdiv : n / 10 < 10 ^ (f + 1) := by
        rw [Nat.div_lt_iff_lt_mul (by norm_num)]
        calc n < 10 ^ (f + 1 + 1) := hn
        _ = 10 ^ (f + 1) * 10 := by ring
      obtain ⟨ds', hgo, hne, hdig, hval⟩ := ih (n / 10) hdiv (Char.ofNat ('0'.toNat + n % 10) :: acc)
      refine ⟨ds' ++ [Char.ofNat ('0'.toNat + n % 10)], ?_, by simp, ?_, ?_⟩
      · rw [decimalGo, if_neg h10, hgo]
        simp
      · intro c hc
        rcases List.mem_append.mp hc with hc | hc
        · exact hdig c hc
        · simp at hc
          subst hc
          exact digitChar_isDec (Nat.mod_lt n (by norm_num))
      · rw [digitsVal_append_single, hval, digitChar_toNat (Nat.mod_lt n (by norm_num))]
        rw [show ('0').toNat = 48 from rfl]
        omega

theorem decimalRepr_spec (n : Nat) : decimalRepr n ≠ [] ∧
    (∀ c ∈ decimalRepr n, isDecDigit c = true) ∧ digitsVal (decimalRepr n) = n := by
  have hn : n < 10 ^ (n + 1) := by
    calc n < 10 ^ n := Nat.lt_pow_self (by norm_num) n
    _ ≤ 10 ^ (n + 1) := Nat.pow_le_pow_right (by norm_num) (Nat.le_succ n)
  obtain ⟨ds, hgo, hne, hdig, hval⟩ := decimalGo_spec n n hn []
  rw [decimalRepr, hgo]
  simp only [List.append_nil]
  exact ⟨hne, hdig, hval⟩

/-- `parse_nat` reads back `decimalRepr` (positions existential). -/
theorem parse_nat_ok (n : Nat) (hle : n ≤ u64Max) (maxv : Nat) (hmax : n ≤ maxv)
    (rest : List Char) (hrest : restNoDigit rest) (r c : Nat) :
    ∃ r2 c2, De.parse_nat ⟨r, c, decimalRepr n ++ rest⟩ maxv =
      .ok (n, ⟨r2, c2, rest⟩) := by
  obtain ⟨hne, hdig, hval⟩ := decimalRepr_spec n
  have hu : De.parse_u64 ⟨r, c, decimalRepr n ++ rest⟩ =
      .ok (n, ⟨r, c + (decimalRepr n).length, rest⟩) := by
    rw [parse_u64_ok (decimalRepr n) hdig hne rest hrest (by rw [hval]; exact hle) r c, hval]
  refine ⟨r, c + (decimalRepr n).length, ?_⟩
  rw [De.parse_nat, hu]
  show (if n ≤ maxv then (.ok (n, ⟨r, c + (decimalRepr n).length, rest⟩) :
    Except Error (Nat × De)) else .error .numberOverflow) = _
  rw [if_pos hmax]

/-- `parse_int` reads back `signedRepr` for an in-range value above
`i64::MIN` (positions existential). -/
theorem parse_int_ok (n : Int) (hmin : i64Min < n) (hmax : n ≤ i64Max) (lo hi : Int)
    (hlo : lo ≤ n) (hhi : n ≤ hi) (rest : List Char) (hrest : restNoDigit rest) (r c : Nat) :
    ∃ r2 c2, De.parse_int ⟨r, c, signedRepr n ++ rest⟩ lo hi =
      .ok (n, ⟨r2, c2, rest⟩) := by
  have hi64 : i64Max = (2 : Int) ^ 63 - 1 := by decide
  by_cases hneg : n < 0
  · obtain ⟨hne, hdig, hval⟩ := decimalRepr_spec n.natAbs
    have habs : (n.natAbs : Int) = -n := by omega
    have hlei : (digitsVal (decimalRepr n.natAbs) : Int) ≤ i64Max := by
      rw [hval, habs]
      rw [hi64] at *
      rw [show i64Min = -(2 : Int) ^ 63 from by decide] at hmin
      omega
    have h64 : De.parse_i64 ⟨r, c, '-' :: (decimalRepr n.natAbs ++ rest)⟩ =
        .ok (n, ⟨r, c + 1 + (decimalRepr n.natAbs).length, rest⟩) := by
      rw [parse_i64_ok '-' (Or.inr rfl) _ hdig hne rest hrest hlei r c]
      have hsgn : ((if ('-' : Char) = '+' then 1 else -1) : Int) = -1 := by decide
      rw [hsgn, hval]
      rw [show (-1 : Int) * (n.natAbs : Int) = n from by omega]
    refine ⟨r, c + 1 + (decimalRepr n.natAbs).length, ?_⟩
    rw [signedRepr, if_pos hneg, List.cons_append, De.parse_int, h64]
    show (if lo ≤ n ∧ n ≤ hi then (.ok (n, ⟨r, c + 1 + (decimalRepr n.natAbs).length, rest⟩) :
      Except Error (Int × De)) else .error .numberOverflow) = _
    rw [if_pos ⟨hlo, hhi⟩]
  · obtain ⟨hne, hdig, hval⟩ := decimalRepr_spec n.toNat
    have htn : (n.toNat : Int) = n := by omega
    have hlei : (digitsVal (decimalRepr n.toNat) : Int) ≤ i64Max := by
      rw [hval, htn]
      exact hmax
    have h64 : De.parse_i64 ⟨r, c, '+' :: (decimalRepr n.toNat ++ rest)⟩ =
        .ok (n, ⟨r, c + 1 + (decimalRepr n.toNat).length, rest⟩) := by
      rw [parse_i64_ok '+' (Or.inl rfl) _ hdig hne rest hrest hlei r c]
      rw [if_pos rfl, hval]
      rw [show (1 : Int) * (n.toNat : Int) = n from by omega]
    refine ⟨r, c + 1 + (decimalRepr n.toNat).length, ?_⟩
    rw [signedRepr, if_neg hneg, List.cons_append, De.parse_int, h64]
    show (if lo ≤ n ∧ n ≤ hi then (.ok (n, ⟨r, c + 1 + (decimalRepr n.toNat).length, rest⟩) :
      Except Error (Int × De)) else .error .numberOverflow) = _
    rw [if_pos ⟨hlo, hhi⟩]

/-! ## Identifier-character lemmas -/

theorem alnum_iff {c : Char} : rustIsAlphanumeric c = true ↔
    (65 ≤ c.toNat ∧ c.toNat ≤ 90) ∨ (97 ≤ c.toNat ∧ c.toNat ≤ 122) ∨
    (48 ≤ c.toNat ∧ c.toNat ≤ 57) := by
  simp [rustIsAlphanumeric, Char.isAlpha, Char.isUpper, Char.isLower, Char.isDigit,
    UInt32.le_def, BitVec.le_def, Char.toNat, UInt32.toNat]
  omega

theorem alnum_not_ws {c : Char} (h : rustIsAlphanumeric c = true) :
    rustIsWhitespace c = false := by
  rw [alnum_iff] at h
  simp [rustIsWhitespace]
  omega

theorem alnum_lt_128 {c : Char} (h : rustIsAlphanumeric c = true) : c.toNat < 128 := by
  rw [alnum_iff] at h
  omega

theorem alnum_ne_dash {c : Char} (h : rustIsAlphanumeric c = true) : c ≠ '-' := by
  rw [alnum_iff] at h
  intro he
  subst he
  have h45 : ('-').toNat = 45 := rfl
  omega

theorem upper_alnum {c : Char} (h : c.isUpper = true) : rustIsAlphanumeric c = true := by
  rw [alnum_iff]
  exact Or.inl (isUpper_iff.mp h)

theorem dash_not_ws : rustIsWhitespace '-' = false := by decide

theorem toLower_alnum {c : Char} (h : rustIsAlphanumeric c = true) :
    rustIsAlphanumeric c.toLower = true := by
  by_cases hup : 65 ≤ c.toNat ∧ c.toNat ≤ 90
  · rw [alnum_iff]
    have := toLower_upper_toNat hup
    omega
  · rw [toLower_eq_self hup]
    exact h

theorem toKebabGo_ne_nil (c : Char) (cs : List Char) (first : Bool) :
    Ascase.toKebabGo first (c :: cs) ≠ [] := by
  rw [Ascase.toKebabGo]
  split <;> simp

theorem toKebabGo_chars (cs : List Char) (hcs : ∀ c ∈ cs, rustIsAlphanumeric c = true) :
    ∀ first, ∀ x ∈ Ascase.toKebabGo first cs,
      rustIsAlphanumeric x = true ∨ x = '-' := by
  induction cs with
  | nil => intro first x hx; simp [Ascase.toKebabGo] at hx
  | cons c cs ih =>
    intro first x hx
    have hc := hcs c (List.mem_cons_self c cs)
    have hlow : rustIsAlphanumeric (Ascase.toAsciiLowercase c) = true := toLower_alnum hc
    have hrest := ih (fun d hd => hcs d (List.mem_cons_of_mem c hd)) false
    rw [Ascase.toKebabGo] at hx
    split at hx
    · rcases List.mem_cons.mp hx with hx | hx
      · exact Or.inr hx
      · rcases List.mem_cons.mp hx with hx | hx
        · subst hx; exact Or.inl hlow
        · exact hrest x hx
    · rcases List.mem_cons.mp hx with hx | hx
      · subst hx; exact Or.inl hlow
      · exact hrest x hx

theorem kebab_chars (name : List Char) (hname : ∀ c ∈ name, rustIsAlphanumeric c = true) :
    ∀ x ∈ Ascase.to_kebab_case name, rustIsAlphanumeric x = true ∨ x = '-' :=
  toKebabGo_chars name hname true

theorem kebab_char_not_ws {x : Char} (h : rustIsAlphanumeric x = true ∨ x = '-') :
    rustIsWhitespace x = false := by
  rcases h with h | h
  · exact alnum_not_ws h
  · subst h; exact dash_not_ws


/-! ## Skip-normalization: every parser entry point first skips
whitespace, so a parse is invariant under pre-skipping. -/

theorem expects_skip (d : De) (cs : List Char) :
    d.expects cs = (d.skip_whitespace).expects cs := by
  rw [De.expects, De.expects, skip_whitespace_idem]

theorem expects_either_skip (d : De) (l r : Char) :
    d.expects_either l r = (d.skip_whitespace).expects_either l r := by
  rw [De.expects_either, De.expects_either, skip_whitespace_idem]

theorem parse_u64_skip (d : De) : d.parse_u64 = (d.skip_whitespace).parse_u64 := by
  rw [De.parse_u64, De.parse_u64, skip_whitespace_idem]

theorem parse_i64_skip (d : De) : d.parse_i64 = (d.skip_whitespace).parse_i64 := by
  rw [De.parse_i64, De.parse_i64, skip_whitespace_idem]

theorem parse_nat_skip (d : De) (maxv : Nat) :
    d.parse_nat maxv = (d.skip_whitespace).parse_nat maxv := by
  rw [De.parse_nat, De.parse_nat, parse_u64_skip]

theorem parse_int_skip (d : De) (lo hi : Int) :
    d.parse_int lo hi = (d.skip_whitespace).parse_int lo hi := by
  rw [De.parse_int, De.parse_int, parse_i64_skip]

theorem parse_ident_skip (d : De) : d.parse_ident = (d.skip_whitespace).parse_ident := by
  rw [De.parse_ident, De.parse_ident, skip_whitespace_idem]

theorem parseShape_skip (fuel : Nat) (s : Shape) (d : De) :
    parseShape fuel s d = parseShape fuel s d.skip_whitespace := by
  cases fuel with
  | zero => rfl
  | succ f =>
    cases s with
    | sBool => simp only [parseShape]; rw [expects_either_skip]
    | sInt bits => simp only [parseShape]; rw [parse_int_skip]
    | sNat bits => simp only [parseShape]; rw [parse_nat_skip]
    | sChar => simp only [parseShape]; rw [expects_skip]
    | sString => simp only [parseShape]; rw [expects_skip]
    | sUnit => simp only [parseShape]; rw [expects_skip]
    | sOption s => simp only [parseShape]; rw [expects_skip]
    | sList s => simp only [parseShape]; rw [expects_skip]
    | sTuple ss => simp only [parseShape]; rw [expects_skip]
    | sMap ks vls => simp only [parseShape]; rw [expects_skip]
    | sStruct name fields => simp only [parseShape]; rw [expects_skip]
    | sEnum variants => simp only [parseShape]; rw [expects_skip]

/-- A parse is invariant under a leading whitespace run (up to the
position state). -/
theorem parseShape_ws (fuel : Nat) (s : Shape) (ws : List Char)
    (hws : ∀ ch ∈ ws, rustIsWhitespace ch = true) (r c : Nat) (x : List Char) :
    ∃ r2 c2, parseShape fuel s ⟨r, c, ws ++ x⟩ = parseShape fuel s ⟨r2, c2, x⟩ := by
  obtain ⟨r2, c2, h⟩ := skipWsGo_all ws hws r c x
  refine ⟨r2, c2, ?_⟩
  rw [parseShape_skip fuel s ⟨r, c, ws ++ x⟩, parseShape_skip fuel s ⟨r2, c2, x⟩]
  congr 1

theorem restNoDigit_cons {c : Char} (h : isDecDigit c = false) (xs : List Char) :
    restNoDigit (c :: xs) := by
  intro ch hch
  simp at hch
  subst hch
  exact h

theorem restNoDigit_nil : restNoDigit [] := by
  intro ch hch
  simp at hch

/-! ## Identifier parsing -/

/-- Duplicate of the C6 round-trip statement, for use inside the
deserializer development (ASCII PascalCase survives
kebab-encode / kebab-decode). -/
theorem pushAll_kebab (c : Char) (cs : List Char) (hc : c.isUpper = true)
    (hcs : ∀ d ∈ cs, d.toNat < 128 ∧ d ≠ '-') :
    (Ascase.FromKebabCase.pushAll .new (Ascase.to_kebab_case (c :: cs))).render =
      c :: cs := by
  rw [Ascase.to_kebab_case, Ascase.toKebabGo]
  simp only [Bool.not_true, Bool.and_false, if_false]
  show (Ascase.FromKebabCase.pushAll
    ((Ascase.FromKebabCase.new).push (Ascase.toAsciiLowercase c))
    (Ascase.toKebabGo false cs)).render = c :: cs
  have hun := isUpper_iff.mp hc
  have hlow := toLower_upper_toNat hun
  have hlne : Ascase.toAsciiLowercase c ≠ '-' := by
    intro he
    have h2 : (Ascase.toAsciiLowercase c).toNat = ('-').toNat := congrArg Char.toNat he
    simp only [Ascase.toAsciiLowercase] at h2
    rw [hlow] at h2
    have h45 : ('-').toNat = 45 := rfl
    omega
  have hpush : (Ascase.FromKebabCase.new).push (Ascase.toAsciiLowercase c) =
      ⟨false, false, [c]⟩ := by
    rw [Ascase.FromKebabCase.new, Ascase.FromKebabCase.push, if_neg hlne]
    simp only [Bool.true_or, if_true]
    have : Ascase.rustToUppercase (Ascase.toAsciiLowercase c) = [c] := by
      rw [Ascase.rustToUppercase, Ascase.toAsciiLowercase, if_pos (by rw [hlow]; omega)]
      rw [show (Char.toLower c).toUpper = c from toUpper_toLower hc]
    rw [this]
    rfl
  rw [hpush]
  show (Ascase.FromKebabCase.pushAll ⟨false, false, [c]⟩
    (Ascase.toKebabGo false cs)).buffer = c :: cs
  rw [fromKebab_pushAll_go cs hcs [c]]
  rfl

/-- The identifier loop consumes exactly a run of
alphanumeric-or-dash characters. -/
theorem parseIdentGo_append (ks : List Char)
    (hks : ∀ x ∈ ks, rustIsAlphanumeric x = true ∨ x = '-') :
    ∀ (st : Ascase.FromKebabCase) (r c : Nat) (rest : List Char),
      (∀ hch, rest.head? = some hch → rustIsAlphanumeric hch = false ∧ hch ≠ '-') →
      ∃ r2 c2, parseIdentGo st r c (ks ++ rest) = (st.pushAll ks, ⟨r2, c2, rest⟩) := by
  induction ks with
  | nil =>
    intro st r c rest hrest
    refine ⟨r, c, ?_⟩
    cases rest with
    | nil => rfl
    | cons h t =>
      obtain ⟨h1, h2⟩ := hrest h rfl
      rw [List.nil_append, parseIdentGo, if_neg (by simp [h1, h2])]
      rfl
  | cons k ks ih =>
    intro st r c rest hrest
    have hk := hks k (List.mem_cons_self k ks)
    have hcond : (rustIsAlphanumeric k || k = '-') = true := by
      rcases hk with hk | hk
      · simp [hk]
      · simp [hk]
    rw [List.cons_append, parseIdentGo, if_pos (by simpa using hcond)]
    obtain ⟨r2, c2, hgo⟩ := ih (fun x hx => hks x (List.mem_cons_of_mem k hx))
      (st.push k) (advancePos r c k).1 (advancePos r c k).2 rest hrest
    exact ⟨r2, c2, by rw [hgo]; rfl⟩

/-- `parse_ident` on the kebab-cased form of an ASCII PascalCase
identifier followed by a non-identifier character: returns the
identifier. -/
theorem parse_ident_kebab (c : Char) (cs : List Char) (hc : c.isUpper = true)
    (hcs : ∀ d ∈ cs, rustIsAlphanumeric d = true) (rest : List Char)
    (hrest : ∀ hch, rest.head? = some hch → rustIsAlphanumeric hch = false ∧ hch ≠ '-')
    (r col : Nat) :
    ∃ r2 c2, De.parse_ident ⟨r, col, Ascase.to_kebab_case (c :: cs) ++ rest⟩ =
      .ok (c :: cs, ⟨r2, c2, rest⟩) := by
  have hname : ∀ d ∈ c :: cs, rustIsAlphanumeric d = true := by
    intro d hd
    rcases List.mem_cons.mp hd with hd | hd
    · subst hd; exact upper_alnum hc
    · exact hcs d hd
  have hkch := kebab_chars (c :: cs) hname
  obtain ⟨kh, kt, hke⟩ : ∃ kh kt, Ascase.to_kebab_case (c :: cs) = kh :: kt := by
    rcases hk : Ascase.to_kebab_case (c :: cs) with _ | ⟨kh, kt⟩
    · exact absurd hk (toKebabGo_ne_nil c cs true)
    · exact ⟨kh, kt, rfl⟩
  have hrender : (Ascase.FromKebabCase.pushAll .new
      (Ascase.to_kebab_case (c :: cs))).render = c :: cs :=
    pushAll_kebab c cs hc (fun d hd =>
      ⟨alnum_lt_128 (hcs d hd), alnum_ne_dash (hcs d hd)⟩)
  rw [De.parse_ident]
  have hskip : De.skip_whitespace ⟨r, col, Ascase.to_kebab_case (c :: cs) ++ rest⟩ =
      ⟨r, col, Ascase.to_kebab_case (c :: cs) ++ rest⟩ := by
    rw [De.skip_whitespace]
    apply skipWsGo_head_not_ws
    intro ch hch
    rw [hke] at hch
    simp at hch
    subst hch
    exact kebab_char_not_ws (hkch kh (by rw [hke]; exact List.mem_cons_self kh kt))
  rw [hskip]
  obtain ⟨r2, c2, hgo⟩ := parseIdentGo_append (Ascase.to_kebab_case (c :: cs)) hkch
    .new r col rest hrest
  simp only
  rw [hgo]
  simp only
  rw [if_neg (by rw [hrender]; simp)]
  rw [hrender]
  exact ⟨r2, c2, rfl⟩

/-! ## First-character classification of the compact encoding -/

theorem escapeDebugStrChar_ne_nil (c : Char) : escapeDebugStrChar c ≠ [] := by
  rw [escapeDebugStrChar]
  split_ifs <;> simp

theorem flatMap_escape_len (s : List Char) :
    s.length ≤ (s.flatMap escapeDebugStrChar).length := by
  induction s with
  | nil => simp
  | cons c s ih =>
    rw [List.flatMap_cons, List.length_append, List.length_cons]
    have h1 : 1 ≤ (escapeDebugStrChar c).length :=
      List.length_pos.mpr (escapeDebugStrChar_ne_nil c)
    omega

/-- Every compact encoding is nonempty, and its first character is
non-whitespace and not a sequence/argument closer. -/
theorem encodeCS_head (v : Value) (t : List Char) (sp : Sep)
    (h : encodeCS v = some (t, sp)) :
    ∃ ch t2, t = ch :: t2 ∧ rustIsWhitespace ch = false ∧ ch ≠ ')' ∧ ch ≠ ']' := by
  cases v with
  | vBool b =>
    cases b <;> rw [encodeCS] at h <;> simp at h <;> obtain ⟨h1, h2⟩ := h
    · exact ⟨'f', "alse".data, by rw [← h1], by decide, by decide, by decide⟩
    · exact ⟨'t', "rue".data, by rw [← h1], by decide, by decide, by decide⟩
  | vInt n =>
    rw [encodeCS] at h
    simp at h
    obtain ⟨h1, h2⟩ := h
    by_cases hn : n < 0
    · refine ⟨'-', decimalRepr n.natAbs, ?_, by decide, by decide, by decide⟩
      rw [← h1, signedRepr, if_pos hn]
    · refine ⟨'+', decimalRepr n.toNat, ?_, by decide, by decide, by decide⟩
      rw [← h1, signedRepr, if_neg hn]
  | vNat n =>
    rw [encodeCS] at h
    simp at h
    obtain ⟨h1, h2⟩ := h
    obtain ⟨hne, hdig, hval⟩ := decimalRepr_spec n
    rcases hdr : decimalRepr n with _ | ⟨d0, ds⟩
    · exact absurd hdr hne
    · have hd0 : isDecDigit d0 = true := hdig d0 (by rw [hdr]; exact List.mem_cons_self d0 ds)
      refine ⟨d0, ds, by rw [← h1, hdr], decDigit_not_ws hd0, ?_, ?_⟩
      · intro he; rw [he] at hd0; exact absurd hd0 (by decide)
      · intro he; rw [he] at hd0; exact absurd hd0 (by decide)
  | vChar c =>
    rw [encodeCS] at h
    simp at h
    obtain ⟨h1, h2⟩ := h
    exact ⟨'\'', escapeDebugChar c ++ ['\''], by rw [← h1], by decide, by decide, by decide⟩
  | vStr s =>
    rw [encodeCS] at h
    simp at h
    obtain ⟨h1, h2⟩ := h
    exact ⟨'"', s.flatMap escapeDebugStrChar ++ ['"'], by rw [← h1],
      by decide, by decide, by decide⟩
  | vNone =>
    rw [encodeCS] at h
    simp at h
    obtain ⟨h1, h2⟩ := h
    exact ⟨'(', "none)".data, by rw [← h1], by decide, by decide, by decide⟩
  | vUnit =>
    rw [encodeCS] at h
    simp at h
    obtain ⟨h1, h2⟩ := h
    exact ⟨'(', "unit)".data, by rw [← h1], by decide, by decide, by decide⟩
  | vSome v =>
    rw [encodeCS] at h
    rcases henc : encodeCS v with _ | ⟨⟨tv, spv⟩⟩ <;> rw [henc] at h
    · exact absurd h (by simp)
    · simp at h
      obtain ⟨h1, h2⟩ := h
      exact ⟨'(', "some ".data ++ tv ++ [')'], by rw [← h1]; rfl,
        by decide, by decide, by decide⟩
  | vSeq vs =>
    rw [encodeCS] at h
    rcases henc : encodeElemsCS false vs with _ | ts <;> rw [henc] at h
    · exact absurd h (by simp)
    · simp at h
      obtain ⟨h1, h2⟩ := h
      exact ⟨'[', ts ++ [']'], by rw [← h1], by decide, by decide, by decide⟩
  | vMap es =>
    rw [encodeCS] at h
    rcases henc : encodeEntriesCS .lineOrSpace es with _ | ⟨⟨ts, fsp⟩⟩ <;> rw [henc] at h
    · exact absurd h (by simp)
    · simp at h
      obtain ⟨h1, h2⟩ := h
      exact ⟨'(', "map".data ++ ts ++ [')'], by rw [← h1]; rfl,
        by decide, by decide, by decide⟩
  | vStruct name fs =>
    rw [encodeCS] at h
    rcases henc : encodeFieldsCS fs with _ | ts <;> rw [henc] at h
    · exact absurd h (by simp)
    · simp at h
      obtain ⟨h1, h2⟩ := h
      exact ⟨'(', Ascase.to_kebab_case name ++ (ts ++ [')']), by rw [← h1],
        by decide, by decide, by decide⟩
  | vVariant variant arg =>
    cases arg with
    | unitV =>
      rw [encodeCS] at h
      simp at h
      obtain ⟨h1, h2⟩ := h
      exact ⟨'(', Ascase.to_kebab_case variant ++ [')'], by rw [← h1],
        by decide, by decide, by decide⟩
    | newtypeV v => exact absurd h (by rw [encodeCS]; simp)
    | tupleV vl => exact absurd h (by rw [encodeCS]; simp)
    | structV fs =>
      rw [encodeCS] at h
      rcases henc : encodeFieldsCS fs with _ | ts <;> rw [henc] at h
      · exact absurd h (by simp)
      · simp at h
        obtain ⟨h1, h2⟩ := h
        exact ⟨'(', Ascase.to_kebab_case variant ++ (ts ++ [')']), by rw [← h1],
          by decide, by decide, by decide⟩

theorem encodeFieldsCS_eq (vs : List Value) : encodeFieldsCS vs = encodeElemsCS true vs := by
  induction vs with
  | nil => rfl
  | cons v vs ih =>
    rw [encodeFieldsCS, encodeElemsCS, ih]
    cases encodeCS v with
    | none => rfl
    | some ts =>
      rcases ts with ⟨t, sp⟩
      cases encodeElemsCS true vs with
      | none => rfl
      | some rest => simp


/-! ## Character and string round-trip lemmas -/

theorem next_char_cons (r c : Nat) (ch : Char) (xs : List Char) :
    De.next_char ⟨r, c, ch :: xs⟩ =
      .ok (ch, ⟨(advancePos r c ch).1, (advancePos r c ch).2, xs⟩) := rfl

theorem expects_imm_single (ch : Char) (r c : Nat) (rest : List Char) :
    De.expects_imm ⟨r, c, ch :: rest⟩ [ch] =
      .ok ⟨(advancePos r c ch).1, (advancePos r c ch).2, rest⟩ := by
  rw [De.expects_imm]
  simp only
  rw [expectsImmGo, next_char_cons]
  simp [expectsImmGo]

theorem printable_escapeDebugChar {c : Char} (hp : rustIsPrintable c = true)
    (h1 : c ≠ '\\') (h2 : c ≠ '\'') : escapeDebugChar c = [c] := by
  have ht : 32 ≤ c.toNat ∧ c.toNat < 127 := by
    simpa [rustIsPrintable] using hp
  have hne0 : c ≠ Char.ofNat 0 := by
    intro he
    have h3 := congrArg Char.toNat he
    rw [show (Char.ofNat 0).toNat = 0 from rfl] at h3
    omega
  have hnet : c ≠ '\t' := by
    intro he
    have h3 := congrArg Char.toNat he
    rw [show ('\t').toNat = 9 from rfl] at h3
    omega
  have hner : c ≠ '\r' := by
    intro he
    have h3 := congrArg Char.toNat he
    rw [show ('\r').toNat = 13 from rfl] at h3
    omega
  have hnen : c ≠ '\n' := by
    intro he
    have h3 := congrArg Char.toNat he
    rw [show ('\n').toNat = 10 from rfl] at h3
    omega
  rw [escapeDebugChar, if_neg hne0, if_neg hnet, if_neg hner, if_neg hnen,
    if_neg h1, if_neg h2, if_pos hp]

theorem printable_escapeDebugStrChar {c : Char} (hp : rustIsPrintable c = true)
    (h1 : c ≠ '\\') (h2 : c ≠ '"') : escapeDebugStrChar c = [c] := by
  have ht : 32 ≤ c.toNat ∧ c.toNat < 127 := by
    simpa [rustIsPrintable] using hp
  have hne0 : c ≠ Char.ofNat 0 := by
    intro he
    have h3 := congrArg Char.toNat he
    rw [show (Char.ofNat 0).toNat = 0 from rfl] at h3
    omega
  have hnet : c ≠ '\t' := by
    intro he
    have h3 := congrArg Char.toNat he
    rw [show ('\t').toNat = 9 from rfl] at h3
    omega
  have hner : c ≠ '\r' := by
    intro he
    have h3 := congrArg Char.toNat he
    rw [show ('\r').toNat = 13 from rfl] at h3
    omega
  have hnen : c ≠ '\n' := by
    intro he
    have h3 := congrArg Char.toNat he
    rw [show ('\n').toNat = 10 from rfl] at h3
    omega
  rw [escapeDebugStrChar, if_neg hne0, if_neg hnet, if_neg hner, if_neg hnen,
    if_neg h1, if_neg h2, if_pos hp]

/-- The string-body loop of `deserialize_str` reads back the
debug-escaped text of a `goodChar` string up to the closing quote. -/
theorem parseStrLoop_ok (s : List Char) (hs : ∀ c ∈ s, goodChar c) :
    ∀ fuel, s.length + 1 ≤ fuel → ∀ (acc : List Char) (r c : Nat) (rest : List Char),
    ∃ r2 c2, parseStrLoop fuel acc ⟨r, c, s.flatMap escapeDebugStrChar ++ '"' :: rest⟩ =
      .ok (.vStr (acc ++ s), ⟨r2, c2, rest⟩) := by
  induction s with
  | nil =>
    intro fuel hf acc r c rest
    obtain ⟨f, rfl⟩ : ∃ f, fuel = f + 1 := ⟨fuel - 1, by omega⟩
    refine ⟨(advancePos r c '"').1, (advancePos r c '"').2, ?_⟩
    simp only [List.flatMap_nil, List.nil_append]
    rw [parseStrLoop, next_char_cons, bindE2_ok, if_pos rfl]
    simp
  | cons c0 s ih =>
    intro fuel hf acc r c rest
    obtain ⟨f, rfl⟩ : ∃ f, fuel = f + 1 := ⟨fuel - 1, by omega⟩
    have hf' : s.length + 1 ≤ f := by
      simp only [List.length_cons] at hf
      omega
    have hc0 := hs c0 (List.mem_cons_self c0 s)
    have hs' : ∀ x ∈ s, goodChar x := fun x hx => hs x (List.mem_cons_of_mem c0 hx)
    rw [List.flatMap_cons, List.append_assoc]
    by_cases hnl : c0 = '\n'
    · subst hnl
      rw [show escapeDebugStrChar '\n' = ['\\', 'n'] from by decide]
      rw [parseStrLoop]
      simp only [List.cons_append, List.nil_append]
      rw [next_char_cons, bindE2_ok, if_neg (by decide : ¬('\\' : Char) = '"'),
        if_pos rfl, parse_escape_n, bindE2_ok]
      obtain ⟨r2, c2, hgo⟩ := ih hs' f hf' (acc ++ ['\n']) _ _ rest
      exact ⟨r2, c2, by rw [hgo]; simp⟩
    · have hp : rustIsPrintable c0 = true := by
        rcases hc0 with h | h
        · exact h
        · exact absurd h hnl
      by_cases hbs : c0 = '\\'
      · subst hbs
        rw [show escapeDebugStrChar '\\' = ['\\', '\\'] from by decide]
        rw [parseStrLoop]
        simp only [List.cons_append, List.nil_append]
        rw [next_char_cons, bindE2_ok, if_neg (by decide : ¬('\\' : Char) = '"'),
          if_pos rfl, parse_escape_backslash, bindE2_ok]
        obtain ⟨r2, c2, hgo⟩ := ih hs' f hf' (acc ++ ['\\']) _ _ rest
        exact ⟨r2, c2, by rw [hgo]; simp⟩
      · by_cases hdq : c0 = '"'
        · subst hdq
          rw [show escapeDebugStrChar '"' = ['\\', '"'] from by decide]
          rw [parseStrLoop]
          simp only [List.cons_append, List.nil_append]
          rw [next_char_cons, bindE2_ok, if_neg (by decide : ¬('\\' : Char) = '"'),
            if_pos rfl, parse_escape_dquote, bindE2_ok]
          obtain ⟨r2, c2, hgo⟩ := ih hs' f hf' (acc ++ ['"']) _ _ rest
          exact ⟨r2, c2, by rw [hgo]; simp⟩
        · rw [printable_escapeDebugStrChar hp hbs hdq]
          rw [parseStrLoop]
          simp only [List.cons_append, List.nil_append]
          rw [next_char_cons, bindE2_ok, if_neg hdq, if_neg hbs]
          obtain ⟨r2, c2, hgo⟩ := ih hs' f hf' (acc ++ [c0]) _ _ rest
          exact ⟨r2, c2, by rw [hgo]; simp⟩

/-- `deserialize_char` reads back the quoted debug-escape of a
`goodChar` character. -/
theorem parse_char_ok (c0 : Char) (hgc : goodChar c0) (f : Nat) (r c : Nat)
    (rest : List Char) :
    ∃ r2 c2, parseShape (f + 1) .sChar ⟨r, c, ('\'' :: escapeDebugChar c0 ++ ['\'']) ++ rest⟩ =
      .ok (.vChar c0, ⟨r2, c2, rest⟩) := by
  simp only [parseShape]
  simp only [List.cons_append, List.append_assoc, List.nil_append]
  obtain ⟨r1, c1, hexp⟩ := expects_ok '\'' [] (escapeDebugChar c0 ++ '\'' :: rest) r c (by decide)
  simp only [List.cons_append, List.nil_append] at hexp
  rw [hexp, bindE1_ok]
  by_cases hnl : c0 = '\n'
  · subst hnl
    rw [show escapeDebugChar '\n' = ['\\', 'n'] from by decide]
    simp only [List.cons_append, List.nil_append]
    rw [next_char_cons, bindE2_ok, if_pos rfl, parse_escape_n, bindE2_ok]
    rw [expects_imm_single, bindE1_ok]
    exact ⟨_, _, rfl⟩
  · have hp : rustIsPrintable c0 = true := by
      rcases hgc with h | h
      · exact h
      · exact absurd h hnl
    by_cases hbs : c0 = '\\'
    · subst hbs
      rw [show escapeDebugChar '\\' = ['\\', '\\'] from by decide]
      simp only [List.cons_append, List.nil_append]
      rw [next_char_cons, bindE2_ok, if_pos rfl, parse_escape_backslash, bindE2_ok]
      rw [expects_imm_single, bindE1_ok]
      exact ⟨_, _, rfl⟩
    · by_cases hq : c0 = '\''
      · subst hq
        rw [show escapeDebugChar '\'' = ['\\', '\''] from by decide]
        simp only [List.cons_append, List.nil_append]
        rw [next_char_cons, bindE2_ok, if_pos rfl, parse_escape_quote, bindE2_ok]
        rw [expects_imm_single, bindE1_ok]
        exact ⟨_, _, rfl⟩
      · rw [printable_escapeDebugChar hp hbs hq]
        simp only [List.cons_append, List.nil_append]
        rw [next_char_cons, bindE2_ok, if_neg hbs, bindE2_ok]
        rw [expects_imm_single, bindE1_ok]
        exact ⟨_, _, rfl⟩


/-! ## Totality of the compact encoder on well-formed values, and the
fuel bound of the parser in terms of the encoded length -/

theorem obeysList_mem : ∀ {vs : List Value} {s : Shape}, ObeysList vs s →
    ∀ v ∈ vs, Obeys v s := by
  intro vs
  induction vs with
  | nil => intro s h v hv; simp at hv
  | cons x xs ih =>
    intro s h v hv
    cases h with
    | cons x xs s hx hs =>
      rcases List.mem_cons.mp hv with hy | hy
      · subst hy; exact hx
      · exact ih hs v hy

theorem obeysTuple_mem : ∀ {vs : List Value} {ss : List Shape}, ObeysTuple vs ss →
    ∀ v ∈ vs, ∃ s, Obeys v s := by
  intro vs
  induction vs with
  | nil => intro ss h v hv; simp at hv
  | cons x xs ih =>
    intro ss h v hv
    cases h with
    | cons x xs s ss2 hx hs =>
      rcases List.mem_cons.mp hv with hy | hy
      · subst hy; exact ⟨s, hx⟩
      · exact ih hs v hy

theorem obeysEntries_mem : ∀ {es : List (Value × Value)} {ks vls : Shape},
    ObeysEntries es ks vls → ∀ kv ∈ es, Obeys kv.1 ks ∧ Obeys kv.2 vls := by
  intro es
  induction es with
  | nil => intro ks vls h kv hkv; simp at hkv
  | cons x xs ih =>
    intro ks vls h kv hkv
    cases h with
    | cons k v es2 ks vls hk hv hs =>
      rcases List.mem_cons.mp hkv with hy | hy
      · subst hy; exact ⟨hk, hv⟩
      · exact ih hs kv hy

mutual
/-- A value obeying a shape always encodes (no `unimplemented!()` is
reached). -/
theorem encodeCS_total (v : Value) : ∀ s, Obeys v s → ∃ ts, encodeCS v = some ts := by
  intro s hob
  cases v with
  | vBool b => exact ⟨_, by rw [encodeCS]⟩
  | vInt n => exact ⟨_, by rw [encodeCS]⟩
  | vNat n => exact ⟨_, by rw [encodeCS]⟩
  | vChar c => exact ⟨_, by rw [encodeCS]⟩
  | vStr s => exact ⟨_, by rw [encodeCS]⟩
  | vNone => exact ⟨_, by rw [encodeCS]⟩
  | vUnit => exact ⟨_, by rw [encodeCS]⟩
  | vSome v =>
    cases hob with
    | someV v s h =>
      obtain ⟨⟨t, sp⟩, hts⟩ := encodeCS_total v s h
      exact ⟨_, by rw [encodeCS, hts]⟩
  | vSeq vs =>
    cases hob with
    | list vs s h =>
      obtain ⟨ts, hts⟩ := encodeElemsCS_total vs false
        (fun v hv => ⟨s, obeysList_mem h v hv⟩)
      exact ⟨_, by rw [encodeCS, hts]⟩
    | tuple vs ss h =>
      obtain ⟨ts, hts⟩ := encodeElemsCS_total vs false (obeysTuple_mem h)
      exact ⟨_, by rw [encodeCS, hts]⟩
  | vMap es =>
    cases hob with
    | map es ks vls h =>
      obtain ⟨⟨ts, fsp⟩, hts⟩ := encodeEntriesCS_total es .lineOrSpace
        (fun kv hkv => ⟨⟨ks, (obeysEntries_mem h kv hkv).1⟩,
          ⟨vls, (obeysEntries_mem h kv hkv).2⟩⟩)
      exact ⟨_, by rw [encodeCS, hts]⟩
  | vStruct name fs =>
    cases hob with
    | struct name fs fss hne hname h =>
      obtain ⟨ts, hts⟩ := encodeElemsCS_total fs true (obeysTuple_mem h)
      exact ⟨_, by rw [encodeCS, encodeFieldsCS_eq, hts]⟩
  | vVariant variant arg =>
    cases hob with
    | variantUnit variant variants hname hfind => exact ⟨_, by rw [encodeCS]⟩
    | variantStruct variant variants fs fss hname hfind h =>
      obtain ⟨ts, hts⟩ := encodeElemsCS_total fs true (obeysTuple_mem h)
      exact ⟨_, by rw [encodeCS, encodeFieldsCS_eq, hts]⟩

/-- Element lists of obeying values encode. -/
theorem encodeElemsCS_total (vs : List Value) :
    ∀ sb : Bool, (∀ v ∈ vs, ∃ s, Obeys v s) → ∃ ts, encodeElemsCS sb vs = some ts := by
  intro sb hp
  cases vs with
  | nil => exact ⟨[], by rw [encodeElemsCS]⟩
  | cons v vs =>
    obtain ⟨s, hob⟩ := hp v (List.mem_cons_self v vs)
    obtain ⟨⟨t, sp⟩, ht⟩ := encodeCS_total v s hob
    obtain ⟨rest, hrest⟩ := encodeElemsCS_total vs true
      (fun x hx => hp x (List.mem_cons_of_mem v hx))
    exact ⟨_, by rw [encodeElemsCS, ht, hrest]⟩

/-- Entry lists of obeying key/value pairs encode. -/
theorem encodeEntriesCS_total (es : List (Value × Value)) :
    ∀ sp : Sep, (∀ kv ∈ es, (∃ s, Obeys kv.1 s) ∧ (∃ s, Obeys kv.2 s)) →
      ∃ tsf, encodeEntriesCS sp es = some tsf := by
  intro sp hp
  cases es with
  | nil => exact ⟨([], sp), by rw [encodeEntriesCS]⟩
  | cons kv es =>
    rcases kv with ⟨k, v⟩
    obtain ⟨⟨ks, hks⟩, ⟨vs, hvs⟩⟩ := hp (k, v) (List.mem_cons_self (k, v) es)
    obtain ⟨⟨kt, ksp⟩, hkt⟩ := encodeCS_total k ks hks
    obtain ⟨⟨vt, vsp⟩, hvt⟩ := encodeCS_total v vs hvs
    obtain ⟨⟨rest, fsp⟩, hrest⟩ := encodeEntriesCS_total es vsp
      (fun x hx => hp x (List.mem_cons_of_mem (k, v) hx))
    refine ⟨((if sp = Sep.lineOrSpace then [' '] else []) ++
      '[' :: kt ++ ' ' :: vt ++ ']' :: rest, fsp), ?_⟩
    simp [encodeEntriesCS, hkt, hvt, hrest]
end

mutual
/-- The fuel `parseShape` needs on a value's encoding is at most the
encoding's length. -/
theorem parseNeed_le (v : Value) : ∀ s, Obeys v s → ∀ t sp,
    encodeCS v = some (t, sp) → parseNeed v ≤ t.length := by
  intro s hob t sp h
  cases v with
  | vBool b =>
    cases b <;> rw [encodeCS] at h <;> simp at h <;> obtain ⟨h1, h2⟩ := h <;>
      rw [← h1] <;> simp [parseNeed]
  | vInt n =>
    rw [encodeCS] at h
    simp at h
    obtain ⟨h1, h2⟩ := h
    rw [← h1]
    simp only [parseNeed]
    rw [signedRepr]
    split <;> simp
  | vNat n =>
    rw [encodeCS] at h
    simp at h
    obtain ⟨h1, h2⟩ := h
    rw [← h1]
    simp only [parseNeed]
    exact List.length_pos.mpr (decimalRepr_spec n).1
  | vChar c =>
    rw [encodeCS] at h
    simp at h
    obtain ⟨h1, h2⟩ := h
    rw [← h1]
    simp [parseNeed]
  | vStr s2 =>
    rw [encodeCS] at h
    simp at h
    obtain ⟨h1, h2⟩ := h
    rw [← h1]
    simp only [parseNeed, List.length_cons, List.length_append, List.length_singleton]
    have := flatMap_escape_len s2
    omega
  | vNone =>
    rw [encodeCS] at h
    simp at h
    obtain ⟨h1, h2⟩ := h
    rw [← h1]
    simp [parseNeed]
  | vUnit =>
    rw [encodeCS] at h
    simp at h
    obtain ⟨h1, h2⟩ := h
    rw [← h1]
    simp [parseNeed]
  | vSome v =>
    rw [encodeCS] at h
    rcases henc : encodeCS v with _ | ⟨⟨tv, spv⟩⟩ <;> rw [henc] at h
    · exact absurd h (by simp)
    · simp at h
      obtain ⟨h1, h2⟩ := h
      cases hob with
      | someV v s hv =>
        have hrec := parseNeed_le v s hv tv spv henc
        rw [← h1]
        simp only [parseNeed, List.length_append, List.length_cons, List.length_singleton]
        have hl : ("(some ".data).length = 6 := by decide
        omega
  | vSeq vs =>
    rw [encodeCS] at h
    rcases henc : encodeElemsCS false vs with _ | ts2 <;> rw [henc] at h
    · exact absurd h (by simp)
    · simp at h
      obtain ⟨h1, h2⟩ := h
      have hp : ∀ x ∈ vs, ∃ s2, Obeys x s2 := by
        cases hob with
        | list vs s hl => exact fun x hx => ⟨s, obeysList_mem hl x hx⟩
        | tuple vs ss hl => exact obeysTuple_mem hl
      have hrec := parseNeedElems_le vs hp false ts2 henc
      rw [← h1]
      simp only [parseNeed, List.length_append, List.length_cons, List.length_singleton]
      omega
  | vMap es =>
    rw [encodeCS] at h
    rcases henc : encodeEntriesCS .lineOrSpace es with _ | ⟨⟨ts2, fsp⟩⟩ <;> rw [henc] at h
    · exact absurd h (by simp)
    · simp at h
      obtain ⟨h1, h2⟩ := h
      have hp : ∀ kv ∈ es, (∃ s2, Obeys kv.1 s2) ∧ (∃ s2, Obeys kv.2 s2) := by
        cases hob with
        | map es ks vls hl =>
          exact fun kv hkv => ⟨⟨ks, (obeysEntries_mem hl kv hkv).1⟩,
            ⟨vls, (obeysEntries_mem hl kv hkv).2⟩⟩
      have hrec := parseNeedEntries_le es hp .lineOrSpace ts2 fsp henc
      rw [← h1]
      simp only [parseNeed, List.length_append, List.length_cons, List.length_singleton]
      have hl : ("map".data).length = 3 := by decide
      omega
  | vStruct name fs =>
    rw [encodeCS] at h
    rcases henc : encodeFieldsCS fs with _ | ts2 <;> rw [henc] at h
    · exact absurd h (by simp)
    · simp at h
      obtain ⟨h1, h2⟩ := h
      have hp : ∀ x ∈ fs, ∃ s2, Obeys x s2 := by
        cases hob with
        | struct name fs fss hne hname hl => exact obeysTuple_mem hl
      rw [encodeFieldsCS_eq] at henc
      have hrec := parseNeedElems_le fs hp true ts2 henc
      rw [← h1]
      simp only [parseNeed, parseNeedVariant, List.length_append, List.length_cons,
        List.length_singleton]
      omega
  | vVariant variant arg =>
    cases arg with
    | unitV =>
      rw [encodeCS] at h
      simp at h
      obtain ⟨h1, h2⟩ := h
      rw [← h1]
      simp only [parseNeed, parseNeedVariant, List.length_append, List.length_cons,
        List.length_singleton]
      omega
    | newtypeV v => rw [encodeCS] at h; exact absurd h (by simp)
    | tupleV vl => rw [encodeCS] at h; exact absurd h (by simp)
    | structV fs =>
      rw [encodeCS] at h
      rcases henc : encodeFieldsCS fs with _ | ts2 <;> rw [henc] at h
      · exact absurd h (by simp)
      · simp at h
        obtain ⟨h1, h2⟩ := h
        cases hob with
        | variantStruct variant variants fs fss hname hfind hl =>
          rw [encodeFieldsCS_eq] at henc
          have hrec := parseNeedElems_le fs (obeysTuple_mem hl) true ts2 henc
          obtain ⟨vc, vcs, rfl⟩ : ∃ vc vcs, variant = vc :: vcs := by
            rcases variant with _ | ⟨vc, vcs⟩
            · exact absurd hname (by simp [pascalIdent])
            · exact ⟨vc, vcs, rfl⟩
          have hk : 1 ≤ (Ascase.to_kebab_case (vc :: vcs)).length :=
            List.length_pos.mpr (toKebabGo_ne_nil vc vcs true)
          rw [← h1]
          simp only [parseNeed, parseNeedVariant, List.length_append, List.length_cons,
            List.length_singleton]
          omega

/-- Element-list fuel bound. -/
theorem parseNeedElems_le (vs : List Value) :
    (∀ v ∈ vs, ∃ s, Obeys v s) → ∀ (sb : Bool) (ts : List Char),
      encodeElemsCS sb vs = some ts → parseNeedElems vs ≤ ts.length + 1 := by
  intro hp sb ts h
  cases vs with
  | nil =>
    rw [encodeElemsCS] at h
    simp at h
    subst h
    simp [parseNeedElems]
  | cons v vs =>
    rw [encodeElemsCS] at h
    rcases henc : encodeCS v with _ | ⟨⟨tv, spv⟩⟩ <;> rw [henc] at h
    · exact absurd h (by simp)
    · rcases henc2 : encodeElemsCS true vs with _ | rest <;> rw [henc2] at h
      · exact absurd h (by simp)
      · simp at h
        obtain ⟨s, hob⟩ := hp v (List.mem_cons_self v vs)
        have h1 := parseNeed_le v s hob tv spv henc
        have h2 := parseNeedElems_le vs (fun x hx => hp x (List.mem_cons_of_mem v hx))
          true rest henc2
        obtain ⟨ch, t2, hte, _, _, _⟩ := encodeCS_head v tv spv henc
        have htv : 1 ≤ tv.length := by rw [hte]; simp
        rw [← h]
        simp only [parseNeedElems, List.length_append]
        cases sb <;> simp <;> omega

/-- Entry-list fuel bound. -/
theorem parseNeedEntries_le (es : List (Value × Value)) :
    (∀ kv ∈ es, (∃ s, Obeys kv.1 s) ∧ (∃ s, Obeys kv.2 s)) →
    ∀ (sp : Sep) (ts : List Char) (fsp : Sep),
      encodeEntriesCS sp es = some (ts, fsp) → parseNeedEntries es ≤ ts.length + 1 := by
  intro hp sp ts fsp h
  cases es with
  | nil =>
    rw [encodeEntriesCS] at h
    simp at h
    obtain ⟨h1, h2⟩ := h
    subst h1
    simp [parseNeedEntries]
  | cons kv es =>
    rcases kv with ⟨k, v⟩
    rw [encodeEntriesCS] at h
    rcases henck : encodeCS k with _ | ⟨⟨kt, ksp⟩⟩
    · simp [henck] at h
    · simp only [henck] at h
      rcases hencv : encodeCS v with _ | ⟨⟨vt, vsp⟩⟩
      · simp [hencv] at h
      · simp only [hencv] at h
        rcases hence : encodeEntriesCS vsp es with _ | ⟨⟨rest, fsp2⟩⟩
        · simp [hence] at h
        · simp only [hence] at h
          simp at h
          obtain ⟨hks, hvs⟩ := hp (k, v) (List.mem_cons_self (k, v) es)
          obtain ⟨sk, hok⟩ := hks
          obtain ⟨sv, hov⟩ := hvs
          have h1 := parseNeed_le k sk hok kt ksp henck
          have h2 := parseNeed_le v sv hov vt vsp hencv
          have h3 := parseNeedEntries_le es
            (fun x hx => hp x (List.mem_cons_of_mem (k, v) hx)) vsp rest fsp2 hence
          obtain ⟨h4, h5⟩ := h
          rw [← h4]
          simp only [parseNeedEntries, List.length_append, List.length_cons]
          by_cases hsp : sp = Sep.lineOrSpace <;> simp [hsp] <;> omega
end


/-! ## Loop-step lemmas for the sequence/tuple/map visitors -/

theorem parseList_step (f : Nat) (se : Shape) (r c : Nat) (ch : Char) (xs : List Char)
    (h1 : ch ≠ ')') (h2 : ch ≠ ']') (hws : rustIsWhitespace ch = false) :
    parseList (f + 1) se ⟨r, c, ch :: xs⟩ =
      bindE2 (parseShape f se ⟨r, c, ch :: xs⟩) fun v d =>
        bindE2 (parseList f se d) fun vl d => .ok (v :: vl, d) := by
  rw [parseList]
  rw [skip_whitespace_not_ws hws]
  split
  all_goals first
    | rfl
    | simp_all

theorem parseList_close (f : Nat) (se : Shape) (r c : Nat) (close : Char)
    (hclose : close = ')' ∨ close = ']') (xs : List Char) :
    parseList (f + 1) se ⟨r, c, close :: xs⟩ = .ok ([], ⟨r, c, close :: xs⟩) := by
  have hws : rustIsWhitespace close = false := by
    rcases hclose with h | h <;> subst h <;> decide
  rw [parseList]
  rw [skip_whitespace_not_ws hws]
  rcases hclose with h | h <;> subst h <;> rfl

theorem parseTupleElems_step (f : Nat) (s : Shape) (ss : List Shape) (r c : Nat)
    (ch : Char) (xs : List Char)
    (h1 : ch ≠ ')') (h2 : ch ≠ ']') (hws : rustIsWhitespace ch = false) :
    parseTupleElems (f + 1) (s :: ss) ⟨r, c, ch :: xs⟩ =
      bindE2 (parseShape f s ⟨r, c, ch :: xs⟩) fun v d =>
        bindE2 (parseTupleElems f ss d) fun vl d => .ok (v :: vl, d) := by
  rw [parseTupleElems]
  rw [skip_whitespace_not_ws hws]
  split
  all_goals first
    | rfl
    | simp_all

theorem parseMapEntries_close (f : Nat) (ks vls : Shape) (r c : Nat) (xs : List Char) :
    parseMapEntries (f + 1) ks vls ⟨r, c, ')' :: xs⟩ = .ok ([], ⟨r, c, ')' :: xs⟩) := by
  rw [parseMapEntries]
  rw [skip_whitespace_not_ws (by decide)]
  rfl

theorem parseMapEntries_step (f : Nat) (ks vls : Shape) (r c : Nat) (xs : List Char) :
    parseMapEntries (f + 1) ks vls ⟨r, c, '[' :: xs⟩ =
      bindE1 (De.expects ⟨r, c, '[' :: xs⟩ "[".data) fun d =>
        bindE2 (parseShape f ks d) fun kv d =>
          bindE2 (parseShape f vls d.skip_whitespace) fun vv d =>
            bindE1 (d.expects "]".data) fun d =>
              bindE2 (parseMapEntries f ks vls d) fun es d =>
                .ok ((kv, vv) :: es, d) := by
  rw [parseMapEntries]
  rw [skip_whitespace_not_ws (by decide)]
  rfl


theorem parseList_skip (fuel : Nat) (se : Shape) (d : De) :
    parseList fuel se d = parseList fuel se d.skip_whitespace := by
  cases fuel with
  | zero => rfl
  | succ f => rw [parseList, parseList, skip_whitespace_idem]

theorem parseList_ws (fuel : Nat) (se : Shape) (ws0 : List Char)
    (hws0 : ∀ x ∈ ws0, rustIsWhitespace x = true) (r c : Nat) (x : List Char) :
    ∃ r1 c1, parseList fuel se ⟨r, c, ws0 ++ x⟩ = parseList fuel se ⟨r1, c1, x⟩ := by
  obtain ⟨r1, c1, h⟩ := skipWsGo_all ws0 hws0 r c x
  refine ⟨r1, c1, ?_⟩
  rw [parseList_skip fuel se ⟨r, c, ws0 ++ x⟩, parseList_skip fuel se ⟨r1, c1, x⟩]
  congr 1

theorem parseTupleElems_cons_skip (fuel : Nat) (s : Shape) (ss : List Shape) (d : De) :
    parseTupleElems fuel (s :: ss) d = parseTupleElems fuel (s :: ss) d.skip_whitespace := by
  cases fuel with
  | zero => rfl
  | succ f => rw [parseTupleElems, parseTupleElems, skip_whitespace_idem]

theorem parseTupleElems_cons_ws (fuel : Nat) (s : Shape) (ss : List Shape) (ws0 : List Char)
    (hws0 : ∀ x ∈ ws0, rustIsWhitespace x = true) (r c : Nat) (x : List Char) :
    ∃ r1 c1, parseTupleElems fuel (s :: ss) ⟨r, c, ws0 ++ x⟩ =
      parseTupleElems fuel (s :: ss) ⟨r1, c1, x⟩ := by
  obtain ⟨r1, c1, h⟩ := skipWsGo_all ws0 hws0 r c x
  refine ⟨r1, c1, ?_⟩
  rw [parseTupleElems_cons_skip fuel s ss ⟨r, c, ws0 ++ x⟩,
    parseTupleElems_cons_skip fuel s ss ⟨r1, c1, x⟩]
  congr 1

theorem parseMapEntries_skip (fuel : Nat) (ks vls : Shape) (d : De) :
    parseMapEntries fuel ks vls d = parseMapEntries fuel ks vls d.skip_whitespace := by
  cases fuel with
  | zero => rfl
  | succ f => rw [parseMapEntries, parseMapEntries, skip_whitespace_idem]

theorem parseMapEntries_ws (fuel : Nat) (ks vls : Shape) (ws0 : List Char)
    (hws0 : ∀ x ∈ ws0, rustIsWhitespace x = true) (r c : Nat) (x : List Char) :
    ∃ r1 c1, parseMapEntries fuel ks vls ⟨r, c, ws0 ++ x⟩ =
      parseMapEntries fuel ks vls ⟨r1, c1, x⟩ := by
  obtain ⟨r1, c1, h⟩ := skipWsGo_all ws0 hws0 r c x
  refine ⟨r1, c1, ?_⟩
  rw [parseMapEntries_skip fuel ks vls ⟨r, c, ws0 ++ x⟩,
    parseMapEntries_skip fuel ks vls ⟨r1, c1, x⟩]
  congr 1

theorem encodeElemsCS_true_head (vs : List Value) (ts : List Char)
    (h : encodeElemsCS true vs = some ts) : ts = [] ∨ ∃ t2, ts = ' ' :: t2 := by
  cases vs with
  | nil =>
    rw [encodeElemsCS] at h
    simp at h
    exact Or.inl h
  | cons v vs =>
    rw [encodeElemsCS] at h
    rcases h1 : encodeCS v with _ | ⟨⟨tv, spv⟩⟩
    · simp [h1] at h
    · simp only [h1] at h
      rcases h2 : encodeElemsCS true vs with _ | ts2
      · simp [h2] at h
      · simp only [h2] at h
        simp at h
        subst h
        exact Or.inr ⟨tv ++ ts2, by simp⟩

theorem parseNeed_pos (v : Value) : 1 ≤ parseNeed v := by
  cases v <;> simp [parseNeed]

theorem parseNeedElems_pos (vs : List Value) : 1 ≤ parseNeedElems vs := by
  cases vs <;> simp [parseNeedElems]

theorem parseNeedEntries_pos (es : List (Value × Value)) : 1 ≤ parseNeedEntries es := by
  cases es with
  | nil => simp [parseNeedEntries]
  | cons kv es =>
    rcases kv with ⟨k, v⟩
    simp [parseNeedEntries]

theorem data_lparen : "(".data = ['('] := rfl

theorem data_rparen : ")".data = [')'] := rfl

theorem data_lbrack : "[".data = ['['] := rfl

theorem data_rbrack : "]".data = [']'] := rfl

theorem data_rue : "rue".data = ['r', 'u', 'e'] := rfl

theorem data_alse : "alse".data = ['a', 'l', 's', 'e'] := rfl

theorem data_ome : "ome".data = ['o', 'm', 'e'] := rfl

theorem data_one : "one".data = ['o', 'n', 'e'] := rfl

theorem data_unit : "unit".data = ['u', 'n', 'i', 't'] := rfl

theorem data_map : "map".data = ['m', 'a', 'p'] := rfl


/-! ## The round trip: parsing back the compact encoding of a
well-formed value -/

mutual
/-- A well-formed value's compact encoding parses back to the value,
leaving the continuation untouched. -/
theorem parseShape_rt (v : Value) : ∀ s, Obeys v s → ∀ t sp, encodeCS v = some (t, sp) →
    ∀ fuel, parseNeed v ≤ fuel → ∀ r c rest, restNoDigit rest →
    ∃ r2 c2, parseShape fuel s ⟨r, c, t ++ rest⟩ = .ok (v, ⟨r2, c2, rest⟩) := by
  intro s hob t sp henc fuel hfuel r c rest hrest
  obtain ⟨f, rfl⟩ : ∃ f, fuel = f + 1 := ⟨fuel - 1, by have := parseNeed_pos v; omega⟩
  cases v with
  | vBool b =>
    cases hob with
    | bool _ =>
      cases b with
      | false =>
        rw [encodeCS] at henc
        simp at henc
        obtain ⟨h1, h2⟩ := henc
        subst h1
        simp only [parseShape]
        simp only [List.cons_append, List.nil_append]
        obtain ⟨r1, c1, hee⟩ := expects_either_hit 'f' 't' 'f' (['a', 'l', 's', 'e'] ++ rest)
          r c (by decide) (Or.inr rfl)
        simp only [List.cons_append, List.nil_append] at hee
        rw [hee, bindE2_ok, if_neg (by decide : ¬('f' : Char) = 't')]
        obtain ⟨r3, c3, himm⟩ := expects_imm_ok ⟨r1, c1, 'a' :: 'l' :: 's' :: 'e' :: rest⟩
          "alse".data rest rfl
        rw [himm, bindE1_ok]
        exact ⟨r3, c3, rfl⟩
      | true =>
        rw [encodeCS] at henc
        simp at henc
        obtain ⟨h1, h2⟩ := henc
        subst h1
        simp only [parseShape]
        simp only [List.cons_append, List.nil_append]
        obtain ⟨r1, c1, hee⟩ := expects_either_hit 't' 't' 'f' (['r', 'u', 'e'] ++ rest)
          r c (by decide) (Or.inl rfl)
        simp only [List.cons_append, List.nil_append] at hee
        rw [hee, bindE2_ok, if_pos rfl]
        obtain ⟨r3, c3, himm⟩ := expects_imm_ok ⟨r1, c1, 'r' :: 'u' :: 'e' :: rest⟩
          "rue".data rest rfl
        rw [himm, bindE1_ok]
        exact ⟨r3, c3, rfl⟩
  | vInt n0 =>
    cases hob with
    | int bits _ hbits hlo hhi hmin =>
      rw [encodeCS] at henc
      simp at henc
      obtain ⟨h1, h2⟩ := henc
      subst h1
      have hImax : n0 ≤ i64Max := by
        have hp : (2 : Int) ^ (bits - 1) ≤ (2 : Int) ^ 63 :=
          pow_le_pow_right₀ (by norm_num) (by omega)
        have hi : i64Max = (2 : Int) ^ 63 - 1 := by decide
        omega
      obtain ⟨r2, c2, hpi⟩ := parse_int_ok n0 hmin hImax (-(2 ^ (bits - 1)))
        (2 ^ (bits - 1) - 1) hlo hhi rest hrest r c
      simp only [parseShape]
      rw [hpi, bindE2_ok]
      exact ⟨r2, c2, rfl⟩
  | vNat n0 =>
    cases hob with
    | nat bits _ hbits hhi =>
      rw [encodeCS] at henc
      simp at henc
      obtain ⟨h1, h2⟩ := henc
      subst h1
      have hle : n0 ≤ u64Max := by
        have hp : (2 : Nat) ^ bits ≤ 2 ^ 64 := Nat.pow_le_pow_right (by norm_num) hbits
        have hu : u64Max = 2 ^ 64 - 1 := by decide
        omega
      obtain ⟨r2, c2, hpn⟩ := parse_nat_ok n0 hle (2 ^ bits - 1) hhi rest hrest r c
      simp only [parseShape]
      rw [hpn, bindE2_ok]
      exact ⟨r2, c2, rfl⟩
  | vChar c0 =>
    cases hob with
    | char _ hgood =>
      rw [encodeCS] at henc
      simp at henc
      obtain ⟨h1, h2⟩ := henc
      subst h1
      exact parse_char_ok c0 hgood f r c rest
  | vStr s0 =>
    cases hob with
    | str _ hgood =>
      rw [encodeCS] at henc
      simp at henc
      obtain ⟨h1, h2⟩ := henc
      subst h1
      simp only [parseShape]
      simp only [List.cons_append, List.append_assoc, List.singleton_append,
        List.nil_append]
      obtain ⟨r1, c1, hexp⟩ := expects_ok '"' [] (s0.flatMap escapeDebugStrChar ++ '"' :: rest)
        r c (by decide)
      simp only [List.cons_append, List.nil_append] at hexp
      rw [hexp, bindE1_ok]
      have hfl : s0.length + 1 ≤ f := by
        simp only [parseNeed] at hfuel
        omega
      obtain ⟨r2, c2, hloop⟩ := parseStrLoop_ok s0 hgood f hfl [] r1 c1 rest
      simp only [List.nil_append] at hloop
      exact ⟨r2, c2, hloop⟩
  | vNone =>
    cases hob with
    | noneV s2 =>
      rw [encodeCS] at henc
      simp at henc
      obtain ⟨h1, h2⟩ := henc
      subst h1
      simp only [parseShape]
      simp only [List.cons_append, List.nil_append]
      obtain ⟨r1, c1, h1e⟩ := expects_ok '(' [] ('n' :: 'o' :: 'n' :: 'e' :: ')' :: rest)
        r c (by decide)
      simp only [List.cons_append, List.nil_append] at h1e
      rw [h1e, bindE1_ok]
      obtain ⟨r2, c2, hee⟩ := expects_either_hit 'n' 's' 'n' ('o' :: 'n' :: 'e' :: ')' :: rest)
        r1 c1 (by decide) (Or.inr rfl)
      rw [hee, bindE2_ok, if_neg (by decide : ¬('n' : Char) = 's')]
      obtain ⟨r3, c3, himm⟩ := expects_imm_ok ⟨r2, c2, 'o' :: 'n' :: 'e' :: ')' :: rest⟩
        ['o', 'n', 'e'] (')' :: rest) rfl
      rw [himm, bindE1_ok]
      obtain ⟨r4, c4, hcl⟩ := expects_ok ')' [] rest r3 c3 (by decide)
      simp only [List.cons_append, List.nil_append] at hcl
      rw [hcl, bindE1_ok]
      exact ⟨r4, c4, rfl⟩
  | vUnit =>
    cases hob with
    | unit =>
      rw [encodeCS] at henc
      simp at henc
      obtain ⟨h1, h2⟩ := henc
      subst h1
      simp only [parseShape]
      simp only [List.cons_append, List.nil_append]
      obtain ⟨r1, c1, h1e⟩ := expects_ok '(' [] ('u' :: 'n' :: 'i' :: 't' :: ')' :: rest)
        r c (by decide)
      simp only [List.cons_append, List.nil_append] at h1e
      rw [h1e, bindE1_ok]
      obtain ⟨r2, c2, h2e⟩ := expects_ok 'u' ['n', 'i', 't'] (')' :: rest) r1 c1 (by decide)
      simp only [List.cons_append, List.nil_append] at h2e
      rw [h2e, bindE1_ok]
      obtain ⟨r3, c3, hcl⟩ := expects_ok ')' [] rest r2 c2 (by decide)
      simp only [List.cons_append, List.nil_append] at hcl
      rw [hcl, bindE1_ok]
      exact ⟨r3, c3, rfl⟩
  | vSome v0 =>
    cases hob with
    | someV _ s2 hv =>
      rw [encodeCS] at henc
      rcases hev : encodeCS v0 with _ | ⟨⟨tv, spv⟩⟩
      · simp [hev] at henc
      · simp only [hev] at henc
        simp at henc
        obtain ⟨h1, h2⟩ := henc
        subst h1
        simp only [parseShape]
        simp only [List.cons_append, List.append_assoc, List.singleton_append,
          List.nil_append]
        obtain ⟨r1, c1, h1e⟩ := expects_ok '(' []
          ('s' :: 'o' :: 'm' :: 'e' :: ' ' :: (tv ++ ')' :: rest)) r c (by decide)
        simp only [List.cons_append, List.nil_append] at h1e
        rw [h1e, bindE1_ok]
        obtain ⟨r2, c2, hee⟩ := expects_either_hit 's' 's' 'n'
          ('o' :: 'm' :: 'e' :: ' ' :: (tv ++ ')' :: rest)) r1 c1 (by decide) (Or.inl rfl)
        rw [hee, bindE2_ok, if_pos rfl]
        obtain ⟨r3, c3, himm⟩ := expects_imm_ok
          ⟨r2, c2, 'o' :: 'm' :: 'e' :: ' ' :: (tv ++ ')' :: rest)⟩
          ['o', 'm', 'e'] (' ' :: (tv ++ ')' :: rest)) rfl
        rw [himm, bindE1_ok]
        obtain ⟨r4, c4, hws⟩ := parseShape_ws f s2 [' '] (by decide) r3 c3 (tv ++ ')' :: rest)
        simp only [List.cons_append, List.nil_append] at hws
        rw [hws]
        obtain ⟨r5, c5, hsub⟩ := parseShape_rt v0 s2 hv tv spv hev f
          (by simp only [parseNeed] at hfuel; omega) r4 c4 (')' :: rest)
          (restNoDigit_cons (by decide) rest)
        rw [hsub, bindE2_ok]
        obtain ⟨r6, c6, hcl⟩ := expects_ok ')' [] rest r5 c5 (by decide)
        simp only [List.cons_append, List.nil_append] at hcl
        rw [hcl, bindE1_ok]
        exact ⟨r6, c6, rfl⟩
  | vSeq vs0 =>
    cases hob with
    | list _ s2 hl =>
      rw [encodeCS] at henc
      rcases hev : encodeElemsCS false vs0 with _ | ts2
      · simp [hev] at henc
      · simp only [hev] at henc
        simp at henc
        obtain ⟨h1, h2⟩ := henc
        subst h1
        simp only [parseShape]
        simp only [List.cons_append, List.append_assoc, List.singleton_append,
          List.nil_append]
        obtain ⟨r1, c1, h1e⟩ := expects_ok '[' [] (ts2 ++ ']' :: rest) r c (by decide)
        simp only [List.cons_append, List.nil_append] at h1e
        rw [h1e, bindE1_ok]
        obtain ⟨r2, c2, hls⟩ := parseList_rt vs0 s2 hl false ts2 hev f
          (by simp only [parseNeed] at hfuel; omega) r1 c1 ']' rest (Or.inr rfl)
        rw [hls, bindE2_ok]
        obtain ⟨r3, c3, hcl⟩ := expects_ok ']' [] rest r2 c2 (by decide)
        simp only [List.cons_append, List.nil_append] at hcl
        rw [hcl, bindE1_ok]
        exact ⟨r3, c3, rfl⟩
    | tuple _ ss2 hl =>
      rw [encodeCS] at henc
      rcases hev : encodeElemsCS false vs0 with _ | ts2
      · simp [hev] at henc
      · simp only [hev] at henc
        simp at henc
        obtain ⟨h1, h2⟩ := henc
        subst h1
        simp only [parseShape]
        simp only [List.cons_append, List.append_assoc, List.singleton_append,
          List.nil_append]
        obtain ⟨r1, c1, h1e⟩ := expects_ok '[' [] (ts2 ++ ']' :: rest) r c (by decide)
        simp only [List.cons_append, List.nil_append] at h1e
        rw [h1e, bindE1_ok]
        obtain ⟨r2, c2, hls⟩ := parseTuple_rt vs0 ss2 hl false ts2 hev f
          (by simp only [parseNeed] at hfuel; omega) r1 c1 (']' :: rest)
          (restNoDigit_cons (by decide) rest)
        rw [hls, bindE2_ok]
        obtain ⟨r3, c3, hcl⟩ := expects_ok ']' [] rest r2 c2 (by decide)
        simp only [List.cons_append, List.nil_append] at hcl
        rw [hcl, bindE1_ok]
        exact ⟨r3, c3, rfl⟩
  | vMap es0 =>
    cases hob with
    | map _ ks vls hl =>
      rw [encodeCS] at henc
      rcases hev : encodeEntriesCS .lineOrSpace es0 with _ | ⟨⟨ts2, fsp⟩⟩
      · simp [hev] at henc
      · simp only [hev] at henc
        simp at henc
        obtain ⟨h1, h2⟩ := henc
        subst h1
        simp only [parseShape]
        simp only [List.cons_append, List.append_assoc, List.singleton_append,
          List.nil_append]
        obtain ⟨r1, c1, h1e⟩ := expects_ok '(' [] ('m' :: 'a' :: 'p' :: (ts2 ++ ')' :: rest))
          r c (by decide)
        simp only [List.cons_append, List.nil_append] at h1e
        rw [h1e, bindE1_ok]
        obtain ⟨r2, c2, h2e⟩ := expects_ok 'm' ['a', 'p'] (ts2 ++ ')' :: rest) r1 c1 (by decide)
        simp only [List.cons_append, List.nil_append] at h2e
        rw [h2e, bindE1_ok]
        obtain ⟨r3, c3, hes⟩ := parseEntries_rt es0 ks vls hl .lineOrSpace ts2 fsp hev f
          (by simp only [parseNeed] at hfuel; omega) r2 c2 rest
        rw [hes, bindE2_ok]
        obtain ⟨r4, c4, hcl⟩ := expects_ok ')' [] rest r3 c3 (by decide)
        simp only [List.cons_append, List.nil_append] at hcl
        rw [hcl, bindE1_ok]
        exact ⟨r4, c4, rfl⟩
  | vStruct name0 fs0 =>
    cases hob with
    | struct _ _ fss hne hname htup =>
      rw [encodeCS] at henc
      rcases hef : encodeFieldsCS fs0 with _ | ts2
      · simp [hef] at henc
      · simp only [hef] at henc
        simp at henc
        obtain ⟨h1, h2⟩ := henc
        subst h1
        simp only [parseShape]
        simp only [List.cons_append, List.append_assoc, List.singleton_append,
          List.nil_append]
        obtain ⟨r1, c1, h1e⟩ := expects_ok '(' []
          (Ascase.to_kebab_case name0 ++ (ts2 ++ ')' :: rest)) r c (by decide)
        simp only [List.cons_append, List.nil_append] at h1e
        rw [h1e, bindE1_ok]
        rcases name0 with _ | ⟨nc, ncs⟩
        · exact absurd rfl hne
        · rcases hke : Ascase.to_kebab_case (nc :: ncs) with _ | ⟨kh, kt⟩
          · exact absurd hke (toKebabGo_ne_nil nc ncs true)
          · have hkhw : rustIsWhitespace kh = false :=
              kebab_char_not_ws (kebab_chars (nc :: ncs) hname kh
                (by rw [hke]; exact List.mem_cons_self kh kt))
            obtain ⟨r2, c2, h2e⟩ := expects_ok kh kt (ts2 ++ ')' :: rest) r1 c1 hkhw
            simp only [List.cons_append] at h2e ⊢
            rw [h2e, bindE1_ok]
            obtain ⟨r3, c3, hfs⟩ := parseTuple_rt fs0 fss htup true ts2
              (by rw [← encodeFieldsCS_eq]; exact hef) f
              (by simp only [parseNeed] at hfuel; omega) r2 c2 (')' :: rest)
              (restNoDigit_cons (by decide) rest)
            rw [hfs, bindE2_ok]
            obtain ⟨r4, c4, hcl⟩ := expects_ok ')' [] rest r3 c3 (by decide)
            simp only [List.cons_append, List.nil_append] at hcl
            rw [hcl, bindE1_ok]
            exact ⟨r4, c4, rfl⟩
  | vVariant variant0 arg0 =>
    cases hob with
    | variantUnit _ variants hname hfind =>
      rw [encodeCS] at henc
      simp at henc
      obtain ⟨h1, h2⟩ := henc
      subst h1
      obtain ⟨f2, rfl⟩ : ∃ f2, f = f2 + 1 :=
        ⟨f - 1, by simp [parseNeed, parseNeedVariant] at hfuel; omega⟩
      simp only [parseShape]
      simp only [List.cons_append, List.append_assoc, List.singleton_append,
        List.nil_append]
      obtain ⟨r1, c1, h1e⟩ := expects_ok '(' []
        (Ascase.to_kebab_case variant0 ++ ')' :: rest) r c (by decide)
      simp only [List.cons_append, List.nil_append] at h1e
      rw [h1e, bindE1_ok]
      rcases variant0 with _ | ⟨vc, vcs⟩
      · exact absurd hname (by simp [pascalIdent])
      · simp only [pascalIdent] at hname
        obtain ⟨r2, c2, hid⟩ := parse_ident_kebab vc vcs hname.1 hname.2 (')' :: rest)
          (by intro hch hh; simp at hh; subst hh; exact ⟨by decide, by decide⟩) r1 c1
        rw [hid, bindE2_ok]
        simp only [hfind]
        rw [show parseVariantPayload (f2 + 1) VariantShape.unitVS ⟨r2, c2, ')' :: rest⟩ =
          .ok (.unitV, ⟨r2, c2, ')' :: rest⟩) from rfl, bindE2_ok]
        obtain ⟨r3, c3, hcl⟩ := expects_ok ')' [] rest r2 c2 (by decide)
        simp only [List.cons_append, List.nil_append] at hcl
        rw [hcl, bindE1_ok]
        exact ⟨r3, c3, rfl⟩
    | variantStruct _ variants fs fss hname hfind htup =>
      rw [encodeCS] at henc
      rcases hef : encodeFieldsCS fs with _ | ts2
      · simp [hef] at henc
      · simp only [hef] at henc
        simp at henc
        obtain ⟨h1, h2⟩ := henc
        subst h1
        have hpos : 1 ≤ parseNeedElems fs := parseNeedElems_pos fs
        obtain ⟨f2, rfl⟩ : ∃ f2, f = f2 + 1 :=
          ⟨f - 1, by simp [parseNeed, parseNeedVariant] at hfuel; omega⟩
        simp only [parseShape]
        simp only [List.cons_append, List.append_assoc, List.singleton_append,
          List.nil_append]
        obtain ⟨r1, c1, h1e⟩ := expects_ok '(' []
          (Ascase.to_kebab_case variant0 ++ (ts2 ++ ')' :: rest)) r c (by decide)
        simp only [List.cons_append, List.nil_append] at h1e
        rw [h1e, bindE1_ok]
        rcases variant0 with _ | ⟨vc, vcs⟩
        · exact absurd hname (by simp [pascalIdent])
        · simp only [pascalIdent] at hname
          have hcond : ∀ hch, (ts2 ++ ')' :: rest).head? = some hch →
              rustIsAlphanumeric hch = false ∧ hch ≠ '-' := by
            rcases encodeElemsCS_true_head fs ts2
              (by rw [← encodeFieldsCS_eq]; exact hef) with hh | ⟨t3, hh⟩
            · subst hh
              intro hch hh2
              simp at hh2
              subst hh2
              exact ⟨by decide, by decide⟩
            · subst hh
              intro hch hh2
              simp at hh2
              subst hh2
              exact ⟨by decide, by decide⟩
          obtain ⟨r2, c2, hid⟩ := parse_ident_kebab vc vcs hname.1 hname.2
            (ts2 ++ ')' :: rest) hcond r1 c1
          rw [hid, bindE2_ok]
          simp only [hfind]
          simp only [parseVariantPayload]
          obtain ⟨r3, c3, hfs⟩ := parseTuple_rt fs fss htup true ts2
            (by rw [← encodeFieldsCS_eq]; exact hef) f2
            (by simp only [parseNeed, parseNeedVariant] at hfuel; omega) r2 c2 (')' :: rest)
            (restNoDigit_cons (by decide) rest)
          rw [hfs, bindE2_ok, bindE2_ok]
          obtain ⟨r4, c4, hcl⟩ := expects_ok ')' [] rest r3 c3 (by decide)
          simp only [List.cons_append, List.nil_append] at hcl
          rw [hcl, bindE1_ok]
          exact ⟨r4, c4, rfl⟩

/-- The sequence visitor loop reads back an encoded element list up to
the closing bracket. -/
theorem parseList_rt (vs : List Value) : ∀ se, ObeysList vs se → ∀ (sb : Bool) (ts : List Char),
    encodeElemsCS sb vs = some ts → ∀ fuel, parseNeedElems vs ≤ fuel →
    ∀ r c close rest2, (close = ')' ∨ close = ']') →
    ∃ r2 c2, parseList fuel se ⟨r, c, ts ++ close :: rest2⟩ =
      .ok (vs, ⟨r2, c2, close :: rest2⟩) := by
  intro se hob sb ts hev fuel hfuel r c close rest2 hclose
  obtain ⟨f, rfl⟩ : ∃ f, fuel = f + 1 := ⟨fuel - 1, by have := parseNeedElems_pos vs; omega⟩
  cases vs with
  | nil =>
    rw [encodeElemsCS] at hev
    simp at hev
    subst hev
    simp only [List.nil_append]
    rw [parseList_close f se r c close hclose rest2]
    exact ⟨r, c, rfl⟩
  | cons v vs2 =>
    cases hob with
    | cons _ _ _ hv hvs =>
      rw [encodeElemsCS] at hev
      rcases hevv : encodeCS v with _ | ⟨⟨tv, spv⟩⟩
      · simp [hevv] at hev
      · simp only [hevv] at hev
        rcases hevr : encodeElemsCS true vs2 with _ | ts2
        · simp [hevr] at hev
        · simp only [hevr] at hev
          simp at hev
          subst hev
          obtain ⟨ch, t2, hte, hchw, hch1, hch2⟩ := encodeCS_head v tv spv hevv
          have hiff : (if sb then ' ' :: tv else tv) = (if sb then [' '] else []) ++ tv := by
            cases sb <;> simp
          rw [hiff]
          simp only [List.append_assoc]
          obtain ⟨r1, c1, hws⟩ := parseList_ws (f + 1) se (if sb then [' '] else [])
            (by cases sb <;> simp <;> decide) r c (tv ++ (ts2 ++ close :: rest2))
          rw [hws]
          rw [hte]
          simp only [List.cons_append]
          rw [parseList_step f se r1 c1 ch (t2 ++ (ts2 ++ close :: rest2)) hch1 hch2 hchw]
          have hrnd : restNoDigit (ts2 ++ close :: rest2) := by
            rcases encodeElemsCS_true_head vs2 ts2 hevr with hh | ⟨t3, hh⟩
            · subst hh
              simp only [List.nil_append]
              exact restNoDigit_cons
                (by rcases hclose with h | h <;> subst h <;> decide) rest2
            · subst hh
              simp only [List.cons_append]
              exact restNoDigit_cons (by decide) (t3 ++ close :: rest2)
          obtain ⟨r5, c5, hel⟩ := parseShape_rt v se hv tv spv hevv f
            (by simp only [parseNeedElems] at hfuel; omega) r1 c1
            (ts2 ++ close :: rest2) hrnd
          rw [hte] at hel
          simp only [List.cons_append] at hel
          rw [hel, bindE2_ok]
          obtain ⟨r6, c6, hrec⟩ := parseList_rt vs2 se hvs true ts2 hevr f
            (by simp only [parseNeedElems] at hfuel; omega) r5 c5 close rest2 hclose
          rw [hrec, bindE2_ok]
          exact ⟨r6, c6, rfl⟩

/-- The fixed-arity visitor loop reads back an encoded field list,
leaving the continuation untouched. -/
theorem parseTuple_rt (vs : List Value) : ∀ ss, ObeysTuple vs ss → ∀ (sb : Bool) (ts : List Char),
    encodeElemsCS sb vs = some ts → ∀ fuel, parseNeedElems vs ≤ fuel →
    ∀ r c rest, restNoDigit rest →
    ∃ r2 c2, parseTupleElems fuel ss ⟨r, c, ts ++ rest⟩ = .ok (vs, ⟨r2, c2, rest⟩) := by
  intro ss hob sb ts hev fuel hfuel r c rest hrest
  obtain ⟨f, rfl⟩ : ∃ f, fuel = f + 1 := ⟨fuel - 1, by have := parseNeedElems_pos vs; omega⟩
  cases vs with
  | nil =>
    cases hob with
    | nil =>
      rw [encodeElemsCS] at hev
      simp at hev
      subst hev
      exact ⟨r, c, rfl⟩
  | cons v vs2 =>
    cases hob with
    | cons _ _ s2 ss2 hv hvs =>
      rw [encodeElemsCS] at hev
      rcases hevv : encodeCS v with _ | ⟨⟨tv, spv⟩⟩
      · simp [hevv] at hev
      · simp only [hevv] at hev
        rcases hevr : encodeElemsCS true vs2 with _ | ts2
        · simp [hevr] at hev
        · simp only [hevr] at hev
          simp at hev
          subst hev
          obtain ⟨ch, t2, hte, hchw, hch1, hch2⟩ := encodeCS_head v tv spv hevv
          have hiff : (if sb then ' ' :: tv else tv) = (if sb then [' '] else []) ++ tv := by
            cases sb <;> simp
          rw [hiff]
          simp only [List.append_assoc]
          obtain ⟨r1, c1, hws⟩ := parseTupleElems_cons_ws (f + 1) s2 ss2
            (if sb then [' '] else []) (by cases sb <;> simp <;> decide) r c
            (tv ++ (ts2 ++ rest))
          rw [hws]
          rw [hte]
          simp only [List.cons_append]
          rw [parseTupleElems_step f s2 ss2 r1 c1 ch (t2 ++ (ts2 ++ rest)) hch1 hch2 hchw]
          have hrnd : restNoDigit (ts2 ++ rest) := by
            rcases encodeElemsCS_true_head vs2 ts2 hevr with hh | ⟨t3, hh⟩
            · subst hh
              simp only [List.nil_append]
              exact hrest
            · subst hh
              simp only [List.cons_append]
              exact restNoDigit_cons (by decide) (t3 ++ rest)
          obtain ⟨r5, c5, hel⟩ := parseShape_rt v s2 hv tv spv hevv f
            (by simp only [parseNeedElems] at hfuel; omega) r1 c1 (ts2 ++ rest) hrnd
          rw [hte] at hel
          simp only [List.cons_append] at hel
          rw [hel, bindE2_ok]
          obtain ⟨r6, c6, hrec⟩ := parseTuple_rt vs2 ss2 hvs true ts2 hevr f
            (by simp only [parseNeedElems] at hfuel; omega) r5 c5 rest hrest
          rw [hrec, bindE2_ok]
          exact ⟨r6, c6, rfl⟩

/-- The map visitor loop reads back an encoded entry list up to the
closing parenthesis. -/
theorem parseEntries_rt (es : List (Value × Value)) : ∀ ks vls, ObeysEntries es ks vls →
    ∀ (sp : Sep) (ts : List Char) (fsp : Sep), encodeEntriesCS sp es = some (ts, fsp) →
    ∀ fuel, parseNeedEntries es ≤ fuel → ∀ r c rest2,
    ∃ r2 c2, parseMapEntries fuel ks vls ⟨r, c, ts ++ ')' :: rest2⟩ =
      .ok (es, ⟨r2, c2, ')' :: rest2⟩) := by
  intro ks vls hob sp ts fsp hev fuel hfuel r c rest2
  obtain ⟨f, rfl⟩ : ∃ f, fuel = f + 1 := ⟨fuel - 1, by have := parseNeedEntries_pos es; omega⟩
  cases es with
  | nil =>
    rw [encodeEntriesCS] at hev
    simp at hev
    obtain ⟨h1, h2⟩ := hev
    subst h1
    simp only [List.nil_append]
    rw [parseMapEntries_close f ks vls r c rest2]
    exact ⟨r, c, rfl⟩
  | cons kv es2 =>
    rcases kv with ⟨k, v⟩
    cases hob with
    | cons _ _ _ _ _ hk hv2 hs =>
      rw [encodeEntriesCS] at hev
      rcases hk1 : encodeCS k with _ | ⟨⟨kt, ksp⟩⟩
      · simp [hk1] at hev
      · simp only [hk1] at hev
        rcases hv1 : encodeCS v with _ | ⟨⟨vt, vsp⟩⟩
        · simp [hv1] at hev
        · simp only [hv1] at hev
          rcases he1 : encodeEntriesCS vsp es2 with _ | ⟨⟨ts2, fsp2⟩⟩
          · simp [he1] at hev
          · simp only [he1] at hev
            simp at hev
            obtain ⟨h1, h2⟩ := hev
            subst h1
            simp only [List.append_assoc, List.cons_append]
            have hall : ∀ x ∈ (if sp = Sep.lineOrSpace then ([' '] : List Char) else []),
                rustIsWhitespace x = true := by
              split_ifs <;> intro x hx <;> simp at hx
              subst hx
              decide
            obtain ⟨r1, c1, hws⟩ := parseMapEntries_ws (f + 1) ks vls
              (if sp = Sep.lineOrSpace then [' '] else []) hall r c
              ('[' :: (kt ++ ' ' :: (vt ++ ']' :: (ts2 ++ ')' :: rest2))))
            rw [hws]
            rw [parseMapEntries_step]
            obtain ⟨r2, c2, hex⟩ := expects_ok '[' []
              (kt ++ ' ' :: (vt ++ ']' :: (ts2 ++ ')' :: rest2))) r1 c1 (by decide)
            simp only [List.cons_append, List.nil_append] at hex
            rw [hex, bindE1_ok]
            obtain ⟨r3, c3, hpk⟩ := parseShape_rt k ks hk kt ksp hk1 f
              (by simp only [parseNeedEntries] at hfuel; omega) r2 c2
              (' ' :: (vt ++ ']' :: (ts2 ++ ')' :: rest2)))
              (restNoDigit_cons (by decide) _)
            rw [hpk, bindE2_ok]
            obtain ⟨chv, vt2, hvte, hvw, hv3, hv4⟩ := encodeCS_head v vt vsp hv1
            have hx : ∀ ch2, (vt ++ ']' :: (ts2 ++ ')' :: rest2)).head? = some ch2 →
                rustIsWhitespace ch2 = false := by
              intro ch2 hch2
              rw [hvte] at hch2
              simp at hch2
              subst hch2
              exact hvw
            obtain ⟨r4, c4, hsk⟩ := skip_whitespace_prefix [' ']
              (by intro x hx2; simp at hx2; subst hx2; decide)
              (vt ++ ']' :: (ts2 ++ ')' :: rest2)) hx r3 c3
            simp only [List.cons_append, List.nil_append] at hsk
            rw [hsk]
            obtain ⟨r5, c5, hpv⟩ := parseShape_rt v vls hv2 vt vsp hv1 f
              (by simp only [parseNeedEntries] at hfuel; omega) r4 c4
              (']' :: (ts2 ++ ')' :: rest2)) (restNoDigit_cons (by decide) _)
            rw [hpv, bindE2_ok]
            obtain ⟨r6, c6, hbr⟩ := expects_ok ']' [] (ts2 ++ ')' :: rest2) r5 c5 (by decide)
            simp only [List.cons_append, List.nil_append] at hbr
            rw [hbr, bindE1_ok]
            obtain ⟨r7, c7, hrec⟩ := parseEntries_rt es2 ks vls hs vsp ts2 fsp2 he1 f
              (by simp only [parseNeedEntries] at hfuel; omega) r6 c6 rest2
            rw [hrec, bindE2_ok]
            exact ⟨r7, c7, rfl⟩
end


/-- C7: concrete encoder outputs of the reference test `test_00`
(src/symtree/src/test.rs). The first four assertions hold; the map case
does NOT produce the asserted text: nothing pends a separator after an
entry's closing `]`, and a bool value leaves no pending separator, so the
two entries are emitted with no space between them —
`(map ['a' true]['b' false])` — contradicting the test's (and the
claim's) `(map ['a' true] ['b' false])`. -/
theorem test_00_scenarios :
    to_string (.vInt 4) = some "+4".data ∧
    to_string (.vSeq [.vBool true, .vChar 'c']) = some "[true 'c']".data ∧
    to_string (.vSome (.vStr "hello".data)) = some "(some \"hello\")".data ∧
    to_string (.vSeq [.vNat 3, .vNat 2, .vNat 0]) = some "[3 2 0]".data ∧
    to_string (.vMap [(.vChar 'a', .vBool true), (.vChar 'b', .vBool false)]) =
      some "(map ['a' true]['b' false])".data := by
  refine ⟨?_, ?_, ?_, ?_, ?_⟩ <;>
    · simp [to_string, serializeValue, serializeElems, serializeFields,
        serializeEntries, serializeVariant, Serializer.write,
        Serializer.ensure_spacing, Serializer.indentInc, Serializer.dedent,
        signedRepr, escapeDebugChar, escapeDebugStrChar]
      decide


/-- C9: overlong UTF-8 is accepted — `next_code_point` (and
`try_next_code_point`) validate only the lead/continuation bit patterns
and the final scalar range, so the non-minimal two-byte sequence
`[0xC1, 0x81]` decodes to `Ok(Some('A'))` instead of an `InvalidUtf8`
error. -/
theorem overlong_utf8_accepted :
    Codepoint.next_code_point [0xC1, 0x81] () = .ok (some ('A', [])) ∧
    Codepoint.try_next_code_point [.ok 0xC1, .ok 0x81] () = .ok (some ('A', [])) :=
  ⟨rfl, rfl⟩

/-- C10: the empty hex escape is accepted — `parse_hex` consumes zero or
more digits starting from accumulator 0 (a non-digit lookahead returns 0
at once), so the string literal `"\{}"` deserializes successfully to the
one-character string containing U+0000. -/
theorem empty_hex_escape_accepted :
    from_str .sString ['"', '\\', '\x7b', '\x7d', '"'] = .ok (.vStr [Char.ofNat 0]) ∧
    De.parse_hex ⟨0, 0, ['\x7d']⟩ = .ok (0, ⟨0, 0, ['\x7d']⟩) :=
  ⟨rfl, rfl⟩

/-- C5: whole-input consumption — whenever the shape-driven deserialize
succeeds but non-whitespace input remains after skipping trailing
whitespace, `from_str` (and `from_reader`, the same composition over a
fallible source) returns `TrailingCharacters`. -/
theorem from_str_trailing_characters (s : Shape) (input : List Char) (v : Value) (d : De)
    (hparse : parseShape (2 * input.length + 2) s ⟨0, 0, input⟩ = .ok (v, d))
    (hrest : d.skip_whitespace.input ≠ []) :
    from_str s input = .error .trailingCharacters := by
  rw [from_str, hparse, bindE2_ok]
  rcases h : d.skip_whitespace.input with _ | ⟨c, rest⟩
  · exact absurd h hrest
  · simp [h]

/-- C5 witness: `from_str::<i64>("+4 garbage")` is `TrailingCharacters`. -/
theorem from_str_trailing_characters_witness :
    from_str (.sInt 64) "+4 garbage".data = .error .trailingCharacters :=
  from_str_trailing_characters (.sInt 64) "+4 garbage".data (.vInt 4)
    ⟨0, 2, " garbage".data⟩ rfl (by decide)

/-- C8: boundary asymmetry at `i64::MIN` — the serializer emits exactly
`-9223372036854775808` for it, but `parse_i64` accumulates the magnitude
in a non-negative `i64` before applying the sign, so parsing that text
back overflows. -/
theorem i64_min_asymmetry :
    from_str (.sInt 64) "-9223372036854775808".data = .error .numberOverflow ∧
    to_string (.vInt (-9223372036854775808)) = some "-9223372036854775808".data := by
  refine ⟨rfl, ?_⟩
  simp [to_string, serializeValue, Serializer.write, signedRepr]
  decide


/-- C3 counterexample: the claim has the newtype/struct variant support
backwards. A newtype enum variant is NOT encodable —
`serialize_newtype_variant` is `unimplemented!()` (the panic, modeled
`none`) — while a struct-shaped variant IS implemented and serializes
like a struct headed by the variant's kebab-case name. -/
theorem enum_variant_claim_counterexample :
    to_string (.vVariant ['V'] (.newtypeV .vUnit)) = Option.none ∧
    to_string (.vVariant ['V'] (.structV [])) = some "(v)".data := by
  constructor
  · simp [to_string, serializeValue, serializeVariant]
  · simp [to_string, serializeValue, serializeVariant, serializeFields,
      Serializer.write, Ascase.to_kebab_case, Ascase.toKebabGo,
      Serializer.indentInc, Serializer.dedent]
    decide

/-- C3 amended: on the encode side only unit and struct-shaped enum
variants are implemented — a unit variant `V` is emitted as `(` followed
by the kebab-case of `V` and `)`, a struct-shaped variant serializes
exactly like a struct named after the variant, and newtype and
tuple-shaped variants are left `unimplemented!()`. -/
theorem enum_variant_encode_support :
    (∀ variant : List Char, to_string (.vVariant variant .unitV) =
      some ('(' :: Ascase.to_kebab_case variant ++ [')'])) ∧
    (∀ (variant : List Char) (v : Value),
      to_string (.vVariant variant (.newtypeV v)) = Option.none) ∧
    (∀ (variant : List Char) (vs : List Value),
      to_string (.vVariant variant (.tupleV vs)) = Option.none) ∧
    (∀ (variant : List Char) (fs : List Value) (st : Serializer),
      serializeValue st (.vVariant variant (.structV fs)) =
      serializeValue st (.vStruct variant fs)) := by
  refine ⟨fun variant => ?_, fun variant v => ?_, fun variant vs => ?_,
    fun variant fs st => ?_⟩
  · simp [to_string, serializeValue, serializeVariant, Serializer.write]
  · simp [to_string, serializeValue, serializeVariant]
  · simp [to_string, serializeValue, serializeVariant]
  · simp [serializeValue, serializeVariant]

/-- C1 counterexample: the round trip fails on the supported shape
`char` at the tab character. The serializer debug-escapes it as `\t`
(producing `'\t'`), but `parse_escape` understands only `\'`, `\"`,
`\n`, `\\` and `\u{..}`-style hex escapes, so deserializing the
serializer's own output yields `InvalidEscape('t')` instead of the
value. -/
theorem char_tab_round_trip_fails :
    to_string (.vChar '\t') = some "'\\t'".data ∧
    from_str .sChar "'\\t'".data = .error (.invalidEscape 't') := by
  constructor
  · rw [to_string_encodeCS, encodeCS]
    simp only [Option.map_some']
    decide
  · rfl

/-- C1: round trip through the format, corrected. The claim's statement
is false as given (see `char_tab_round_trip_fails`: the tab character is
a supported shape whose encoding does not parse back); it holds for
every value satisfying `Obeys`: built from the encoder-implemented
shapes (no newtype/tuple enum variants), characters and string contents
printable ASCII or newline, integers in range with `i64::MIN` excluded,
struct names ASCII alphanumeric and variant names PascalCase resolvable
in their enum. For such values serialization succeeds and
deserializing the produced text returns exactly the original value. -/
theorem round_trip_for_obeying_values (v : Value) (s : Shape) (hob : Obeys v s) :
    ∃ out, to_string v = some out ∧ from_str s out = .ok v := by
  obtain ⟨⟨t, sp⟩, henc⟩ := encodeCS_total v s hob
  have hts : to_string v = some t := by
    rw [to_string_encodeCS, henc]
    rfl
  refine ⟨t, hts, ?_⟩
  rw [from_str]
  have hneed : parseNeed v ≤ 2 * t.length + 2 := by
    have := parseNeed_le v s hob t sp henc
    omega
  obtain ⟨r2, c2, hp⟩ := parseShape_rt v s hob t sp henc (2 * t.length + 2) hneed 0 0 []
    restNoDigit_nil
  simp only [List.append_nil] at hp
  rw [hp, bindE2_ok]
  rfl

/-- C1 witness: the corrected round trip at a concrete composite value
(a struct with an integer, a character, a string, an option, a list, a
map and a unit enum variant as fields). -/
theorem round_trip_for_obeying_values_witness :
    ∃ out, to_string (Value.vStruct ['M', 's', 'g']
        [.vInt 4, .vChar 'c', .vStr ['h', 'i'], .vSome (.vBool true),
         .vSeq [.vNat 3, .vNat 0], .vMap [(.vChar 'a', .vBool true)],
         .vVariant ['O', 'k'] .unitV]) = some out ∧
      from_str (Shape.sStruct ['M', 's', 'g']
        [.sInt 8, .sChar, .sString, .sOption .sBool,
         .sList (.sNat 8), .sMap .sChar .sBool,
         .sEnum [(['O', 'k'], .unitVS)]]) out =
        .ok (Value.vStruct ['M', 's', 'g']
        [.vInt 4, .vChar 'c', .vStr ['h', 'i'], .vSome (.vBool true),
         .vSeq [.vNat 3, .vNat 0], .vMap [(.vChar 'a', .vBool true)],
         .vVariant ['O', 'k'] .unitV]) :=
  round_trip_for_obeying_values _ _ (by
    apply Obeys.struct
    · decide
    · decide
    · apply ObeysTuple.cons
      · exact Obeys.int 8 4 (by decide) (by decide) (by decide) (by decide)
      · apply ObeysTuple.cons
        · exact Obeys.char 'c' (Or.inl (by decide))
        · apply ObeysTuple.cons
          · exact Obeys.str ['h', 'i'] (by
              intro x hx
              simp at hx
              rcases hx with h | h
              · subst h
                exact Or.inl (by decide)
              · subst h
                exact Or.inl (by decide))
          · apply ObeysTuple.cons
            · exact Obeys.someV _ _ (Obeys.bool true)
            · apply ObeysTuple.cons
              · exact Obeys.list _ _ (ObeysList.cons _ _ _
                  (Obeys.nat 8 3 (by decide) (by decide))
                  (ObeysList.cons _ _ _ (Obeys.nat 8 0 (by decide) (by decide))
                    (ObeysList.nil _)))
              · apply ObeysTuple.cons
                · exact Obeys.map _ _ _ (ObeysEntries.cons _ _ _ _ _
                    (Obeys.char 'a' (Or.inl (by decide))) (Obeys.bool true)
                    (ObeysEntries.nil _ _))
                · apply ObeysTuple.cons
                  · exact Obeys.variantUnit ['O', 'k'] _ (by
                      simp only [pascalIdent]
                      exact ⟨by decide, by intro d hd; simp at hd; subst hd; decide⟩)
                      (by rw [findVariant]; simp)
                  · exact ObeysTuple.nil)

end Symtree
